import Mathlib

/-!
Shallow embedding of parts of the rustrithm competitive-programming library
(src/src/...), together with proofs about the embedded operations.

Rust data structures are modelled as follows:
  * `BTreeSet<T>` is a strictly sorted list of `T` (iteration order = ascending),
  * `BTreeMap<K,V>` is an association list strictly sorted by key,
  * vectors are `List`s, `usize` indices are `Nat`, `i64` values are `Int`
    (with Rust truncated `%` and `/` rendered as `Int.tmod` / `Int.tdiv`).
Loops become folds or structural recursions; methods that can panic return
`Option`.
-/

namespace Rustrithm

/-! ## collection/coord_cmp.rs and util/coord_cmp.rs -/

namespace Collection

variable {T : Type*} [LinearOrder T]

/-- Model of `BTreeSet::insert`: put `x` into a sorted duplicate-free list,
keeping a single copy of each value. -/
def btreeInsert (x : T) : List T → List T
  | [] => [x]
  | y :: ys =>
    if x < y then x :: y :: ys
    else if x = y then y :: ys
    else y :: btreeInsert x ys

/-- Model of `BTreeMap::insert`: put the pair `(k, v)` into an association
list sorted by key, replacing any previous binding of `k`. -/
def btreeMapInsert {α β : Type*} [LinearOrder α] (k : α) (v : β) :
    List (α × β) → List (α × β)
  | [] => [(k, v)]
  | p :: ps =>
    if k < p.1 then (k, v) :: p :: ps
    else if k = p.1 then (k, v) :: ps
    else p :: btreeMapInsert k v ps

/-- Model of `BTreeMap::get`. -/
def mapGet {α β : Type*} [DecidableEq α] (k : α) : List (α × β) → Option β
  | [] => none
  | p :: ps => if p.1 = k then some p.2 else mapGet k ps

/-- Embedding of `collection::coord_cmp::coord_cmp`: builds the set of
values, numbers them in ascending order into `to_id` and `to_val`, and
replaces every element by its id.  Returns
`(compressed, to_id, to_val, size)`. -/
def coord_cmp (a : List T) :
    List Nat × List (T × Nat) × List (Nat × T) × Nat :=
  let set : List T := a.foldl (fun s x => btreeInsert x s) []
  let sid : Nat × List (T × Nat) × List (Nat × T) :=
    set.foldl
      (fun acc val =>
        (acc.1 + 1, btreeMapInsert val acc.1 acc.2.1,
          btreeMapInsert acc.1 val acc.2.2))
      (0, [], [])
  let compressed : List Nat := a.map (fun x => (mapGet x sid.2.1).getD 0)
  (compressed, sid.2.1, sid.2.2, sid.1)

end Collection

namespace Util

variable {T : Type*} [LinearOrder T]

/-- Embedding of `util::coord_cmp::coord_cmp`: same construction but only
`(compressed, size)` is returned (the `mem` map is internal). -/
def coord_cmp (a : List T) : List Nat × Nat :=
  let set : List T := a.foldl (fun s x => Collection.btreeInsert x s) []
  let sm : Nat × List (T × Nat) :=
    set.foldl
      (fun acc key => (acc.1 + 1, Collection.btreeMapInsert key acc.1 acc.2))
      (0, [])
  (a.map (fun x => (Collection.mapGet x sm.2).getD 0), sm.1)

end Util

namespace Collection

variable {T : Type*} [LinearOrder T]

lemma mem_btreeInsert (x y : T) (l : List T) :
    y ∈ btreeInsert x l ↔ y = x ∨ y ∈ l := by
  induction l with
  | nil => simp [btreeInsert]
  | cons z zs ih =>
    by_cases h1 : x < z
    · simp [btreeInsert, h1]
    · by_cases h2 : x = z
      · rw [btreeInsert, if_neg h1, if_pos h2]
        subst h2
        simp only [List.mem_cons]
        tauto
      · simp [btreeInsert, h1, h2, ih]
        tauto

lemma sorted_btreeInsert (x : T) (l : List T)
    (hl : l.Sorted (· < ·)) : (btreeInsert x l).Sorted (· < ·) := by
  induction l with
  | nil => simp [btreeInsert]
  | cons z zs ih =>
    rw [List.sorted_cons] at hl
    by_cases h1 : x < z
    · rw [btreeInsert, if_pos h1, List.sorted_cons]
      refine ⟨?_, ?_⟩
      · intro b hb
        rcases List.mem_cons.mp hb with rfl | hb
        · exact h1
        · exact h1.trans (hl.1 b hb)
      · rw [List.sorted_cons]; exact hl
    · by_cases h2 : x = z
      · rw [btreeInsert, if_neg h1, if_pos h2, List.sorted_cons]; exact hl
      · rw [btreeInsert, if_neg h1, if_neg h2, List.sorted_cons]
        have hzx : z < x := by
          rcases lt_trichotomy x z with h | h | h
          · exact absurd h h1
          · exact absurd h h2
          · exact h
        refine ⟨?_, ih hl.2⟩
        intro b hb
        rcases (mem_btreeInsert x b zs).mp hb with rfl | hb
        · exact hzx
        · exact hl.1 b hb

/-- The set accumulated by the first loop of both `coord_cmp` versions. -/
@[reducible] def buildSet (a : List T) : List T :=
  a.foldl (fun s x => btreeInsert x s) []

lemma sorted_buildSet_aux (a : List T) (s : List T) (hs : s.Sorted (· < ·)) :
    (a.foldl (fun s x => btreeInsert x s) s).Sorted (· < ·) := by
  induction a generalizing s with
  | nil => simpa
  | cons x xs ih => exact ih _ (sorted_btreeInsert x s hs)

lemma sorted_buildSet (a : List T) : (buildSet a).Sorted (· < ·) :=
  sorted_buildSet_aux a [] (by simp)

lemma mem_buildSet_aux (a : List T) (s : List T) (y : T) :
    y ∈ a.foldl (fun s x => btreeInsert x s) s ↔ y ∈ a ∨ y ∈ s := by
  induction a generalizing s with
  | nil => simp
  | cons x xs ih =>
    simp only [List.foldl_cons, ih, mem_btreeInsert, List.mem_cons]
    tauto

lemma mem_buildSet (a : List T) (y : T) : y ∈ buildSet a ↔ y ∈ a := by
  simp [buildSet, mem_buildSet_aux]

lemma nodup_buildSet (a : List T) : (buildSet a).Nodup :=
  (sorted_buildSet a).nodup

/-- The numbering loop of both versions, viewed on the shared components
`(size, to_id)` only: processing the value list `l` starting from counter
`n` and map `m`. -/
lemma fold_triple_pair (l : List T) :
    ∀ (n : Nat) (m : List (T × Nat)) (mv : List (Nat × T)),
    (l.foldl
        (fun acc val =>
          (acc.1 + 1, btreeMapInsert val acc.1 acc.2.1,
            btreeMapInsert acc.1 val acc.2.2)) (n, m, mv)).1 =
      (l.foldl
        (fun acc key => (acc.1 + 1, btreeMapInsert key acc.1 acc.2)) (n, m)).1 ∧
    (l.foldl
        (fun acc val =>
          (acc.1 + 1, btreeMapInsert val acc.1 acc.2.1,
            btreeMapInsert acc.1 val acc.2.2)) (n, m, mv)).2.1 =
      (l.foldl
        (fun acc key => (acc.1 + 1, btreeMapInsert key acc.1 acc.2)) (n, m)).2 := by
  induction l with
  | nil => intro n m mv; exact ⟨rfl, rfl⟩
  | cons x xs ih =>
    intro n m mv
    simpa using ih (n + 1) (btreeMapInsert x n m) (btreeMapInsert n x mv)

/-- Value list with consecutive ids attached, starting at `n`. -/
def numbered : List T → Nat → List (T × Nat)
  | [], _ => []
  | x :: xs, n => (x, n) :: numbered xs (n + 1)

lemma btreeMapInsert_append (k : T) (v : Nat) (m : List (T × Nat))
    (h : ∀ p ∈ m, p.1 < k) : btreeMapInsert k v m = m ++ [(k, v)] := by
  induction m with
  | nil => rfl
  | cons p ps ih =>
    have hp : p.1 < k := h p (by simp)
    rw [btreeMapInsert, if_neg (asymm hp), if_neg (ne_of_gt hp)]
    simp only [List.cons_append, List.cons.injEq, true_and]
    exact ih fun q hq => h q (by simp [hq])

lemma utilFold_eq_numbered (l : List T) (hl : l.Sorted (· < ·)) :
    ∀ (n : Nat) (m : List (T × Nat)), (∀ p ∈ m, ∀ y ∈ l, p.1 < y) →
    (l.foldl
        (fun acc key => (acc.1 + 1, btreeMapInsert key acc.1 acc.2)) (n, m)).2 =
      m ++ numbered l n := by
  induction l with
  | nil => intro n m _; simp [numbered]
  | cons x xs ih =>
    intro n m hm
    rw [List.sorted_cons] at hl
    have hx : btreeMapInsert x n m = m ++ [(x, n)] :=
      btreeMapInsert_append x n m fun p hp => hm p hp x (by simp)
    have hrec := ih hl.2 (n + 1) (m ++ [(x, n)]) ?_
    · simp only [List.foldl_cons, hx, hrec, numbered, List.append_assoc,
        List.singleton_append]
    · intro p hp y hy
      rcases List.mem_append.mp hp with hp | hp
      · exact hm p hp y (by simp [hy])
      · simp only [List.mem_singleton] at hp
        subst hp
        exact hl.1 y hy

lemma utilFold_size (l : List T) :
    ∀ (n : Nat) (m : List (T × Nat)),
    (l.foldl
        (fun acc key => (acc.1 + 1, btreeMapInsert key acc.1 acc.2)) (n, m)).1 =
      n + l.length := by
  induction l with
  | nil => intro n m; simp
  | cons x xs ih =>
    intro n m
    simp only [List.foldl_cons, ih, List.length_cons]
    omega

lemma mapGet_append_of_not_mem {α β : Type*} [DecidableEq α] (k : α)
    (m m2 : List (α × β)) (h : ∀ p ∈ m, p.1 ≠ k) :
    mapGet k (m ++ m2) = mapGet k m2 := by
  induction m with
  | nil => rfl
  | cons p ps ih =>
    have : p.1 ≠ k := h p (by simp)
    simp only [List.cons_append, mapGet, if_neg this]
    exact ih fun q hq => h q (by simp [hq])

lemma mapGet_numbered (l : List T) (hl : l.Sorted (· < ·)) (x : T)
    (hx : x ∈ l) : ∀ n : Nat,
    mapGet x (numbered l n) =
      some (n + (l.filter (fun y => decide (y < x))).length) := by
  induction l with
  | nil => cases hx
  | cons z zs ih =>
    intro n
    rw [List.sorted_cons] at hl
    by_cases hzx : z = x
    · subst hzx
      have h1 : List.filter (fun y => decide (y < z)) zs = [] :=
        List.filter_eq_nil_iff.mpr fun y hy => by
          simp only [decide_eq_true_eq]
          exact asymm (hl.1 y hy)
      simp [numbered, mapGet, List.filter_cons, h1]
    · have hxzs : x ∈ zs := by
        rcases List.mem_cons.mp hx with h | h
        · exact absurd h.symm hzx
        · exact h
      have hzlt : z < x := hl.1 x hxzs
      have h1 : List.filter (fun y => decide (y < x)) (z :: zs) =
          z :: List.filter (fun y => decide (y < x)) zs := by
        simp [List.filter_cons, hzlt]
      rw [h1, numbered]
      simp only [mapGet, if_neg hzx, ih hl.2 hxzs, List.length_cons]
      congr 1
      omega

lemma buildSet_toFinset (a : List T) : (buildSet a).toFinset = a.toFinset := by
  ext y
  simp [mem_buildSet]

/-- C4: the two near-duplicate versions of `coord_cmp` compute the same
function: on every input list, `collection::coord_cmp` and
`util::coord_cmp` return the same compressed index vector — each element
replaced by its rank among the distinct values of the input — and the same
count of distinct values. -/
theorem coord_cmp_versions_agree {T : Type*} [LinearOrder T] (a : List T) :
    (Collection.coord_cmp a).1 = (Util.coord_cmp a).1 ∧
    (Collection.coord_cmp a).2.2.2 = (Util.coord_cmp a).2 ∧
    (Collection.coord_cmp a).1 =
      a.map (fun x => (a.toFinset.filter (fun y => y < x)).card) ∧
    (Collection.coord_cmp a).2.2.2 = a.toFinset.card := by
  have hpair := fold_triple_pair (T := T) (buildSet a) 0 [] []
  have hsize := utilFold_size (T := T) (buildSet a) 0 []
  have hnum := utilFold_eq_numbered (buildSet a) (sorted_buildSet a) 0 []
    (by intro p hp; cases hp)
  have hone : (Collection.coord_cmp a).1 = (Util.coord_cmp a).1 := by
    simp only [Collection.coord_cmp, Util.coord_cmp, buildSet] at hpair ⊢
    rw [hpair.2]
  have htwo : (Collection.coord_cmp a).2.2.2 = (Util.coord_cmp a).2 := by
    simp only [Collection.coord_cmp, Util.coord_cmp, buildSet] at hpair ⊢
    rw [hpair.1]
  refine ⟨hone, htwo, ?_, ?_⟩
  · rw [hone]
    have hmap : (Util.coord_cmp a).1 =
        a.map (fun x => (a.toFinset.filter (fun y => y < x)).card) := by
      simp only [Util.coord_cmp, buildSet] at hnum ⊢
      rw [hnum]
      simp only [List.nil_append]
      refine List.map_congr_left ?_
      intro x hx
      have hxset : x ∈ buildSet a := (mem_buildSet a x).mpr hx
      rw [mapGet_numbered (buildSet a) (sorted_buildSet a) x hxset 0]
      simp only [Option.getD_some, Nat.zero_add]
      rw [← List.toFinset_card_of_nodup ((nodup_buildSet a).filter _),
        List.toFinset_filter, buildSet_toFinset]
      simp
    exact hmap
  · rw [htwo]
    simp only [Util.coord_cmp, buildSet] at hsize ⊢
    rw [hsize]
    rw [← buildSet_toFinset a, List.toFinset_card_of_nodup (nodup_buildSet a)]
    simp [buildSet]

end Collection

/-! ## collection/max_queue.rs -/

namespace MaxQ

variable {T : Type*} [LinearOrder T]

/-- `MaxQueueItem`: a stored value together with the running maximum of the
stack below it. -/
structure MaxQueueItem (T : Type*) where
  val : T
  mx : T
  deriving Repr, DecidableEq

/-- `MaxStack` is a `Vec<MaxQueueItem<T>>`; we keep the TOP of the stack at
the head of the list. -/
def MaxStack (T : Type*) : Type _ := List (MaxQueueItem T)

/-- `MaxStack::get_max`. -/
def MaxStack.get_max (st : MaxStack T) : Option T :=
  (st : List (MaxQueueItem T)).head?.map (·.mx)

/-- `MaxStack::push`. -/
def MaxStack.push (st : MaxStack T) (val : T) : MaxStack T :=
  let m := max (MaxStack.get_max st |>.getD val) val
  (⟨val, m⟩ : MaxQueueItem T) :: st

/-- `MaxStack::pop`. -/
def MaxStack.pop (st : MaxStack T) : Option (MaxQueueItem T) × MaxStack T :=
  match st with
  | [] => (none, [])
  | i :: rest => (some i, rest)

/-- `MaxStack::len`. -/
def MaxStack.len (st : MaxStack T) : Nat :=
  (st : List (MaxQueueItem T)).length

/-- `MaxQueue`: a FIFO queue as two max-stacks. -/
structure MaxQueue (T : Type*) where
  left_stack : MaxStack T
  right_stack : MaxStack T

/-- `MaxQueue::new`. -/
def MaxQueue.new : MaxQueue T := ⟨[], []⟩

/-- `MaxQueue::with_capacity` (capacity is irrelevant to the model). -/
def MaxQueue.with_capacity (_n : Nat) : MaxQueue T := ⟨[], []⟩

/-- The `while let Some(item) = right.pop() { left.push(item.val) }` loop
of `maybe_move`. -/
def moveAll : List (MaxQueueItem T) → MaxStack T → MaxStack T
  | [], l => l
  | i :: rest, l => moveAll rest (MaxStack.push l i.val)

/-- `MaxQueue::maybe_move`. -/
def MaxQueue.maybe_move (q : MaxQueue T) : MaxQueue T :=
  if MaxStack.len q.left_stack = 0 then
    ⟨moveAll q.right_stack q.left_stack, []⟩
  else q

/-- `MaxQueue::pop`, returning the popped value and the new state. -/
def MaxQueue.popQ (q : MaxQueue T) : Option T × MaxQueue T :=
  let q1 := q.maybe_move
  match q1.left_stack with
  | [] => (none, q1)
  | i :: rest => (some i.val, ⟨rest, q1.right_stack⟩)

/-- `MaxQueue::peek`, returning the peeked value and the new state. -/
def MaxQueue.peek (q : MaxQueue T) : Option T × MaxQueue T :=
  let q1 := q.maybe_move
  if MaxStack.len q1.left_stack = 0 then (none, q1)
  else ((q1.left_stack : List (MaxQueueItem T)).head?.map (·.val), q1)

/-- `MaxQueue::push`. -/
def MaxQueue.pushQ (q : MaxQueue T) (val : T) : MaxQueue T :=
  ⟨q.left_stack, MaxStack.push q.right_stack val⟩

/-- `MaxQueue::len`. -/
def MaxQueue.lenQ (q : MaxQueue T) : Nat :=
  MaxStack.len q.left_stack + MaxStack.len q.right_stack

/-- `MaxQueue::get_max`, returning the maximum and the new state. -/
def MaxQueue.get_max (q : MaxQueue T) : Option T × MaxQueue T :=
  let q1 := q.maybe_move
  match MaxStack.get_max q1.left_stack with
  | none => (none, q1)
  | some left => (some (max ((MaxStack.get_max q1.right_stack).getD left) left), q1)

/-- Values stored in a stack, top first. -/
def vals (st : MaxStack T) : List T := (st : List (MaxQueueItem T)).map (·.val)

/-- Abstraction: the queue contents, oldest element first. -/
def absQ (q : MaxQueue T) : List T :=
  vals q.left_stack ++ (vals q.right_stack).reverse

/-- Maximum of `x` and all elements of `xs`, as the code folds it. -/
def maxOf (x : T) (xs : List T) : T := xs.foldl max x

/-- Invariant of a max-stack: every item's cached `mx` is the maximum of
its own value and everything below it. -/
def goodStack : MaxStack T → Prop
  | [] => True
  | i :: rest => i.mx = maxOf i.val (vals rest) ∧ goodStack rest

/-- Invariant of the whole queue. -/
def Inv (q : MaxQueue T) : Prop := goodStack q.left_stack ∧ goodStack q.right_stack

lemma foldl_max_max (l : List T) : ∀ a b : T,
    l.foldl max (max a b) = max a (l.foldl max b) := by
  induction l with
  | nil => intro a b; rfl
  | cons x xs ih =>
    intro a b
    simp only [List.foldl_cons, max_assoc, ih]

lemma maxOf_cons (v : T) (y : T) (l : List T) :
    maxOf v (y :: l) = max v (maxOf y l) := by
  simp only [maxOf, List.foldl_cons]
  rw [show max v y = max v y from rfl, foldl_max_max]

lemma self_le_maxOf (x : T) (xs : List T) : x ≤ maxOf x xs := by
  induction xs generalizing x with
  | nil => exact le_refl x
  | cons y ys ih =>
    rw [maxOf_cons]
    exact le_max_of_le_left (le_refl x) |>.trans (le_of_eq rfl) |>.trans
      (by exact le_refl _)

lemma le_maxOf_of_mem (x : T) (xs : List T) (y : T) (hy : y ∈ xs) :
    y ≤ maxOf x xs := by
  induction xs generalizing x with
  | nil => cases hy
  | cons z zs ih =>
    rw [maxOf_cons]
    rcases List.mem_cons.mp hy with rfl | hy
    · exact le_max_of_le_right (self_le_maxOf y zs)
    · exact le_max_of_le_right (ih z hy)

lemma maxOf_mem (x : T) (xs : List T) : maxOf x xs = x ∨ maxOf x xs ∈ xs := by
  induction xs generalizing x with
  | nil => exact Or.inl rfl
  | cons y ys ih =>
    rw [maxOf_cons]
    rcases max_cases x (maxOf y ys) with ⟨h, _⟩ | ⟨h, _⟩
    · exact Or.inl h
    · rcases ih y with h2 | h2
      · exact Or.inr (by rw [h, h2]; exact List.mem_cons_self _ _)
      · exact Or.inr (by rw [h]; exact List.mem_cons_of_mem _ h2)

lemma get_max_cons (i : MaxQueueItem T) (rest : List (MaxQueueItem T))
    (h : goodStack ((i :: rest : List (MaxQueueItem T)) : MaxStack T)) :
    MaxStack.get_max ((i :: rest : List (MaxQueueItem T)) : MaxStack T) =
      some (maxOf i.val (vals rest)) := by
  simp only [MaxStack.get_max, List.head?, Option.map_some]
  exact congrArg some h.1

lemma goodStack_push (st : MaxStack T) (v : T) (h : goodStack st) :
    goodStack (MaxStack.push st v) := by
  match st with
  | [] =>
    simp only [MaxStack.push, MaxStack.get_max, goodStack]
    constructor
    · simp [maxOf, vals]
    · trivial
  | i :: rest =>
    refine ⟨?_, h⟩
    simp only [MaxStack.push, MaxStack.get_max, List.head?, Option.map_some,
      Option.getD_some]
    have : vals ((i :: rest : List (MaxQueueItem T)) : MaxStack T) =
        i.val :: vals rest := rfl
    show max i.mx v = maxOf v (i.val :: vals rest)
    rw [h.1, maxOf_cons, max_comm]

lemma vals_push (st : MaxStack T) (v : T) :
    vals (MaxStack.push st v) = v :: vals st := rfl

lemma vals_moveAll (r : List (MaxQueueItem T)) : ∀ l : MaxStack T,
    vals (moveAll r l) = (r.map (·.val)).reverse ++ vals l := by
  induction r with
  | nil => intro l; simp [moveAll]
  | cons i rest ih =>
    intro l
    simp only [moveAll, ih, vals_push, List.map_cons, List.reverse_cons,
      List.append_assoc, List.singleton_append]

lemma goodStack_moveAll (r : List (MaxQueueItem T)) : ∀ l : MaxStack T,
    goodStack l → goodStack (moveAll r l) := by
  induction r with
  | nil => intro l h; exact h
  | cons i rest ih => intro l h; exact ih _ (goodStack_push l i.val h)

lemma maybe_move_abs (q : MaxQueue T) : absQ q.maybe_move = absQ q := by
  by_cases h : MaxStack.len q.left_stack = 0
  · have hl : (q.left_stack : List (MaxQueueItem T)) = [] :=
      List.length_eq_zero.mp h
    rw [MaxQueue.maybe_move, if_pos h]
    show vals (moveAll q.right_stack q.left_stack) ++
        (vals ([] : MaxStack T)).reverse =
      vals q.left_stack ++ (vals q.right_stack).reverse
    rw [vals_moveAll]
    have hv : vals q.left_stack = [] := by simp [vals, hl]
    rw [hv]
    simp [vals]
  · simp [MaxQueue.maybe_move, if_neg h]

lemma maybe_move_inv (q : MaxQueue T) (h : Inv q) : Inv q.maybe_move := by
  by_cases hl : MaxStack.len q.left_stack = 0
  · simp only [MaxQueue.maybe_move, if_pos hl]
    exact ⟨goodStack_moveAll _ _ h.1, trivial⟩
  · simpa [MaxQueue.maybe_move, if_neg hl] using h

lemma maybe_move_left_nil (q : MaxQueue T)
    (h : (q.maybe_move.left_stack : List (MaxQueueItem T)) = []) :
    absQ q = [] := by
  rw [← maybe_move_abs]
  by_cases hl : MaxStack.len q.left_stack = 0
  · simp only [MaxQueue.maybe_move, if_pos hl] at h ⊢
    simp only [absQ, h]
    simp [vals]
  · simp only [MaxQueue.maybe_move, if_neg hl] at h ⊢
    exact absurd (by rw [h]; rfl) hl

lemma maxOf_is_max (x : T) (xs : List T) :
    maxOf x xs ∈ x :: xs ∧ ∀ y ∈ x :: xs, y ≤ maxOf x xs := by
  constructor
  · rcases maxOf_mem x xs with h | h
    · rw [h]; exact List.mem_cons_self _ _
    · exact List.mem_cons_of_mem _ h
  · intro y hy
    rcases List.mem_cons.mp hy with rfl | hy
    · exact self_le_maxOf y xs
    · exact le_maxOf_of_mem x xs y hy

lemma pop_spec (q : MaxQueue T) (h : Inv q) :
    (q.popQ).1 = (absQ q).head? ∧ absQ (q.popQ).2 = (absQ q).tail ∧
      Inv (q.popQ).2 := by
  have habs := maybe_move_abs q
  have hinv := maybe_move_inv q h
  rcases hq1 : (q.maybe_move.left_stack : List (MaxQueueItem T)) with _ | ⟨i, rest⟩
  · have h0 : absQ q = [] := maybe_move_left_nil q hq1
    have : q.popQ = (none, q.maybe_move) := by
      simp only [MaxQueue.popQ]
      rw [hq1]
    rw [this, h0, habs, h0]
    exact ⟨rfl, rfl, hinv⟩
  · have hpop : q.popQ = (some i.val, ⟨rest, q.maybe_move.right_stack⟩) := by
      simp only [MaxQueue.popQ]
      rw [hq1]
    have habs1 : absQ q =
        i.val :: (vals rest ++ (vals q.maybe_move.right_stack).reverse) := by
      rw [← habs]
      show vals q.maybe_move.left_stack ++ _ = _
      rw [hq1]
      rfl
    rw [hpop, habs1]
    refine ⟨rfl, rfl, ?_, hinv.2⟩
    have := hinv.1
    rw [hq1] at this
    exact this.2

lemma peek_spec (q : MaxQueue T) (h : Inv q) :
    (q.peek).1 = (absQ q).head? ∧ absQ (q.peek).2 = absQ q ∧
      Inv (q.peek).2 := by
  have habs := maybe_move_abs q
  have hinv := maybe_move_inv q h
  rcases hq1 : (q.maybe_move.left_stack : List (MaxQueueItem T)) with _ | ⟨i, rest⟩
  · have h0 : absQ q = [] := maybe_move_left_nil q hq1
    have hlen : MaxStack.len q.maybe_move.left_stack = 0 := by
      simp [MaxStack.len, hq1]
    have : q.peek = (none, q.maybe_move) := by
      simp only [MaxQueue.peek]
      rw [if_pos hlen]
    rw [this, h0, habs, h0]
    exact ⟨rfl, rfl, hinv⟩
  · have hlen : ¬ MaxStack.len q.maybe_move.left_stack = 0 := by
      simp [MaxStack.len, hq1]
    have hpk : q.peek =
        ((q.maybe_move.left_stack : List (MaxQueueItem T)).head?.map (·.val),
          q.maybe_move) := by
      simp only [MaxQueue.peek]
      rw [if_neg hlen]
    have habs1 : absQ q =
        i.val :: (vals rest ++ (vals q.maybe_move.right_stack).reverse) := by
      rw [← habs]
      show vals q.maybe_move.left_stack ++ _ = _
      rw [hq1]
      rfl
    rw [hpk, habs1, habs, habs1, hq1]
    exact ⟨rfl, rfl, hinv⟩

lemma push_spec (q : MaxQueue T) (h : Inv q) (v : T) :
    absQ (q.pushQ v) = absQ q ++ [v] ∧ Inv (q.pushQ v) := by
  constructor
  · show vals q.left_stack ++ (vals (MaxStack.push q.right_stack v)).reverse = _
    rw [vals_push]
    simp [absQ]
  · exact ⟨h.1, goodStack_push _ _ h.2⟩

omit [LinearOrder T] in
lemma len_spec (q : MaxQueue T) : q.lenQ = (absQ q).length := by
  simp [MaxQueue.lenQ, MaxStack.len, absQ, vals]

lemma get_max_spec (q : MaxQueue T) (h : Inv q) :
    ((q.get_max).1 = none ↔ absQ q = []) ∧
    (∀ m, (q.get_max).1 = some m → m ∈ absQ q ∧ ∀ x ∈ absQ q, x ≤ m) ∧
    absQ (q.get_max).2 = absQ q ∧ Inv (q.get_max).2 := by
  have habs := maybe_move_abs q
  have hinv := maybe_move_inv q h
  rcases hq1 : (q.maybe_move.left_stack : List (MaxQueueItem T)) with _ | ⟨i, rest⟩
  · have h0 : absQ q = [] := maybe_move_left_nil q hq1
    have hgm : MaxStack.get_max q.maybe_move.left_stack = none := by
      simp [MaxStack.get_max, hq1]
    have hres : q.get_max = (none, q.maybe_move) := by
      simp only [MaxQueue.get_max]
      rw [hgm]
    rw [hres]
    refine ⟨by simp [h0], ?_, by rw [habs], hinv⟩
    intro m hm
    cases hm
  · have hgood : goodStack ((i :: rest : List (MaxQueueItem T)) : MaxStack T) := by
      have h1 := hinv.1
      rw [hq1] at h1
      exact h1
    have hgm : MaxStack.get_max q.maybe_move.left_stack =
        some (maxOf i.val (vals rest)) := by
      rw [hq1]
      exact get_max_cons i rest hgood
    have habs1 : absQ q =
        (i.val :: vals rest) ++ (vals q.maybe_move.right_stack).reverse := by
      rw [← habs]
      show vals q.maybe_move.left_stack ++ _ = _
      rw [hq1]
      rfl
    have hL := maxOf_is_max i.val (vals rest)
    have hmain : ∃ m, q.get_max = (some m, q.maybe_move) ∧
        m ∈ absQ q ∧ ∀ x ∈ absQ q, x ≤ m := by
      rcases hr : (q.maybe_move.right_stack : List (MaxQueueItem T)) with _ | ⟨j, rrest⟩
      · have hgr : MaxStack.get_max q.maybe_move.right_stack = none := by
          simp [MaxStack.get_max, hr]
        refine ⟨maxOf i.val (vals rest), ?_, ?_, ?_⟩
        · simp only [MaxQueue.get_max]
          rw [hgm]
          show (some ((MaxStack.get_max q.maybe_move.right_stack).getD
              (maxOf i.val (vals rest)) ⊔ maxOf i.val (vals rest)),
            q.maybe_move) = _
          rw [hgr]
          simp
        · rw [habs1]
          exact List.mem_append.mpr (Or.inl hL.1)
        · intro x hx
          rw [habs1] at hx
          have hvr : vals q.maybe_move.right_stack = [] := by simp [vals, hr]
          rw [hvr] at hx
          simp only [List.reverse_nil, List.append_nil] at hx
          exact hL.2 x hx
      · have hgoodr : goodStack ((j :: rrest : List (MaxQueueItem T)) : MaxStack T) := by
          have h2 := hinv.2
          rw [hr] at h2
          exact h2
        have hgr : MaxStack.get_max q.maybe_move.right_stack =
            some (maxOf j.val (vals rrest)) := by
          rw [hr]
          exact get_max_cons j rrest hgoodr
        have hvr : vals q.maybe_move.right_stack = j.val :: vals rrest := by
          simp [vals, hr]
        have hR := maxOf_is_max j.val (vals rrest)
        refine ⟨max (maxOf j.val (vals rrest)) (maxOf i.val (vals rest)), ?_, ?_, ?_⟩
        · simp only [MaxQueue.get_max]
          rw [hgm]
          show (some ((MaxStack.get_max q.maybe_move.right_stack).getD
              (maxOf i.val (vals rest)) ⊔ maxOf i.val (vals rest)),
            q.maybe_move) = _
          rw [hgr]
          rfl
        · rw [habs1, hvr]
          rcases max_cases (maxOf j.val (vals rrest)) (maxOf i.val (vals rest)) with
            ⟨hm, _⟩ | ⟨hm, _⟩
          · rw [hm]
            exact List.mem_append.mpr (Or.inr (List.mem_reverse.mpr hR.1))
          · rw [hm]
            exact List.mem_append.mpr (Or.inl hL.1)
        · intro x hx
          rw [habs1, hvr] at hx
          rcases List.mem_append.mp hx with hx | hx
          · exact le_max_of_le_right (hL.2 x hx)
          · exact le_max_of_le_left (hR.2 x (List.mem_reverse.mp hx))
    obtain ⟨m, hres, hmem, hbound⟩ := hmain
    rw [hres]
    refine ⟨?_, ?_, by rw [habs], hinv⟩
    · simp only [Option.some_ne_none, false_iff]
      rw [habs1]
      simp
    · intro m2 hm2
      rw [Option.some_inj] at hm2
      subst hm2
      exact ⟨hmem, hbound⟩

/-- C10: starting from `new` or `with_capacity`, `MaxQueue` behaves as a
FIFO queue with maximum tracking. Relative to the abstract queue contents
`absQ q` (oldest first): `pop` removes and returns the oldest element
(`none` when empty), `peek` returns it without removing it, `push` appends,
`len` is the number of held elements, and `get_max` returns a held element
that bounds all held elements (`none` when empty). The invariant `Inv`
holds initially and is preserved by every operation. -/
theorem max_queue_correct {T : Type*} [LinearOrder T] :
    Inv (MaxQueue.new : MaxQueue T) ∧
    (∀ n : Nat, Inv (MaxQueue.with_capacity (T := T) n)) ∧
    (∀ q : MaxQueue T, Inv q →
      ((q.popQ).1 = (absQ q).head? ∧ absQ (q.popQ).2 = (absQ q).tail ∧
        Inv (q.popQ).2) ∧
      ((q.peek).1 = (absQ q).head? ∧ absQ (q.peek).2 = absQ q ∧
        Inv (q.peek).2) ∧
      (∀ v, absQ (q.pushQ v) = absQ q ++ [v] ∧ Inv (q.pushQ v)) ∧
      q.lenQ = (absQ q).length ∧
      (((q.get_max).1 = none ↔ absQ q = []) ∧
        (∀ m, (q.get_max).1 = some m → m ∈ absQ q ∧ ∀ x ∈ absQ q, x ≤ m) ∧
        absQ (q.get_max).2 = absQ q ∧ Inv (q.get_max).2)) := by
  refine ⟨⟨trivial, trivial⟩, fun _ => ⟨trivial, trivial⟩, fun q h => ?_⟩
  exact ⟨pop_spec q h, peek_spec q h, fun v => push_spec q h v, len_spec q,
    get_max_spec q h⟩

/-- Witness for C10 at a concrete queue: push 3 onto the empty queue, then
pop returns 3. -/
theorem max_queue_correct_witness :
    ((MaxQueue.new.pushQ (3 : Nat)).popQ).1 =
      (absQ (MaxQueue.new.pushQ (3 : Nat))).head? :=
  ((max_queue_correct.2.2 (MaxQueue.new.pushQ (3 : Nat))
    ⟨trivial, by decide, trivial⟩).1).1

end MaxQ

/-! ## range_query/fenwick.rs -/

namespace RangeQuery

/-- `idx & -idx` where `idx` is cast to a 64-bit two's-complement integer:
the bit pattern of `-idx` is `2^64 - idx`, so the result is
`idx &&& (2^64 - idx)`. -/
def lowbit (i : Nat) : Nat := i &&& (2 ^ 64 - i)

/-- Width-generic version of `lowbit` used for the proofs. -/
def lowW (w i : Nat) : Nat := i &&& (2 ^ w - i)

lemma lowbit_eq_lowW (i : Nat) : lowbit i = lowW 64 i := rfl

lemma testBit_two_mul_zero (j : Nat) : (2 * j).testBit 0 = false := by
  simp [Nat.testBit_zero, Nat.mul_mod_right]

lemma testBit_two_mul_succ (j t : Nat) : (2 * j).testBit (t + 1) = j.testBit t := by
  rw [Nat.testBit_add_one]
  congr 1
  omega

lemma lowW_odd (w i : Nat) (hw : 0 < w) (hi : i < 2 ^ w) (hodd : i % 2 = 1) :
    lowW w i = 1 := by
  have h1 : 1 ≤ i := by omega
  have hx : i - 1 < 2 ^ w := by omega
  apply Nat.eq_of_testBit_eq
  intro t
  rw [lowW, Nat.testBit_land]
  have hsub : 2 ^ w - i = 2 ^ w - ((i - 1) + 1) := by omega
  rw [hsub, Nat.testBit_two_pow_sub_succ hx]
  cases t with
  | zero =>
    have hib : i.testBit 0 = true := by simp [Nat.testBit_zero, hodd]
    have hi1 : (i - 1).testBit 0 = false := by
      simp [Nat.testBit_zero]
      omega
    have h2w : (0 : Nat) < w := hw
    simp [hib, hi1, h2w]
  | succ t =>
    have hdiv : (i - 1) / 2 = i / 2 := by omega
    have : (i - 1).testBit (t + 1) = i.testBit (t + 1) := by
      rw [Nat.testBit_add_one, Nat.testBit_add_one, hdiv]
    rw [this]
    have h1t : (1 : Nat).testBit (t + 1) = false := by
      simp [Nat.testBit_add_one]
    rw [h1t]
    cases hb : i.testBit (t + 1) <;> simp [hb]

lemma lowW_even (w j : Nat) (hj : 0 < j) (hjw : j ≤ 2 ^ w) :
    lowW (w + 1) (2 * j) = 2 * lowW w j := by
  have hsub : 2 ^ (w + 1) - 2 * j = 2 * (2 ^ w - j) := by
    rw [pow_succ]
    omega
  apply Nat.eq_of_testBit_eq
  intro t
  rw [lowW, Nat.testBit_land, hsub]
  cases t with
  | zero =>
    simp [testBit_two_mul_zero]
  | succ t =>
    rw [testBit_two_mul_succ, testBit_two_mul_succ, testBit_two_mul_succ,
      lowW, Nat.testBit_land]

lemma lowW_pos (w : Nat) : ∀ i, 0 < i → i < 2 ^ w → 0 < lowW w i := by
  induction w with
  | zero => intro i h1 h2; omega
  | succ w ih =>
    intro i h1 h2
    rcases Nat.even_or_odd i with he | ho
    · obtain ⟨j, hj⟩ := he
      have hj2 : i = 2 * j := by omega
      subst hj2
      have hjp : 0 < j := by omega
      have hjw : j ≤ 2 ^ w := by
        rw [pow_succ] at h2
        omega
      rw [lowW_even w j hjp hjw]
      have := ih j hjp (by omega)
      omega
    · have hmod : i % 2 = 1 := Nat.odd_iff.mp ho
      rw [lowW_odd (w + 1) i (by omega) h2 hmod]
      omega

lemma lowW_le (w : Nat) : ∀ i, 0 < i → i < 2 ^ w → lowW w i ≤ i := by
  induction w with
  | zero => intro i h1 h2; omega
  | succ w ih =>
    intro i h1 h2
    rcases Nat.even_or_odd i with he | ho
    · obtain ⟨j, hj⟩ := he
      have hj2 : i = 2 * j := by omega
      subst hj2
      have hjp : 0 < j := by omega
      have hjw : j ≤ 2 ^ w := by
        rw [pow_succ] at h2
        omega
      rw [lowW_even w j hjp hjw]
      have := ih j hjp (by omega)
      omega
    · have hmod : i % 2 = 1 := Nat.odd_iff.mp ho
      rw [lowW_odd (w + 1) i (by omega) h2 hmod]
      omega

/-- Fenwick path step lemma: the nodes `j` whose covered range
`(j - lowbit j, j]` contains `p` are exactly `p` itself together with the
nodes whose range contains `p + lowbit p`. -/
lemma lowW_step (w : Nat) : ∀ p j, 0 < p → p < 2 ^ w → 0 < j → j < 2 ^ w →
    ((p ≤ j ∧ j - lowW w j < p) ↔
      (j = p ∨ (p + lowW w p ≤ j ∧ j - lowW w j < p + lowW w p))) := by
  induction w with
  | zero =>
    intro p j h1 h2 h3 h4
    have : (2 : Nat) ^ 0 = 1 := rfl
    omega
  | succ w ih =>
    intro p j hp hpw hj hjw
    rcases Nat.even_or_odd p with hpe | hpo
    · obtain ⟨p2, hp2⟩ := hpe
      have hp2' : p = 2 * p2 := by omega
      subst hp2'
      have hpp : 0 < p2 := by omega
      have hpw2 : p2 < 2 ^ w := by rw [pow_succ] at hpw; omega
      rcases Nat.even_or_odd j with hje | hjo
      · obtain ⟨j2, hj2⟩ := hje
        have hj2' : j = 2 * j2 := by omega
        subst hj2'
        have hjj : 0 < j2 := by omega
        have hjw2 : j2 < 2 ^ w := by rw [pow_succ] at hjw; omega
        rw [lowW_even w p2 hpp (le_of_lt hpw2), lowW_even w j2 hjj (le_of_lt hjw2)]
        have hIH := ih p2 j2 hpp hpw2 hjj hjw2
        omega
      · have hjmod : j % 2 = 1 := Nat.odd_iff.mp hjo
        rw [lowW_odd (w + 1) j (by omega) hjw hjmod,
          lowW_even w p2 hpp (le_of_lt hpw2)]
        omega
    · have hpmod : p % 2 = 1 := Nat.odd_iff.mp hpo
      rw [lowW_odd (w + 1) p (by omega) hpw hpmod]
      rcases Nat.even_or_odd j with hje | hjo
      · obtain ⟨j2, hj2⟩ := hje
        have hj2' : j = 2 * j2 := by omega
        subst hj2'
        have hjj : 0 < j2 := by omega
        have hjw2 : j2 < 2 ^ w := by rw [pow_succ] at hjw; omega
        rw [lowW_even w j2 hjj (le_of_lt hjw2)]
        omega
      · have hjmod : j % 2 = 1 := Nat.odd_iff.mp hjo
        rw [lowW_odd (w + 1) j (by omega) hjw hjmod]
        omega

lemma lowbit_pos (i : Nat) (h1 : 0 < i) (h2 : i < 2 ^ 64) : 0 < lowbit i := by
  rw [lowbit_eq_lowW]
  exact lowW_pos 64 i h1 h2

lemma lowbit_le (i : Nat) (h1 : 0 < i) (h2 : i < 2 ^ 64) : lowbit i ≤ i := by
  rw [lowbit_eq_lowW]
  exact lowW_le 64 i h1 h2

lemma lowbit_step (p j : Nat) (hp : 0 < p) (hpw : p < 2 ^ 64) (hj : 0 < j)
    (hjw : j < 2 ^ 64) :
    (p ≤ j ∧ j - lowbit j < p) ↔
      (j = p ∨ (p + lowbit p ≤ j ∧ j - lowbit j < p + lowbit p)) := by
  rw [lowbit_eq_lowW, lowbit_eq_lowW]
  exact lowW_step 64 p j hp hpw hj hjw

/-- Embedding of `FenwickTree`. -/
structure FenwickTree (T : Type*) where
  identity : T
  n : Nat
  bit : List T

variable {T : Type*} [AddCommGroup T]

/-- `FenwickTree::new`. -/
def FenwickTree.new (n : Nat) (identity : T) : FenwickTree T :=
  ⟨identity, n, List.replicate (n + 1) identity⟩

/-- The update loop of `add` (`idx` already shifted by one), with fuel;
`none` is never returned with adequate fuel. -/
def addLoop (n : Nat) (a : T) : Nat → Nat → List T → Option (List T)
  | 0, idx, bit => if idx > n then some bit else none
  | fuel + 1, idx, bit =>
    if idx > n then some bit
    else addLoop n a fuel (idx + lowbit idx) (bit.set idx (bit.getD idx 0 + a))

/-- `FenwickTree::add`; `none` models the out-of-bounds panic. -/
def FenwickTree.add (t : FenwickTree T) (idx : Nat) (a : T) :
    Option (FenwickTree T) :=
  if idx ≥ t.n then none
  else (addLoop t.n a (t.n + 1) (idx + 1) t.bit).map fun b => { t with bit := b }

/-- The accumulation loop of `sum0`, with fuel. -/
def sum0Loop (t : FenwickTree T) : Nat → Nat → T → Option T
  | 0, idx, acc => if idx = 0 then some acc else none
  | fuel + 1, idx, acc =>
    if idx = 0 then some acc
    else sum0Loop t fuel (idx - lowbit idx) (acc + t.bit.getD idx t.identity)

/-- `FenwickTree::sum0`. -/
def FenwickTree.sum0 (t : FenwickTree T) (idx : Nat) : Option T :=
  sum0Loop t (idx + 1) idx t.identity

/-- `FenwickTree::sum`; `none` models the invalid-range panic. -/
def FenwickTree.sum (t : FenwickTree T) (l r : Nat) : Option T :=
  if l > r then none
  else match t.sum0 r, t.sum0 l with
    | some a, some b => some (a - b)
    | _, _ => none

/-- Run a sequence of `add` calls. -/
def runAdds (t : FenwickTree T) (adds : List (Nat × T)) :
    Option (FenwickTree T) :=
  adds.foldl (fun ot p => ot.bind fun s => s.add p.1 p.2) (some t)

/-- Prefix sums of the abstract array. -/
def S (A : Nat → T) (k : Nat) : T := ∑ i ∈ Finset.range k, A i

/-- Coupling invariant: `bit[j]` holds the sum of the abstract values in
the 1-based interval `(j - lowbit j, j]`. -/
def Represents (t : FenwickTree T) (A : Nat → T) : Prop :=
  t.identity = 0 ∧ t.n < 2 ^ 63 ∧ t.bit.length = t.n + 1 ∧
  ∀ j, 1 ≤ j → j ≤ t.n → t.bit.getD j 0 = S A j - S A (j - lowbit j)

/-- Total value added at each index by a list of `add` calls. -/
def accum (adds : List (Nat × T)) (i : Nat) : T :=
  ((adds.filter fun p => decide (p.1 = i)).map (·.2)).sum

lemma replicate_getD {α : Type*} (m j : Nat) (c d : α) (h : j < m) :
    (List.replicate m c).getD j d = c := by
  rw [List.getD_eq_getElem?_getD, List.getElem?_replicate, if_pos h]
  rfl

lemma represents_new (n : Nat) (hn : n < 2 ^ 63) :
    Represents (FenwickTree.new n (0 : T)) (fun _ => 0) := by
  refine ⟨rfl, hn, by simp [FenwickTree.new], ?_⟩
  intro j h1 h2
  have hnn : (FenwickTree.new n (0 : T)).n = n := rfl
  rw [hnn] at h2
  have : (FenwickTree.new n (0 : T)).bit.getD j 0 = 0 :=
    replicate_getD (n + 1) j 0 0 (by omega)
  rw [this]
  simp [S]

lemma represents_congr (t : FenwickTree T) (A B : Nat → T)
    (h : Represents t A) (hAB : ∀ i, A i = B i) : Represents t B := by
  refine ⟨h.1, h.2.1, h.2.2.1, ?_⟩
  intro j h1 h2
  rw [h.2.2.2 j h1 h2]
  have : ∀ k, S A k = S B k := fun k => Finset.sum_congr rfl fun i _ => hAB i
  rw [this, this]

lemma addLoop_spec (n : Nat) (a : T) :
    ∀ fuel p (bit : List T), 0 < p → p < 2 ^ 64 → n < 2 ^ 63 →
      bit.length = n + 1 → n + 2 - p ≤ fuel →
    ∃ bit2, addLoop n a fuel p bit = some bit2 ∧ bit2.length = bit.length ∧
      ∀ j, j ≤ n → bit2.getD j 0 =
        bit.getD j 0 + (if p ≤ j ∧ j - lowbit j < p then a else 0) := by
  intro fuel
  induction fuel with
  | zero =>
    intro p bit hp hpw hn hblen hfuel
    have hpn : p > n := by omega
    refine ⟨bit, by simp [addLoop, hpn], rfl, ?_⟩
    intro j hj
    rw [if_neg (by omega), add_zero]
  | succ fuel ih =>
    intro p bit hp hpw hn hblen hfuel
    by_cases hpn : p > n
    · refine ⟨bit, by simp [addLoop, hpn], rfl, ?_⟩
      intro j hj
      rw [if_neg (by omega), add_zero]
    · push_neg at hpn
      have hlow := lowbit_pos p hp hpw
      have hlowle := lowbit_le p hp hpw
      have h64 : (2 : Nat) ^ 63 + 2 ^ 63 = 2 ^ 64 := by norm_num
      have hq1 : 0 < p + lowbit p := by omega
      have hq2 : p + lowbit p < 2 ^ 64 := by omega
      have hqf : n + 2 - (p + lowbit p) ≤ fuel := by omega
      have hblen2 : (bit.set p (bit.getD p 0 + a)).length = n + 1 := by
        rw [List.length_set, hblen]
      obtain ⟨bit2, heq, hlen, hspec⟩ :=
        ih (p + lowbit p) (bit.set p (bit.getD p 0 + a)) hq1 hq2 hn hblen2 hqf
      refine ⟨bit2, ?_, ?_, ?_⟩
      · simp only [addLoop, if_neg (by omega : ¬ p > n)]
        exact heq
      · rw [hlen, List.length_set]
      · intro j hj
        have hj2 := hspec j hj
        by_cases hjp : j = p
        · subst hjp
          have hqp : ¬ (j + lowbit j ≤ j ∧ j - lowbit j < j + lowbit j) := by
            omega
          rw [if_neg hqp, add_zero] at hj2
          have hset : (bit.set j (bit.getD j 0 + a)).getD j 0 =
              bit.getD j 0 + a := by
            rw [List.getD_eq_getElem?_getD,
              List.getElem?_set_self (by omega), Option.getD_some]
          rw [hset] at hj2
          rw [hj2, if_pos ⟨le_refl j, by omega⟩]
        · have hset : (bit.set p (bit.getD p 0 + a)).getD j 0 =
              bit.getD j 0 := by
            rw [List.getD_eq_getElem?_getD,
              List.getElem?_set_ne (fun h => hjp h.symm),
              ← List.getD_eq_getElem?_getD]
          rw [hset] at hj2
          rw [hj2]
          by_cases hjz : j = 0
          · subst hjz
            rw [if_neg (by omega), if_neg (by omega)]
          · have hstep := lowbit_step p j hp hpw (by omega) (by omega)
            have hiff : (p + lowbit p ≤ j ∧ j - lowbit j < p + lowbit p) ↔
                (p ≤ j ∧ j - lowbit j < p) := by
              rw [hstep]
              exact (or_iff_right hjp).symm
            exact congrArg (bit.getD j 0 + ·) (if_congr hiff rfl rfl)

lemma add_spec (t : FenwickTree T) (A : Nat → T) (h : Represents t A)
    (idx : Nat) (a : T) (hidx : idx < t.n) :
    ∃ t2, t.add idx a = some t2 ∧ t2.n = t.n ∧ t2.identity = t.identity ∧
      Represents t2 (fun i => if i = idx then A i + a else A i) := by
  obtain ⟨hid, hn, hblen, hbit⟩ := h
  have h64 : (2 : Nat) ^ 63 + 2 ^ 63 = 2 ^ 64 := by norm_num
  obtain ⟨bit2, heq, hlen, hspec⟩ := addLoop_spec t.n a (t.n + 1) (idx + 1)
    t.bit (by omega) (by omega) hn hblen (by omega)
  refine ⟨{ t with bit := bit2 }, ?_, rfl, rfl, ?_⟩
  · rw [FenwickTree.add, if_neg (by omega), heq]
    rfl
  · refine ⟨hid, hn, by rw [hlen, hblen], ?_⟩
    intro j h1 h2
    have hj2 := hspec j h2
    show bit2.getD j 0 = _
    rw [hj2, hbit j h1 h2]
    have hS : ∀ k, S (fun i => if i = idx then A i + a else A i) k =
        S A k + (if idx < k then a else 0) := by
      intro k
      have : ∀ i ∈ Finset.range k,
          (if i = idx then A i + a else A i) =
            A i + (if idx = i then a else 0) := by
        intro i _
        by_cases hii : i = idx
        · subst hii
          rw [if_pos rfl, if_pos rfl]
        · rw [if_neg hii, if_neg (fun hc => hii hc.symm), add_zero]
      rw [S, Finset.sum_congr rfl this, Finset.sum_add_distrib,
        Finset.sum_ite_eq]
      simp [Finset.mem_range, S]
    rw [hS, hS]
    have h2' : j ≤ t.n := h2
    have hle : lowbit j ≤ j := lowbit_le j (by omega) (by omega)
    by_cases hc : idx + 1 ≤ j ∧ j - lowbit j < idx + 1
    · rw [if_pos hc, if_pos (by omega), if_neg (by omega)]
      abel
    · rw [if_neg hc]
      by_cases hc2 : idx < j - lowbit j
      · rw [if_pos (by omega), if_pos hc2]
        abel
      · rw [if_neg (by omega), if_neg hc2]
        abel

lemma sum0Loop_spec (t : FenwickTree T) (A : Nat → T) (h : Represents t A) :
    ∀ fuel idx acc, idx ≤ t.n → idx < fuel →
      sum0Loop t fuel idx acc = some (acc + S A idx) := by
  intro fuel
  induction fuel with
  | zero => intro idx acc h1 h2; omega
  | succ fuel ih =>
    intro idx acc h1 h2
    by_cases hz : idx = 0
    · subst hz
      simp [sum0Loop, S]
    · have h64 : (2 : Nat) ^ 63 + 2 ^ 63 = 2 ^ 64 := by norm_num
      have hn := h.2.1
      have hlow := lowbit_pos idx (by omega) (by omega)
      have hle := lowbit_le idx (by omega) (by omega)
      have hbit := h.2.2.2 idx (by omega) h1
      simp only [sum0Loop, if_neg hz]
      rw [h.1] at *
      rw [ih (idx - lowbit idx) (acc + t.bit.getD idx 0) (by omega) (by omega)]
      rw [hbit]
      congr 1
      abel

lemma sum_spec (t : FenwickTree T) (A : Nat → T) (h : Represents t A)
    (l r : Nat) (hlr : l ≤ r) (hr : r ≤ t.n) :
    t.sum l r = some (∑ i ∈ Finset.Ico l r, A i) := by
  have hs0r : t.sum0 r = some (t.identity + S A r) :=
    sum0Loop_spec t A h (r + 1) r t.identity hr (by omega)
  have hs0l : t.sum0 l = some (t.identity + S A l) :=
    sum0Loop_spec t A h (l + 1) l t.identity (by omega) (by omega)
  rw [FenwickTree.sum, if_neg (by omega), hs0r, hs0l]
  show some (t.identity + S A r - (t.identity + S A l)) = _
  rw [Finset.sum_Ico_eq_sub A hlr, h.1]
  congr 1
  simp only [S]
  abel

lemma accum_cons (p : Nat × T) (rest : List (Nat × T)) (i : Nat) :
    accum (p :: rest) i = (if p.1 = i then p.2 else 0) + accum rest i := by
  by_cases hp : p.1 = i
  · simp [accum, List.filter_cons, hp]
  · simp [accum, List.filter_cons, hp]

lemma runAdds_spec : ∀ (adds : List (Nat × T)) (t : FenwickTree T)
    (A : Nat → T), Represents t A → (∀ p ∈ adds, p.1 < t.n) →
    ∃ t2, runAdds t adds = some t2 ∧ t2.n = t.n ∧
      Represents t2 (fun i => A i + accum adds i) := by
  intro adds
  induction adds with
  | nil =>
    intro t A h hb
    refine ⟨t, rfl, rfl, represents_congr t A _ h ?_⟩
    intro i
    simp [accum]
  | cons p rest ih =>
    intro t A h hb
    obtain ⟨t1, heq1, hn1, hid1, hrep1⟩ :=
      add_spec t A h p.1 p.2 (hb p (by simp))
    obtain ⟨t2, heq2, hn2, hrep2⟩ := ih t1 _ hrep1 (by
      intro q hq
      rw [hn1]
      exact hb q (by simp [hq]))
    refine ⟨t2, ?_, by rw [hn2, hn1], represents_congr t2 _ _ hrep2 ?_⟩
    · show List.foldl _ (Option.bind (some t) fun s => s.add p.1 p.2) rest = _
      rw [Option.bind, heq1]
      exact heq2
    · intro i
      rw [accum_cons]
      by_cases hip : i = p.1
      · subst hip
        rw [if_pos rfl, if_pos rfl]
        abel
      · rw [if_neg hip, if_neg (fun hc => hip hc.symm)]
        abel

lemma sum_Ico_accum (adds : List (Nat × T)) (l r : Nat) :
    ∑ i ∈ Finset.Ico l r, accum adds i =
      ((adds.filter fun p => decide (l ≤ p.1) && decide (p.1 < r)).map
        (·.2)).sum := by
  induction adds with
  | nil => simp [accum]
  | cons p rest ih =>
    have hsplit : ∑ i ∈ Finset.Ico l r, accum (p :: rest) i =
        (∑ i ∈ Finset.Ico l r, (if p.1 = i then p.2 else 0)) +
          ∑ i ∈ Finset.Ico l r, accum rest i := by
      rw [← Finset.sum_add_distrib]
      exact Finset.sum_congr rfl fun i _ => accum_cons p rest i
    rw [hsplit, Finset.sum_ite_eq, ih]
    by_cases hpr : l ≤ p.1 ∧ p.1 < r
    · rw [if_pos (Finset.mem_Ico.mpr hpr)]
      have : (p :: rest).filter (fun q => decide (l ≤ q.1) && decide (q.1 < r)) =
          p :: rest.filter (fun q => decide (l ≤ q.1) && decide (q.1 < r)) := by
        simp [List.filter_cons, hpr.1, hpr.2]
      rw [this, List.map_cons, List.sum_cons]
    · rw [if_neg (fun hc => hpr (Finset.mem_Ico.mp hc))]
      have : (p :: rest).filter (fun q => decide (l ≤ q.1) && decide (q.1 < r)) =
          rest.filter (fun q => decide (l ≤ q.1) && decide (q.1 < r)) := by
        rcases Decidable.not_and_iff_or_not.mp hpr with hc | hc <;>
          simp [List.filter_cons, hc]
      rw [this, zero_add]

/-- C7: for every Fenwick tree built by `new n 0` over a commutative
additive group followed by any sequence of `add(idx, a)` calls with all
`idx < n`: `sum(l, r)` with `l ≤ r ≤ n` returns the sum of the values
added at indices in `[l, r)` (the identity for an empty range, since an
empty sum is `0`), while `add` at `idx ≥ n` and `sum` with `l > r` panic
(return `none`) without touching the structure. -/
theorem fenwick_correct {T : Type*} [AddCommGroup T] (n : Nat)
    (hn : n < 2 ^ 63) (adds : List (Nat × T))
    (hadds : ∀ p ∈ adds, p.1 < n) :
    ∃ t : FenwickTree T, runAdds (FenwickTree.new n (0 : T)) adds = some t ∧
      (∀ l r, l ≤ r → r ≤ n → t.sum l r =
        some (((adds.filter fun p => decide (l ≤ p.1) && decide (p.1 < r)).map
          (·.2)).sum)) ∧
      (∀ idx a, n ≤ idx → t.add idx a = none) ∧
      (∀ l r, r < l → t.sum l r = none) := by
  obtain ⟨t, heq, hnn, hrep⟩ := runAdds_spec adds (FenwickTree.new n (0 : T))
    (fun _ => 0) (represents_new n hn) (fun p hp => hadds p hp)
  have hnn2 : t.n = n := hnn
  refine ⟨t, heq, ?_, ?_, ?_⟩
  · intro l r hlr hr
    rw [sum_spec t _ hrep l r hlr (by omega)]
    congr 1
    rw [← sum_Ico_accum adds l r]
    exact Finset.sum_congr rfl fun i _ => zero_add _
  · intro idx a hidx
    rw [FenwickTree.add, if_pos (by omega)]
  · intro l r hrl
    rw [FenwickTree.sum, if_pos (by omega)]

/-- Witness for C7: the tree over the integers with `n = 10` and adds
taken from the unit test; the sum over `[4, 7)` is `9`. -/
theorem fenwick_correct_witness :
    ∃ t : FenwickTree Int,
      runAdds (FenwickTree.new 10 (0 : Int)) [(4, 3), (5, 3), (6, 3)] =
        some t ∧
      (∀ l r, l ≤ r → r ≤ 10 → t.sum l r =
        some ((([((4 : Nat), (3 : Int)), (5, 3), (6, 3)].filter
          fun p => decide (l ≤ p.1) && decide (p.1 < r)).map (·.2)).sum)) ∧
      (∀ idx a, 10 ≤ idx → t.add idx a = none) ∧
      (∀ l r, r < l → t.sum l r = none) :=
  fenwick_correct 10 (by norm_num) [(4, 3), (5, 3), (6, 3)] (by decide)

end RangeQuery

/-! ## math/crt.rs -/

namespace MathCrt

lemma natAbs_tmod (a b : Int) : (a.tmod b).natAbs = a.natAbs % b.natAbs := by
  rcases a with m | m <;> rcases b with n | n <;>
    simp [Int.tmod, Int.natAbs_neg] <;> norm_cast

lemma natAbs_tmod_lt (a b : Int) (hb : b ≠ 0) :
    (a.tmod b).natAbs < b.natAbs := by
  rw [natAbs_tmod]
  exact Nat.mod_lt _ (Nat.pos_of_ne_zero (Int.natAbs_ne_zero.mpr hb))

/-- Reference (unbounded-integer) semantics of `extended_gcd`: returns
`(d, x, y)` with `x * a + y * b = d` and `d = |gcd(a, b)|`. The faithful
i64 embedding `extended_gcd` below agrees with it wherever no operation
overflows. -/
def egcdR (a b : Int) : Int × Int × Int :=
  if hb : b = 0 then ((a.natAbs : Int), a.sign, 0)
  else
    let r := egcdR b (Int.tmod a b)
    (r.1, r.2.2, r.2.1 - r.2.2 * (Int.tdiv a b))
termination_by b.natAbs
decreasing_by exact natAbs_tmod_lt a b hb

lemma gcd_shift (a b k : Int) : Int.gcd b (a - b * k) = Int.gcd a b := by
  apply Nat.dvd_antisymm
  · rw [← Int.natCast_dvd_natCast]
    apply Int.dvd_gcd
    · have h1 : (↑(Int.gcd b (a - b * k)) : Int) ∣ b := Int.gcd_dvd_left
      have h2 : (↑(Int.gcd b (a - b * k)) : Int) ∣ a - b * k := Int.gcd_dvd_right
      have hs : (↑(Int.gcd b (a - b * k)) : Int) ∣ (a - b * k) + b * k :=
        dvd_add h2 (h1.mul_right k)
      have hs2 : a - b * k + b * k = a := by ring
      rw [hs2] at hs
      exact hs
    · exact Int.gcd_dvd_left
  · rw [← Int.natCast_dvd_natCast]
    apply Int.dvd_gcd
    · exact Int.gcd_dvd_right
    · have h1 : (↑(Int.gcd a b) : Int) ∣ a := Int.gcd_dvd_left
      have h2 : (↑(Int.gcd a b) : Int) ∣ b := Int.gcd_dvd_right
      exact dvd_sub h1 (h2.mul_right k)

lemma egcdR_spec (a b : Int) :
    (egcdR a b).1 = (Int.gcd a b : Int) ∧
      (egcdR a b).2.1 * a + (egcdR a b).2.2 * b =
        (egcdR a b).1 := by
  generalize hn : b.natAbs = n
  induction n using Nat.strong_induction_on generalizing a b with
  | _ n ih =>
    by_cases hb : b = 0
    · subst hb
      rw [egcdR]
      simp only [dif_pos rfl]
      refine ⟨by simp [Int.gcd], ?_⟩
      show a.sign * a + 0 * 0 = (a.natAbs : Int)
      rcases lt_trichotomy a 0 with h | h | h
      · rw [Int.sign_eq_neg_one_of_neg h]
        omega
      · subst h
        simp
      · rw [Int.sign_eq_one_of_pos h]
        omega
    · have hrec := ih (Int.tmod a b).natAbs
        (by rw [← hn]; exact natAbs_tmod_lt a b hb) b (Int.tmod a b) rfl
      have htm : Int.tmod a b = a - b * Int.tdiv a b := by
        have := Int.tdiv_add_tmod a b
        omega
      rw [egcdR]
      simp only [dif_neg hb]
      constructor
      · show (egcdR b (Int.tmod a b)).1 = _
        rw [hrec.1, htm, gcd_shift, Int.gcd_comm]
      · show (egcdR b (Int.tmod a b)).2.2 * a +
            ((egcdR b (Int.tmod a b)).2.1 -
              (egcdR b (Int.tmod a b)).2.2 * Int.tdiv a b) * b =
          (egcdR b (Int.tmod a b)).1
        have hb2 := hrec.2
        rw [← hb2, htm]
        ring

/-- Reference (unbounded-integer) semantics of the body of the `crt`
loop after the swap that ensures `m0 >= m1`. -/
def crtMergeR (r0 m0 r1 m1 : Int) : Option (Int × Int) :=
  if Int.tmod m0 m1 = 0 then
    if Int.tmod r0 m1 ≠ r1 then none else some (r0, m0)
  else
    let egr := egcdR m0 m1
    let g := egr.1
    let u := egr.2.1
    if Int.tmod (r1 - r0) g ≠ 0 then none
    else
      let m1g := Int.tdiv m1 g
      let im := Int.tmod (u + m1g) m1g
      let w := Int.tmod (Int.tdiv (r1 - r0) g) m1g
      let x := r0 + (Int.tmod (w * im) m1g) * m0
      let m0n := m0 * m1g
      some (Int.tmod (x + m0n) m0n, m0n)

/-- Reference semantics of one iteration of the `crt` loop on the
(already normalized) pair. -/
def crtStepR (r0 m0 r1 m1 : Int) : Option (Int × Int) :=
  if m0 < m1 then crtMergeR r1 m1 r0 m0 else crtMergeR r0 m0 r1 m1

/-- Reference semantics of the `crt` loop over the zipped
`(remainder, modulus)` list; `none` models both the panic on a modulus
`< 1` and a `return None`. -/
def crtLoopR : List (Int × Int) → Int → Int → Option (Int × Int)
  | [], r0, m0 => some (r0, m0)
  | (r1, m1) :: rest, r0, m0 =>
    let r1n := Int.tmod (r1 + m1) m1
    if m1 < 1 then none
    else match crtStepR r0 m0 r1n m1 with
      | none => none
      | some (r0n, m0n) => crtLoopR rest r0n m0n

/-- Reference semantics of `crt`; the length-mismatch panic is modelled
as `none`. -/
def crtR (rm md : List Int) : Option (Int × Int) :=
  if rm.length ≠ md.length then none
  else crtLoopR (rm.zip md) 0 1

lemma tmod_modEq (z m : Int) : Int.ModEq m (Int.tmod z m) z := by
  rw [Int.modEq_iff_dvd]
  refine ⟨Int.tdiv z m, ?_⟩
  have := Int.tdiv_add_tmod z m
  linarith

lemma tmod_bounds (z m : Int) (hm : 1 ≤ m) :
    -m < Int.tmod z m ∧ Int.tmod z m < m := by
  have := natAbs_tmod_lt z m (by omega)
  omega

/-- Core correctness of one merge: with both remainders normalized and
`M1 ≤ M0`, the merge either produces the combined congruence modulo
`lcm(M0, M1)` or correctly reports that the two congruences have no
common solution. -/
lemma crtMergeR_spec (R0 M0 R1 M1 : Int) (hM1 : 1 ≤ M1) (hle : M1 ≤ M0)
    (hR0 : 0 ≤ R0) (hR0b : R0 < M0) (hR1 : 0 ≤ R1) (hR1b : R1 < M1) :
    (∃ r, crtMergeR R0 M0 R1 M1 = some (r, (Int.lcm M0 M1 : Int)) ∧
      0 ≤ r ∧ r < (Int.lcm M0 M1 : Int) ∧
      Int.ModEq M0 r R0 ∧ Int.ModEq M1 r R1)
    ∨ (crtMergeR R0 M0 R1 M1 = none ∧
      ¬ ∃ x, Int.ModEq M0 x R0 ∧ Int.ModEq M1 x R1) := by
  have hM0 : 1 ≤ M0 := le_trans hM1 hle
  by_cases hdvd : Int.tmod M0 M1 = 0
  · have hdvd' : M1 ∣ M0 := Int.dvd_of_tmod_eq_zero hdvd
    have hlcm : (Int.lcm M0 M1 : Int) = M0 := by
      refine Int.dvd_antisymm (by positivity) (by omega)
        (Int.lcm_dvd dvd_rfl hdvd') Int.dvd_lcm_left
    by_cases hchk : Int.tmod R0 M1 = R1
    · left
      refine ⟨R0, ?_, hR0, by omega, Int.ModEq.refl R0, ?_⟩
      · rw [crtMergeR, if_pos hdvd, if_neg (not_not_intro hchk), hlcm]
      · have h1 : Int.ModEq M1 (Int.tmod R0 M1) R0 := tmod_modEq R0 M1
        rw [hchk] at h1
        exact h1.symm
    · right
      refine ⟨by rw [crtMergeR, if_pos hdvd, if_pos hchk], ?_⟩
      rintro ⟨x, hx0, hx1⟩
      have h1 : Int.ModEq M1 x R0 := hx0.of_dvd hdvd'
      have h2 : Int.ModEq M1 R0 R1 := h1.symm.trans hx1
      apply hchk
      have ht : Int.tmod R0 M1 = R0 % M1 := Int.tmod_eq_emod hR0 (by omega)
      rw [ht]
      rw [Int.ModEq] at h2
      rw [h2, Int.emod_eq_of_lt hR1 hR1b]
  · have hg := egcdR_spec M0 M1
    have hgpos : (1 : Int) ≤ (egcdR M0 M1).1 := by
      rw [hg.1]
      have := Int.gcd_pos_of_ne_zero_left M1 (show M0 ≠ 0 by omega)
      omega
    have hgM0 : (egcdR M0 M1).1 ∣ M0 := by
      rw [hg.1]
      exact Int.gcd_dvd_left
    have hgM1 : (egcdR M0 M1).1 ∣ M1 := by
      rw [hg.1]
      exact Int.gcd_dvd_right
    by_cases hchk : Int.tmod (R1 - R0) (egcdR M0 M1).1 = 0
    · left
      -- abbreviations matching the code
      have hgR : (egcdR M0 M1).1 ∣ R1 - R0 :=
        Int.dvd_of_tmod_eq_zero hchk
      have hm1g : (egcdR M0 M1).1 *
          Int.tdiv M1 (egcdR M0 M1).1 = M1 :=
        Int.mul_tdiv_cancel' hgM1
      have hm0g : (egcdR M0 M1).1 *
          Int.tdiv M0 (egcdR M0 M1).1 = M0 :=
        Int.mul_tdiv_cancel' hgM0
      have htg : (egcdR M0 M1).1 *
          Int.tdiv (R1 - R0) (egcdR M0 M1).1 = R1 - R0 :=
        Int.mul_tdiv_cancel' hgR
      have hm1gpos : 1 ≤ Int.tdiv M1 (egcdR M0 M1).1 := by
        by_contra hcon
        push_neg at hcon
        have : (egcdR M0 M1).1 *
            Int.tdiv M1 (egcdR M0 M1).1 ≤ 0 := by
          apply mul_nonpos_of_nonneg_of_nonpos (by omega)
          omega
        omega
      have hbez := hg.2
      have hrun : crtMergeR R0 M0 R1 M1 =
          some (Int.tmod
            (R0 + Int.tmod
              (Int.tmod (Int.tdiv (R1 - R0) (egcdR M0 M1).1)
                  (Int.tdiv M1 (egcdR M0 M1).1) *
                (Int.tmod ((egcdR M0 M1).2.1 +
                    Int.tdiv M1 (egcdR M0 M1).1)
                  (Int.tdiv M1 (egcdR M0 M1).1)))
              (Int.tdiv M1 (egcdR M0 M1).1) * M0 +
            M0 * Int.tdiv M1 (egcdR M0 M1).1)
            (M0 * Int.tdiv M1 (egcdR M0 M1).1),
          M0 * Int.tdiv M1 (egcdR M0 M1).1) := by
        rw [crtMergeR, if_neg hdvd]
        simp only [if_neg (not_not_intro hchk)]
      -- names for the intermediate values
      set g := (egcdR M0 M1).1 with hgdef
      set u := (egcdR M0 M1).2.1 with hudef
      set m1g := Int.tdiv M1 g with hm1gdef
      set t := Int.tdiv (R1 - R0) g with htdef
      set im := Int.tmod (u + m1g) m1g with himdef
      set w := Int.tmod t m1g with hwdef
      set s := Int.tmod (w * im) m1g with hsdef
      set m0n := M0 * m1g with hm0ndef
      set x := R0 + s * M0 with hxdef
      have hm0npos : 1 ≤ m0n := by
        have := mul_pos (show (0 : Int) < M0 by omega)
          (show (0 : Int) < m1g by omega)
        rw [hm0ndef]
        omega
      have hsb := tmod_bounds (w * im) m1g hm1gpos
      have hxpos : 0 < x + m0n := by
        have h1 : (1 - m1g) * M0 ≤ s * M0 :=
          mul_le_mul_of_nonneg_right (by omega) (by omega)
        have h2 : (1 - m1g) * M0 + M0 * m1g = M0 := by ring
        have h3 : x = R0 + s * M0 := hxdef
        have h4 : m0n = M0 * m1g := hm0ndef
        linarith
      have hlcm : (Int.lcm M0 M1 : Int) = m0n := by
        have h1 : (Int.gcd M0 M1 : Int) * (Int.lcm M0 M1 : Int) = M0 * M1 := by
          have h2 := Int.gcd_mul_lcm M0 M1
          have h3 : ((Int.gcd M0 M1 * Int.lcm M0 M1 : Nat) : Int) =
              (((M0 * M1).natAbs : Nat) : Int) := by
            exact_mod_cast congrArg (Nat.cast : Nat → Int) h2
          push_cast at h3
          rw [h3]
          have h4 : 0 ≤ M0 * M1 := by positivity
          omega
        have h4 : m0n * g = M0 * M1 := by
          calc m0n * g = M0 * (g * m1g) := by rw [hm0ndef]; ring
          _ = M0 * M1 := by rw [hm1g]
        have hgne : g ≠ 0 := by omega
        apply mul_left_cancel₀ hgne
        rw [← hg.1] at h1
        rw [h1, ← h4]
        ring
      have hxmod : Int.tmod (x + m0n) m0n = (x + m0n) % m0n :=
        Int.tmod_eq_emod (by omega) (by omega)
      have hr0n_nonneg : 0 ≤ Int.tmod (x + m0n) m0n := by
        rw [hxmod]
        exact Int.emod_nonneg _ (by omega)
      have hr0n_lt : Int.tmod (x + m0n) m0n < m0n := by
        rw [hxmod]
        exact Int.emod_lt_of_pos _ (by omega)
      have hcong_x : Int.ModEq m0n (Int.tmod (x + m0n) m0n) x := by
        have h1 := tmod_modEq (x + m0n) m0n
        have h2 : Int.ModEq m0n (x + m0n) x := by
          rw [Int.modEq_iff_dvd]
          exact ⟨-1, by ring⟩
        exact h1.trans h2
      have hM0dvd : M0 ∣ m0n := by
        rw [hm0ndef]
        exact dvd_mul_right M0 m1g
      have hM1dvd : M1 ∣ m0n := by
        refine ⟨Int.tdiv M0 g, ?_⟩
        calc m0n = M0 * m1g := hm0ndef
        _ = (g * Int.tdiv M0 g) * m1g := by rw [hm0g]
        _ = M1 * Int.tdiv M0 g := by rw [← hm1g]; ring
      have hcong0 : Int.ModEq M0 (Int.tmod (x + m0n) m0n) R0 := by
        have hxR0 : Int.ModEq M0 x R0 := by
          rw [Int.modEq_iff_dvd]
          exact ⟨-s, by rw [hxdef]; ring⟩
        exact (hcong_x.of_dvd hM0dvd).trans hxR0
      have hcong1 : Int.ModEq M1 (Int.tmod (x + m0n) m0n) R1 := by
        have hs_tu : Int.ModEq m1g s (t * u) := by
          have h1 := tmod_modEq (w * im) m1g
          have hw : Int.ModEq m1g w t := tmod_modEq t m1g
          have him : Int.ModEq m1g im u := by
            have h2 := tmod_modEq (u + m1g) m1g
            have h3 : Int.ModEq m1g (u + m1g) u := by
              rw [Int.modEq_iff_dvd]
              exact ⟨-1, by ring⟩
            exact h2.trans h3
          exact h1.trans (hw.mul him)
        have hdvd1 : m1g ∣ t * u - s := Int.modEq_iff_dvd.mp hs_tu
        have hdvd2 : M1 ∣ (t * u - s) * M0 := by
          rw [← hm1g]
          have := mul_dvd_mul hdvd1 hgM0
          rwa [mul_comm g m1g]
        have h4 : Int.ModEq M1 (s * M0) (t * u * M0) := by
          rw [Int.modEq_iff_dvd]
          have he : t * u * M0 - s * M0 = (t * u - s) * M0 := by ring
          rw [he]
          exact hdvd2
        have h5 : Int.ModEq M1 (t * u * M0) (R1 - R0) := by
          rw [Int.modEq_iff_dvd]
          refine ⟨t * (egcdR M0 M1).2.2, ?_⟩
          calc R1 - R0 - t * u * M0 = g * t - t * (u * M0) := by rw [htg]; ring
          _ = t * (g - u * M0) := by ring
          _ = t * ((egcdR M0 M1).2.2 * M1) := by rw [← hbez]; ring
          _ = M1 * (t * (egcdR M0 M1).2.2) := by ring
        have h6 := h4.trans h5
        have hxR1 : Int.ModEq M1 x R1 := by
          rw [Int.modEq_iff_dvd] at h6 ⊢
          have he : R1 - x = R1 - R0 - s * M0 := by rw [hxdef]; ring
          rw [he]
          exact h6
        exact (hcong_x.of_dvd hM1dvd).trans hxR1
      refine ⟨Int.tmod (x + m0n) m0n, ?_, hr0n_nonneg, ?_, hcong0, hcong1⟩
      · rw [hrun, hlcm]
      · rw [hlcm]
        exact hr0n_lt
    · right
      constructor
      · rw [crtMergeR, if_neg hdvd]
        simp only [if_pos hchk]
      · rintro ⟨x, hx0, hx1⟩
        apply hchk
        have h1 : Int.ModEq (egcdR M0 M1).1 x R0 := hx0.of_dvd hgM0
        have h2 : Int.ModEq (egcdR M0 M1).1 x R1 := hx1.of_dvd hgM1
        have h3 := h2.symm.trans h1
        rw [Int.modEq_iff_dvd] at h3
        apply Int.tmod_eq_zero_of_dvd
        have h4 := dvd_neg.mpr h3
        rwa [neg_sub] at h4

lemma crtStepR_spec (r0 m0 r1 m1 : Int) (hm0 : 1 ≤ m0) (hm1 : 1 ≤ m1)
    (hr0 : 0 ≤ r0) (hr0b : r0 < m0) (hr1 : 0 ≤ r1) (hr1b : r1 < m1) :
    (∃ r, crtStepR r0 m0 r1 m1 = some (r, (Int.lcm m0 m1 : Int)) ∧
      0 ≤ r ∧ r < (Int.lcm m0 m1 : Int) ∧
      Int.ModEq m0 r r0 ∧ Int.ModEq m1 r r1)
    ∨ (crtStepR r0 m0 r1 m1 = none ∧
      ¬ ∃ x, Int.ModEq m0 x r0 ∧ Int.ModEq m1 x r1) := by
  rw [crtStepR]
  by_cases hsw : m0 < m1
  · rw [if_pos hsw]
    rcases crtMergeR_spec r1 m1 r0 m0 hm0 (by omega) hr1 hr1b hr0 hr0b with
      ⟨r, hr, h1, h2, h3, h4⟩ | ⟨hn, hni⟩
    · left
      refine ⟨r, ?_, h1, ?_, h4, h3⟩
      · rw [hr, Int.lcm_comm]
      · rw [Int.lcm_comm]
        exact h2
    · right
      refine ⟨hn, ?_⟩
      rintro ⟨x, hx1, hx2⟩
      exact hni ⟨x, hx2, hx1⟩
  · rw [if_neg hsw]
    exact crtMergeR_spec r0 m0 r1 m1 hm1 (by omega) hr0 hr0b hr1 hr1b

/-- Least common multiple of `m0` and the moduli of a zipped list, as the
loop accumulates it. -/
def lcmAll (m0 : Int) (l : List (Int × Int)) : Int :=
  l.foldl (fun a p => (Int.lcm a p.2 : Int)) m0

lemma lcm_pos (a b : Int) (ha : 1 ≤ a) (hb : 1 ≤ b) :
    1 ≤ (Int.lcm a b : Int) := by
  have h1 : Int.lcm a b ≠ 0 :=
    Nat.lcm_ne_zero (Int.natAbs_ne_zero.mpr (by omega))
      (Int.natAbs_ne_zero.mpr (by omega))
  omega

lemma crtLoopR_sound : ∀ (l : List (Int × Int)) (r0 m0 : Int), 1 ≤ m0 →
    0 ≤ r0 → r0 < m0 → (∀ p ∈ l, 1 ≤ p.2 ∧ -p.2 ≤ p.1) →
    ∀ r L, crtLoopR l r0 m0 = some (r, L) →
      L = lcmAll m0 l ∧ 0 ≤ r ∧ r < L ∧ Int.ModEq m0 r r0 ∧
        ∀ p ∈ l, Int.ModEq p.2 r p.1 := by
  intro l
  induction l with
  | nil =>
    intro r0 m0 hm0 hr0 hr0b hl r L heq
    rw [crtLoopR] at heq
    rw [Option.some_inj, Prod.mk.injEq] at heq
    obtain ⟨h1, h2⟩ := heq
    subst h1
    subst h2
    exact ⟨rfl, hr0, hr0b, Int.ModEq.refl r0, fun p hp => absurd hp
      (List.not_mem_nil p)⟩
  | cons q rest ih =>
    intro r0 m0 hm0 hr0 hr0b hl r L heq
    obtain ⟨r1, m1⟩ := q
    have hq := hl (r1, m1) (List.mem_cons_self _ _)
    have hm1 : 1 ≤ m1 := hq.1
    have hr1low : -m1 ≤ r1 := hq.2
    rw [crtLoopR] at heq
    simp only [if_neg (show ¬ m1 < 1 by omega)] at heq
    have hr1n_eq : Int.tmod (r1 + m1) m1 = (r1 + m1) % m1 :=
      Int.tmod_eq_emod (by omega) (by omega)
    have hr1n_nonneg : 0 ≤ Int.tmod (r1 + m1) m1 := by
      rw [hr1n_eq]
      exact Int.emod_nonneg _ (by omega)
    have hr1n_lt : Int.tmod (r1 + m1) m1 < m1 := by
      rw [hr1n_eq]
      exact Int.emod_lt_of_pos _ (by omega)
    have hr1n_cong : Int.ModEq m1 (Int.tmod (r1 + m1) m1) r1 := by
      have h1 := tmod_modEq (r1 + m1) m1
      have h2 : Int.ModEq m1 (r1 + m1) r1 := by
        rw [Int.modEq_iff_dvd]
        exact ⟨-1, by ring⟩
      exact h1.trans h2
    rcases crtStepR_spec r0 m0 (Int.tmod (r1 + m1) m1) m1 hm0 hm1 hr0 hr0b
      hr1n_nonneg hr1n_lt with
      ⟨rm, hstep, hrm0, hrmb, hrmc0, hrmc1⟩ | ⟨hstep, _⟩
    · rw [hstep] at heq
      have hlcm1 : (1 : Int) ≤ (Int.lcm m0 m1 : Int) := lcm_pos m0 m1 hm0 hm1
      have hIH := ih rm (Int.lcm m0 m1 : Int) hlcm1 hrm0 hrmb
        (fun p hp => hl p (List.mem_cons_of_mem _ hp)) r L heq
      have hm0dvd : m0 ∣ (Int.lcm m0 m1 : Int) := Int.dvd_lcm_left
      have hm1dvd : m1 ∣ (Int.lcm m0 m1 : Int) := Int.dvd_lcm_right
      refine ⟨hIH.1, hIH.2.1, hIH.2.2.1, ?_, ?_⟩
      · exact (hIH.2.2.2.1.of_dvd hm0dvd).trans hrmc0
      · intro p hp
        rcases List.mem_cons.mp hp with hp1 | hp2
        · subst hp1
          exact ((hIH.2.2.2.1.of_dvd hm1dvd).trans hrmc1).trans hr1n_cong
        · exact hIH.2.2.2.2 p hp2
    · rw [hstep] at heq
      cases heq

lemma crtLoopR_complete : ∀ (l : List (Int × Int)) (r0 m0 : Int), 1 ≤ m0 →
    0 ≤ r0 → r0 < m0 → (∀ p ∈ l, 1 ≤ p.2 ∧ -p.2 ≤ p.1) →
    (∃ x, Int.ModEq m0 x r0 ∧ ∀ p ∈ l, Int.ModEq p.2 x p.1) →
    ∃ rL, crtLoopR l r0 m0 = some rL := by
  intro l
  induction l with
  | nil =>
    intro r0 m0 _ _ _ _ _
    exact ⟨(r0, m0), rfl⟩
  | cons q rest ih =>
    intro r0 m0 hm0 hr0 hr0b hl hsolv
    obtain ⟨r1, m1⟩ := q
    obtain ⟨x, hx0, hxl⟩ := hsolv
    have hq := hl (r1, m1) (List.mem_cons_self _ _)
    have hm1 : 1 ≤ m1 := hq.1
    rw [crtLoopR]
    simp only [if_neg (show ¬ m1 < 1 by omega)]
    have hr1n_eq : Int.tmod (r1 + m1) m1 = (r1 + m1) % m1 :=
      Int.tmod_eq_emod (by omega) (by omega)
    have hr1n_nonneg : 0 ≤ Int.tmod (r1 + m1) m1 := by
      rw [hr1n_eq]
      exact Int.emod_nonneg _ (by omega)
    have hr1n_lt : Int.tmod (r1 + m1) m1 < m1 := by
      rw [hr1n_eq]
      exact Int.emod_lt_of_pos _ (by omega)
    have hr1n_cong : Int.ModEq m1 (Int.tmod (r1 + m1) m1) r1 := by
      have h1 := tmod_modEq (r1 + m1) m1
      have h2 : Int.ModEq m1 (r1 + m1) r1 := by
        rw [Int.modEq_iff_dvd]
        exact ⟨-1, by ring⟩
      exact h1.trans h2
    have hx1 : Int.ModEq m1 x (Int.tmod (r1 + m1) m1) :=
      (hxl (r1, m1) (List.mem_cons_self _ _)).trans hr1n_cong.symm
    rcases crtStepR_spec r0 m0 (Int.tmod (r1 + m1) m1) m1 hm0 hm1 hr0 hr0b
      hr1n_nonneg hr1n_lt with
      ⟨rm, hstep, hrm0, hrmb, hrmc0, hrmc1⟩ | ⟨hstep, hni⟩
    · rw [hstep]
      have hlcm1 : (1 : Int) ≤ (Int.lcm m0 m1 : Int) := lcm_pos m0 m1 hm0 hm1
      apply ih rm (Int.lcm m0 m1 : Int) hlcm1 hrm0 hrmb
        (fun p hp => hl p (List.mem_cons_of_mem _ hp))
      refine ⟨x, ?_, fun p hp => hxl p (List.mem_cons_of_mem _ hp)⟩
      rw [Int.modEq_iff_dvd]
      apply Int.lcm_dvd
      · have := (hx0.trans hrmc0.symm)
        rwa [Int.modEq_iff_dvd] at this
      · have := (hx1.trans hrmc1.symm)
        rwa [Int.modEq_iff_dvd] at this
    · exact absurd ⟨x, hx0, hx1⟩ hni

lemma gcd_lcm_distrib (a b c : Nat) (ha : a ≠ 0) (hb : b ≠ 0) (hc : c ≠ 0) :
    Nat.gcd (Nat.lcm a b) c = Nat.lcm (Nat.gcd a c) (Nat.gcd b c) := by
  have h1 : Nat.lcm a b ≠ 0 := Nat.lcm_ne_zero ha hb
  have h2 : Nat.gcd a c ≠ 0 := Nat.gcd_ne_zero_left ha
  have h3 : Nat.gcd b c ≠ 0 := Nat.gcd_ne_zero_left hb
  apply Nat.eq_of_factorization_eq (Nat.gcd_ne_zero_right hc)
    (Nat.lcm_ne_zero h2 h3)
  intro p
  rw [Nat.factorization_gcd h1 hc, Nat.factorization_lcm ha hb,
    Nat.factorization_lcm h2 h3, Nat.factorization_gcd ha hc,
    Nat.factorization_gcd hb hc]
  simp only [Finsupp.inf_apply, Finsupp.sup_apply]
  omega

lemma int_lcm_natCast (a b : Nat) : Int.lcm (a : Int) (b : Int) = Nat.lcm a b := by
  rw [Int.lcm_def, Int.natAbs_ofNat, Int.natAbs_ofNat]

lemma pairwise_solvable_aux : ∀ (l : List (Int × Int)) (r0 m0 : Int),
    1 ≤ m0 → (∀ p ∈ l, 1 ≤ p.2) →
    (∀ p ∈ l, ((Int.gcd m0 p.2 : Nat) : Int) ∣ r0 - p.1) →
    (∀ p ∈ l, ∀ q ∈ l, ((Int.gcd p.2 q.2 : Nat) : Int) ∣ p.1 - q.1) →
    ∃ x, Int.ModEq m0 x r0 ∧ ∀ p ∈ l, Int.ModEq p.2 x p.1 := by
  intro l
  induction l with
  | nil =>
    intro r0 m0 _ _ _ _
    exact ⟨r0, Int.ModEq.refl r0, fun p hp => absurd hp (List.not_mem_nil p)⟩
  | cons q0 rest ih =>
    intro r0 m0 hm0 hpos hcomp hpair
    obtain ⟨r1, m1⟩ := q0
    have hm1 : 1 ≤ m1 := hpos (r1, m1) (List.mem_cons_self _ _)
    obtain ⟨t, ht⟩ := hcomp (r1, m1) (List.mem_cons_self _ _)
    have hAB := Int.gcd_eq_gcd_ab m0 m1
    -- merged value solving both congruences
    have hy0 : Int.ModEq m0 (r0 - m0 * Int.gcdA m0 m1 * t) r0 := by
      rw [Int.modEq_iff_dvd]
      exact ⟨Int.gcdA m0 m1 * t, by ring⟩
    have hy1 : Int.ModEq m1 (r0 - m0 * Int.gcdA m0 m1 * t) r1 := by
      rw [Int.modEq_iff_dvd]
      refine ⟨-(Int.gcdB m0 m1 * t), ?_⟩
      have hr : r1 - (r0 - m0 * Int.gcdA m0 m1 * t) =
          -((r0 - r1) - m0 * Int.gcdA m0 m1 * t) := by ring
      rw [hr, ht, hAB]
      ring
    have hMpos : (1 : Int) ≤ (Int.lcm m0 m1 : Int) := lcm_pos m0 m1 hm0 hm1
    have hm0M : m0 ∣ (Int.lcm m0 m1 : Int) := Int.dvd_lcm_left
    have hm1M : m1 ∣ (Int.lcm m0 m1 : Int) := Int.dvd_lcm_right
    have hrest : ∀ p ∈ rest,
        ((Int.gcd (Int.lcm m0 m1 : Int) p.2 : Nat) : Int) ∣
          (r0 - m0 * Int.gcdA m0 m1 * t) - p.1 := by
      intro p hp
      have hp2 : 1 ≤ p.2 := hpos p (List.mem_cons_of_mem _ hp)
      have hd1 : ((Int.gcd m0 p.2 : Nat) : Int) ∣
          (r0 - m0 * Int.gcdA m0 m1 * t) - p.1 := by
        have ha : ((Int.gcd m0 p.2 : Nat) : Int) ∣
            (r0 - m0 * Int.gcdA m0 m1 * t) - r0 := by
          have h1 : ((Int.gcd m0 p.2 : Nat) : Int) ∣ m0 := Int.gcd_dvd_left
          have h2 : m0 ∣ (r0 - m0 * Int.gcdA m0 m1 * t) - r0 :=
            ⟨-(Int.gcdA m0 m1 * t), by ring⟩
          exact h1.trans h2
        have hb : ((Int.gcd m0 p.2 : Nat) : Int) ∣ r0 - p.1 :=
          hcomp p (List.mem_cons_of_mem _ hp)
        have hc := dvd_add ha hb
        have he : (r0 - m0 * Int.gcdA m0 m1 * t) - r0 + (r0 - p.1) =
            (r0 - m0 * Int.gcdA m0 m1 * t) - p.1 := by ring
        rwa [he] at hc
      have hd2 : ((Int.gcd m1 p.2 : Nat) : Int) ∣
          (r0 - m0 * Int.gcdA m0 m1 * t) - p.1 := by
        have ha : ((Int.gcd m1 p.2 : Nat) : Int) ∣
            (r0 - m0 * Int.gcdA m0 m1 * t) - r1 := by
          have h1 : ((Int.gcd m1 p.2 : Nat) : Int) ∣ m1 := Int.gcd_dvd_left
          have h2 := Int.modEq_iff_dvd.mp hy1
          have h3 : m1 ∣ (r0 - m0 * Int.gcdA m0 m1 * t) - r1 := by
            have h4 := dvd_neg.mpr h2
            rwa [neg_sub] at h4
          exact h1.trans h3
        have hb : ((Int.gcd m1 p.2 : Nat) : Int) ∣ r1 - p.1 :=
          hpair (r1, m1) (List.mem_cons_self _ _) p (List.mem_cons_of_mem _ hp)
        have hc := dvd_add ha hb
        have he : (r0 - m0 * Int.gcdA m0 m1 * t) - r1 + (r1 - p.1) =
            (r0 - m0 * Int.gcdA m0 m1 * t) - p.1 := by ring
        rwa [he] at hc
      have hds : Int.gcd (Int.lcm m0 m1 : Int) p.2 =
          Nat.lcm (Int.gcd m0 p.2) (Int.gcd m1 p.2) := by
        rw [Int.gcd_def, Int.natAbs_ofNat, Int.lcm_def]
        rw [gcd_lcm_distrib _ _ _ (Int.natAbs_ne_zero.mpr (by omega))
          (Int.natAbs_ne_zero.mpr (by omega)) (Int.natAbs_ne_zero.mpr (by omega))]
        rw [Int.gcd_def, Int.gcd_def]
      rw [hds]
      have hl := Int.lcm_dvd hd1 hd2
      rwa [int_lcm_natCast] at hl
    obtain ⟨x, hx, hxrest⟩ := ih (r0 - m0 * Int.gcdA m0 m1 * t)
      (Int.lcm m0 m1 : Int) hMpos
      (fun p hp => hpos p (List.mem_cons_of_mem _ hp)) hrest
      (fun p hp q hq => hpair p (List.mem_cons_of_mem _ hp) q
        (List.mem_cons_of_mem _ hq))
    refine ⟨x, (hx.of_dvd hm0M).trans hy0, ?_⟩
    intro p hp
    rcases List.mem_cons.mp hp with hp1 | hp2
    · subst hp1
      exact (hx.of_dvd hm1M).trans hy1
    · exact hxrest p hp2

lemma lcmAll_zip : ∀ (md rm : List Int) (m0 : Int), rm.length = md.length →
    lcmAll m0 (rm.zip md) =
      md.foldl (fun a m => (Int.lcm a m : Int)) m0 := by
  intro md
  induction md with
  | nil =>
    intro rm m0 h
    have : rm = [] := List.length_eq_zero.mp (by simpa using h)
    subst this
    rfl
  | cons m mrest ih =>
    intro rm m0 h
    cases rm with
    | nil => simp at h
    | cons r rrest =>
      show lcmAll (Int.lcm m0 m : Int) (rrest.zip mrest) = _
      rw [ih rrest (Int.lcm m0 m : Int) (by simpa using h)]
      rfl

/-- Correctness of the reference semantics: on equal-length lists with
all moduli at least 1 and every remainder at least `-modulus`, if all
pairs of congruences are compatible the loop returns `some (r, L)` with
`L` the least common multiple of the moduli, `0 ≤ r < L` and
`r ≡ rm[i] (mod md[i])` for every `i`; if some pair is incompatible it
returns `none`. -/
lemma crtR_correct (rm md : List Int) (hlen : rm.length = md.length)
    (hmd : ∀ m ∈ md, 1 ≤ m) (hrm : ∀ p ∈ rm.zip md, -p.2 ≤ p.1) :
    ((∀ p ∈ rm.zip md, ∀ q ∈ rm.zip md,
        ((Int.gcd p.2 q.2 : Nat) : Int) ∣ p.1 - q.1) →
      ∃ r L, crtR rm md = some (r, L) ∧
        L = md.foldl (fun a m => (Int.lcm a m : Int)) 1 ∧
        0 ≤ r ∧ r < L ∧ ∀ p ∈ rm.zip md, Int.ModEq p.2 r p.1) ∧
    ((∃ p ∈ rm.zip md, ∃ q ∈ rm.zip md,
        ¬ ((Int.gcd p.2 q.2 : Nat) : Int) ∣ p.1 - q.1) →
      crtR rm md = none) := by
  have hzl : ∀ p ∈ rm.zip md, 1 ≤ p.2 ∧ -p.2 ≤ p.1 := fun p hp =>
    ⟨hmd p.2 (List.of_mem_zip hp).2, hrm p hp⟩
  constructor
  · intro hcompat
    obtain ⟨x, hx0, hxl⟩ := pairwise_solvable_aux (rm.zip md) 0 1 (le_refl 1)
      (fun p hp => (hzl p hp).1)
      (fun p hp => by
        have : Int.gcd 1 p.2 = 1 := Int.one_gcd
        rw [this]
        exact one_dvd _)
      hcompat
    obtain ⟨⟨r, L⟩, heq⟩ := crtLoopR_complete (rm.zip md) 0 1 (le_refl 1)
      (le_refl 0) (by omega) hzl ⟨x, hx0, hxl⟩
    have hs := crtLoopR_sound (rm.zip md) 0 1 (le_refl 1) (le_refl 0)
      (by omega) hzl r L heq
    refine ⟨r, L, ?_, ?_, hs.2.1, hs.2.2.1, hs.2.2.2.2⟩
    · rw [crtR, if_neg (not_not_intro hlen)]
      exact heq
    · rw [hs.1]
      exact lcmAll_zip md rm 1 hlen
  · rintro ⟨p, hp, q, hq, hnc⟩
    cases hres : crtR rm md with
    | none => rfl
    | some rL =>
      exfalso
      obtain ⟨r, L⟩ := rL
      rw [crtR, if_neg (not_not_intro hlen)] at hres
      have hs := crtLoopR_sound (rm.zip md) 0 1 (le_refl 1) (le_refl 0)
        (by omega) hzl r L hres
      apply hnc
      have h1 := Int.modEq_iff_dvd.mp (hs.2.2.2.2 p hp)
      have h2 := Int.modEq_iff_dvd.mp (hs.2.2.2.2 q hq)
      have h3 : ((Int.gcd p.2 q.2 : Nat) : Int) ∣ p.1 - r :=
        dvd_trans Int.gcd_dvd_left h1
      have h4 : ((Int.gcd p.2 q.2 : Nat) : Int) ∣ q.1 - r :=
        dvd_trans Int.gcd_dvd_right h2
      have h5 := dvd_sub h3 h4
      have he : p.1 - r - (q.1 - r) = p.1 - q.1 := by ring
      rwa [he] at h5

/-- Two's-complement wrapping of a 64-bit signed value: the behaviour of
an overflowing i64 `+`, `-`, `*` or `abs` in a release build (a debug
build panics instead; the correctness theorem below is applied only
under hypotheses that exclude overflow, where both behaviours coincide
with the unbounded value). -/
def wrap (z : Int) : Int := (z + 2 ^ 63) % 2 ^ 64 - 2 ^ 63

/-- i64 division; `none` is the division overflow panic (divisor zero or
`i64::MIN / -1`), which panics in every build profile. -/
def i64_div (a b : Int) : Option Int :=
  if b = 0 ∨ (a = -2 ^ 63 ∧ b = -1) then none else some (Int.tdiv a b)

/-- i64 remainder; `none` is the remainder overflow panic (divisor zero
or `i64::MIN % -1`), which panics in every build profile. -/
def i64_rem (a b : Int) : Option Int :=
  if b = 0 ∨ (a = -2 ^ 63 ∧ b = -1) then none else some (Int.tmod a b)

/-- Embedding of `extended_gcd` with i64 semantics: `a.abs()` and the
coefficient arithmetic wrap on overflow, and the remainder/division
overflow panic is `none`. -/
def extended_gcd (a b : Int) : Option (Int × Int × Int) :=
  if hb : b = 0 then some (wrap (a.natAbs : Int), a.sign, 0)
  else if a = -2 ^ 63 ∧ b = -1 then none
  else
    match extended_gcd b (Int.tmod a b) with
    | none => none
    | some (d, p, q) => some (d, q, wrap (p - wrap (q * Int.tdiv a b)))
termination_by b.natAbs
decreasing_by exact natAbs_tmod_lt a b hb

/-- The body of the `crt` loop after the swap that ensures `m0 >= m1`,
with i64 semantics (wrapping `+`, `-`, `*`; panicking `/`, `%`). -/
def crtMerge (r0 m0 r1 m1 : Int) : Option (Int × Int) :=
  match i64_rem m0 m1 with
  | none => none
  | some mm =>
    if mm = 0 then
      match i64_rem r0 m1 with
      | none => none
      | some rr => if rr ≠ r1 then none else some (r0, m0)
    else
      match extended_gcd m0 m1 with
      | none => none
      | some (g, u, _v) =>
        match i64_rem (wrap (r1 - r0)) g with
        | none => none
        | some t0 =>
          if t0 ≠ 0 then none
          else
            match i64_div m1 g with
            | none => none
            | some m1g =>
              match i64_rem (wrap (u + m1g)) m1g with
              | none => none
              | some im =>
                match i64_div (wrap (r1 - r0)) g with
                | none => none
                | some t1 =>
                  match i64_rem t1 m1g with
                  | none => none
                  | some w =>
                    match i64_rem (wrap (w * im)) m1g with
                    | none => none
                    | some s =>
                      match wrap (r0 + wrap (s * m0)), wrap (m0 * m1g) with
                      | x, m0n =>
                        match i64_rem (wrap (x + m0n)) m0n with
                        | none => none
                        | some rn => some (rn, m0n)

/-- One iteration of the `crt` loop on the (already normalized) pair. -/
def crtStep (r0 m0 r1 m1 : Int) : Option (Int × Int) :=
  if m0 < m1 then crtMerge r1 m1 r0 m0 else crtMerge r0 m0 r1 m1

/-- The `crt` loop over the zipped `(remainder, modulus)` list; `none`
models the panics (modulus below 1, division overflow) and a
`return None`. -/
def crtLoop : List (Int × Int) → Int → Int → Option (Int × Int)
  | [], r0, m0 => some (r0, m0)
  | (r1, m1) :: rest, r0, m0 =>
    match i64_rem (wrap (r1 + m1)) m1 with
    | none => none
    | some r1n =>
      if m1 < 1 then none
      else match crtStep r0 m0 r1n m1 with
        | none => none
        | some (r0n, m0n) => crtLoop rest r0n m0n

/-- Embedding of `crt`; the length-mismatch panic is modelled as
`none`. -/
def crt (rm md : List Int) : Option (Int × Int) :=
  if rm.length ≠ md.length then none
  else crtLoop (rm.zip md) 0 1

lemma wrap_eq_self (z : Int) (h1 : -2 ^ 63 ≤ z) (h2 : z < 2 ^ 63) :
    wrap z = z := by
  rw [wrap, Int.emod_eq_of_lt (by omega) (by omega)]
  omega

lemma i64_rem_eq (a b : Int) (hb : 1 ≤ b) :
    i64_rem a b = some (Int.tmod a b) := by
  rw [i64_rem, if_neg]
  rintro (h | ⟨_, h⟩) <;> omega

lemma i64_div_eq (a b : Int) (hb : 1 ≤ b) :
    i64_div a b = some (Int.tdiv a b) := by
  rw [i64_div, if_neg]
  rintro (h | ⟨_, h⟩) <;> omega

/-- In the nonnegative i64 range the faithful `extended_gcd` agrees with
the unbounded reference, and the Bezout coefficients it returns are
small (bounded by the other argument), so no internal operation
overflows. -/
lemma extended_gcd_eq (a b : Int) (ha : 0 ≤ a) (haM : a ≤ 2 ^ 63 - 1)
    (hb : 0 ≤ b) (hbM : b ≤ 2 ^ 63 - 1) :
    extended_gcd a b = some (egcdR a b) ∧
    (-(max b 1) ≤ (egcdR a b).2.1 ∧ (egcdR a b).2.1 ≤ max b 1) ∧
    (-(max a 1) ≤ (egcdR a b).2.2 ∧ (egcdR a b).2.2 ≤ max a 1) := by
  generalize hn : b.natAbs = n
  induction n using Nat.strong_induction_on generalizing a b with
  | _ n ih =>
    by_cases hb0 : b = 0
    · subst hb0
      have hcast : (a.natAbs : Int) = a := Int.natAbs_of_nonneg ha
      have hsgn : a.sign = 0 ∨ a.sign = 1 := by
        rcases eq_or_lt_of_le ha with h | h
        · left
          rw [← h]
          rfl
        · right
          exact Int.sign_eq_one_of_pos h
      refine ⟨?_, ?_, ?_⟩
      · rw [extended_gcd, egcdR, dif_pos rfl, dif_pos rfl]
        rw [hcast, wrap_eq_self a (by omega) (by omega)]
      · rw [egcdR, dif_pos rfl]
        rcases hsgn with h | h <;> rw [h] <;> constructor <;> simp <;> omega
      · rw [egcdR, dif_pos rfl]
        constructor <;> simp <;> omega
    · have hb1 : 1 ≤ b := by omega
      have htm_eq : Int.tmod a b = a % b := Int.tmod_eq_emod ha (by omega)
      have hr_nonneg : 0 ≤ Int.tmod a b := by
        rw [htm_eq]
        exact Int.emod_nonneg a (by omega)
      have hr_lt : Int.tmod a b < b := by
        rw [htm_eq]
        exact Int.emod_lt_of_pos a (by omega)
      have hadb : 0 ≤ Int.tdiv a b := Int.tdiv_nonneg ha (by omega)
      have hsum : b * Int.tdiv a b + Int.tmod a b = a := Int.tdiv_add_tmod a b
      obtain ⟨ihEq, ihp, ihq⟩ := ih (Int.tmod a b).natAbs
        (by rw [← hn]; exact natAbs_tmod_lt a b hb0) b (Int.tmod a b)
        hb hbM hr_nonneg (by omega) rfl
      rcases hEgcd : egcdR b (Int.tmod a b) with ⟨d, p, q⟩
      rw [hEgcd] at ihEq ihp ihq
      simp only at ihp ihq
      have hmaxb : max b 1 = b := by omega
      have hq_lo : -b ≤ q := by rw [← hmaxb]; exact ihq.1
      have hq_hi : q ≤ b := by rw [← hmaxb]; exact ihq.2
      have hba : b * Int.tdiv a b ≤ a := by omega
      have hprod_hi : q * Int.tdiv a b ≤ b * Int.tdiv a b :=
        mul_le_mul_of_nonneg_right hq_hi hadb
      have hprod_lo : -(b * Int.tdiv a b) ≤ q * Int.tdiv a b := by
        have h1 : (-b) * Int.tdiv a b ≤ q * Int.tdiv a b :=
          mul_le_mul_of_nonneg_right hq_lo hadb
        have h2 : (-b) * Int.tdiv a b = -(b * Int.tdiv a b) := by ring
        omega
      have hwrap1 : wrap (q * Int.tdiv a b) = q * Int.tdiv a b :=
        wrap_eq_self _ (by omega) (by omega)
      have hy_bounds : -(max a 1) ≤ p - q * Int.tdiv a b ∧
          p - q * Int.tdiv a b ≤ max a 1 := by
        by_cases hr0 : Int.tmod a b = 0
        · have hbase : egcdR b 0 = ((b.natAbs : Int), b.sign, 0) := by
            rw [egcdR, dif_pos rfl]
          rw [hr0, hbase] at hEgcd
          have hp : p = b.sign := ((Prod.mk.injEq _ _ _ _).mp
            ((Prod.mk.injEq _ _ _ _).mp hEgcd).2).1.symm
          have hq : q = 0 := ((Prod.mk.injEq _ _ _ _).mp
            ((Prod.mk.injEq _ _ _ _).mp hEgcd).2).2.symm
          have hsb : b.sign = 1 := Int.sign_eq_one_of_pos (by omega)
          rw [hp, hq, hsb]
          constructor <;> simp <;> omega
        · have hmaxr : max (Int.tmod a b) 1 = Int.tmod a b := by omega
          have hp_lo : -(Int.tmod a b) ≤ p := by rw [← hmaxr]; exact ihp.1
          have hp_hi : p ≤ Int.tmod a b := by rw [← hmaxr]; exact ihp.2
          constructor <;> omega
      have hwrap2 : wrap (p - wrap (q * Int.tdiv a b)) =
          p - q * Int.tdiv a b := by
        rw [hwrap1]
        exact wrap_eq_self _ (by omega) (by omega)
      have hRHS : egcdR a b = (d, q, p - q * Int.tdiv a b) := by
        rw [egcdR, dif_neg hb0, hEgcd]
      refine ⟨?_, ?_, ?_⟩
      · rw [extended_gcd, dif_neg hb0]
        rw [if_neg (by rintro ⟨_, h⟩; omega), ihEq]
        simp only
        rw [hwrap2, hRHS]
      · rw [hRHS]
        simp only
        exact ⟨by omega, by omega⟩
      · rw [hRHS]
        simp only
        exact hy_bounds

lemma lcm_eq_mul_tdiv (m0 m1 : Int) (hm0 : 1 ≤ m0) (hm1 : 1 ≤ m1) :
    (Int.lcm m0 m1 : Int) = m0 * Int.tdiv m1 (Int.gcd m0 m1 : Int) := by
  have hg1 : (1 : Int) ≤ (Int.gcd m0 m1 : Int) := by
    have := Int.gcd_pos_of_ne_zero_left m1 (show m0 ≠ 0 by omega)
    omega
  have hgm1 : ((Int.gcd m0 m1 : Nat) : Int) ∣ m1 := Int.gcd_dvd_right
  have hcanc : ((Int.gcd m0 m1 : Nat) : Int) *
      Int.tdiv m1 (Int.gcd m0 m1 : Int) = m1 := Int.mul_tdiv_cancel' hgm1
  have h1 : (Int.gcd m0 m1 : Int) * (Int.lcm m0 m1 : Int) = m0 * m1 := by
    have h2 := Int.gcd_mul_lcm m0 m1
    have h3 : ((Int.gcd m0 m1 * Int.lcm m0 m1 : Nat) : Int) =
        (((m0 * m1).natAbs : Nat) : Int) := by
      exact_mod_cast congrArg (Nat.cast : Nat → Int) h2
    push_cast at h3
    rw [h3]
    have h4 : 0 ≤ m0 * m1 := by positivity
    omega
  apply mul_left_cancel₀ (show ((Int.gcd m0 m1 : Nat) : Int) ≠ 0 by omega)
  rw [h1]
  calc m0 * m1 = m0 * ((Int.gcd m0 m1 : Int) *
      Int.tdiv m1 (Int.gcd m0 m1 : Int)) := by rw [hcanc]
  _ = (Int.gcd m0 m1 : Int) * (m0 * Int.tdiv m1 (Int.gcd m0 m1 : Int)) := by
      ring

lemma crtMerge_eq (r0 m0 r1 m1 : Int) (hm1 : 1 ≤ m1) (hle : m1 ≤ m0)
    (hr0 : 0 ≤ r0) (hr0b : r0 < m0) (hr1 : 0 ≤ r1) (hr1b : r1 < m1)
    (hL : (Int.lcm m0 m1 : Int) ≤ 2 ^ 62) :
    crtMerge r0 m0 r1 m1 = crtMergeR r0 m0 r1 m1 := by
  have hm0 : 1 ≤ m0 := le_trans hm1 hle
  have hlcm1 : (1 : Int) ≤ (Int.lcm m0 m1 : Int) := lcm_pos m0 m1 hm0 hm1
  have hm0M : m0 ≤ 2 ^ 62 :=
    le_trans (Int.le_of_dvd (by omega) Int.dvd_lcm_left) hL
  have hm1M : m1 ≤ 2 ^ 62 :=
    le_trans (Int.le_of_dvd (by omega) Int.dvd_lcm_right) hL
  by_cases hdvd : Int.tmod m0 m1 = 0
  · rw [crtMerge, crtMergeR, i64_rem_eq m0 m1 hm1]
    simp only [if_pos hdvd, i64_rem_eq r0 m1 hm1]
  · -- non-divisible branch
    obtain ⟨hEG, hu_b, hv_b⟩ := extended_gcd_eq m0 m1 (by omega) (by omega)
      (by omega) (by omega)
    have hEspec := egcdR_spec m0 m1
    rcases hE : egcdR m0 m1 with ⟨g, u, v⟩
    rw [hE] at hEspec hEG hu_b
    simp only at hEspec hu_b
    have hgg : g = (Int.gcd m0 m1 : Int) := hEspec.1
    have hg1 : 1 ≤ g := by
      rw [hgg]
      have := Int.gcd_pos_of_ne_zero_left m1 (show m0 ≠ 0 by omega)
      omega
    have hgm1 : g ∣ m1 := by rw [hgg]; exact Int.gcd_dvd_right
    have hglt : g < m1 := by
      rcases lt_or_eq_of_le (Int.le_of_dvd (by omega) hgm1) with h | h
      · exact h
      · exfalso
        apply hdvd
        apply Int.tmod_eq_zero_of_dvd
        have hgm0 : g ∣ m0 := by rw [hgg]; exact Int.gcd_dvd_left
        rw [← h]
        exact hgm0
    have hu_lo : -m1 ≤ u := by
      have := hu_b.1
      have hmx : max m1 1 = m1 := by omega
      omega
    have hu_hi : u ≤ m1 := by
      have := hu_b.2
      have hmx : max m1 1 = m1 := by omega
      omega
    have hgm1g : g * Int.tdiv m1 g = m1 := Int.mul_tdiv_cancel' hgm1
    have hm1g1 : 1 ≤ Int.tdiv m1 g := by
      by_contra hcon
      push_neg at hcon
      have : g * Int.tdiv m1 g ≤ 0 :=
        mul_nonpos_of_nonneg_of_nonpos (by omega) (by omega)
      omega
    have hm1g2 : 2 ≤ Int.tdiv m1 g := by
      rcases lt_or_eq_of_le hm1g1 with h | h
      · omega
      · exfalso
        rw [← h] at hgm1g
        simp at hgm1g
        omega
    have hm1gle : Int.tdiv m1 g ≤ m1 := by
      have h1 : 1 * Int.tdiv m1 g ≤ g * Int.tdiv m1 g :=
        mul_le_mul_of_nonneg_right hg1 (by omega)
      omega
    have hm0n_lcm : m0 * Int.tdiv m1 g = (Int.lcm m0 m1 : Int) := by
      rw [hgg]
      exact (lcm_eq_mul_tdiv m0 m1 hm0 hm1).symm
    have hm0nM : m0 * Int.tdiv m1 g ≤ 2 ^ 62 := by rw [hm0n_lcm]; exact hL
    have hm0n1 : m0 ≤ m0 * Int.tdiv m1 g := by
      have h1 : m0 * 1 ≤ m0 * Int.tdiv m1 g :=
        mul_le_mul_of_nonneg_left hm1g1 (by omega)
      omega
    have hA : Int.tdiv m1 g * Int.tdiv m1 g ≤ m1 * Int.tdiv m1 g :=
      mul_le_mul_of_nonneg_right hm1gle (by omega)
    have hB : m1 * Int.tdiv m1 g ≤ m0 * Int.tdiv m1 g :=
      mul_le_mul_of_nonneg_right hle (by omega)
    have hsum_le : m1 + Int.tdiv m1 g ≤ m1 * Int.tdiv m1 g := by
      have h1 : 1 * 1 ≤ (m1 - 1) * (Int.tdiv m1 g - 1) :=
        mul_le_mul (by omega) (by omega) (by omega) (by omega)
      have h2 : (m1 - 1) * (Int.tdiv m1 g - 1) =
          m1 * Int.tdiv m1 g - m1 - Int.tdiv m1 g + 1 := by ring
      omega
    have hwsub : wrap (r1 - r0) = r1 - r0 := wrap_eq_self _ (by omega) (by omega)
    have hwu : wrap (u + Int.tdiv m1 g) = u + Int.tdiv m1 g :=
      wrap_eq_self _ (by omega) (by omega)
    have him_b := tmod_bounds (u + Int.tdiv m1 g) (Int.tdiv m1 g) (by omega)
    have hw_b := tmod_bounds (Int.tdiv (r1 - r0) g) (Int.tdiv m1 g) (by omega)
    have hwim_abs : |Int.tmod (Int.tdiv (r1 - r0) g) (Int.tdiv m1 g) *
        Int.tmod (u + Int.tdiv m1 g) (Int.tdiv m1 g)| ≤
        (Int.tdiv m1 g - 1) * (Int.tdiv m1 g - 1) := by
      rw [abs_mul]
      apply mul_le_mul ?_ ?_ (abs_nonneg _) (by omega)
      · rw [abs_le]
        constructor <;> omega
      · rw [abs_le]
        constructor <;> omega
    have hwim_b := abs_le.mp hwim_abs
    have hsq : (Int.tdiv m1 g - 1) * (Int.tdiv m1 g - 1) =
        Int.tdiv m1 g * Int.tdiv m1 g - 2 * Int.tdiv m1 g + 1 := by ring
    have hwwim : wrap (Int.tmod (Int.tdiv (r1 - r0) g) (Int.tdiv m1 g) *
        Int.tmod (u + Int.tdiv m1 g) (Int.tdiv m1 g)) =
        Int.tmod (Int.tdiv (r1 - r0) g) (Int.tdiv m1 g) *
        Int.tmod (u + Int.tdiv m1 g) (Int.tdiv m1 g) :=
      wrap_eq_self _ (by omega) (by omega)
    have hs_b := tmod_bounds (Int.tmod (Int.tdiv (r1 - r0) g) (Int.tdiv m1 g) *
      Int.tmod (u + Int.tdiv m1 g) (Int.tdiv m1 g)) (Int.tdiv m1 g) (by omega)
    have hsm0_hi : Int.tmod (Int.tmod (Int.tdiv (r1 - r0) g) (Int.tdiv m1 g) *
        Int.tmod (u + Int.tdiv m1 g) (Int.tdiv m1 g)) (Int.tdiv m1 g) * m0 ≤
        (Int.tdiv m1 g - 1) * m0 :=
      mul_le_mul_of_nonneg_right (by omega) (by omega)
    have hsm0_lo : (-(Int.tdiv m1 g - 1)) * m0 ≤
        Int.tmod (Int.tmod (Int.tdiv (r1 - r0) g) (Int.tdiv m1 g) *
        Int.tmod (u + Int.tdiv m1 g) (Int.tdiv m1 g)) (Int.tdiv m1 g) * m0 :=
      mul_le_mul_of_nonneg_right (by omega) (by omega)
    have hexp1 : (Int.tdiv m1 g - 1) * m0 = m0 * Int.tdiv m1 g - m0 := by ring
    have hexp2 : (-(Int.tdiv m1 g - 1)) * m0 =
        -(m0 * Int.tdiv m1 g) + m0 := by ring
    have hwsm0 : wrap (Int.tmod (Int.tmod (Int.tdiv (r1 - r0) g)
        (Int.tdiv m1 g) * Int.tmod (u + Int.tdiv m1 g) (Int.tdiv m1 g))
        (Int.tdiv m1 g) * m0) =
        Int.tmod (Int.tmod (Int.tdiv (r1 - r0) g) (Int.tdiv m1 g) *
        Int.tmod (u + Int.tdiv m1 g) (Int.tdiv m1 g)) (Int.tdiv m1 g) * m0 :=
      wrap_eq_self _ (by omega) (by omega)
    have hwx : wrap (r0 + Int.tmod (Int.tmod (Int.tdiv (r1 - r0) g)
        (Int.tdiv m1 g) * Int.tmod (u + Int.tdiv m1 g) (Int.tdiv m1 g))
        (Int.tdiv m1 g) * m0) =
        r0 + Int.tmod (Int.tmod (Int.tdiv (r1 - r0) g) (Int.tdiv m1 g) *
        Int.tmod (u + Int.tdiv m1 g) (Int.tdiv m1 g)) (Int.tdiv m1 g) * m0 :=
      wrap_eq_self _ (by omega) (by omega)
    have hwm0n : wrap (m0 * Int.tdiv m1 g) = m0 * Int.tdiv m1 g :=
      wrap_eq_self _ (by omega) (by omega)
    have hwxm : wrap (r0 + Int.tmod (Int.tmod (Int.tdiv (r1 - r0) g)
        (Int.tdiv m1 g) * Int.tmod (u + Int.tdiv m1 g) (Int.tdiv m1 g))
        (Int.tdiv m1 g) * m0 + m0 * Int.tdiv m1 g) =
        r0 + Int.tmod (Int.tmod (Int.tdiv (r1 - r0) g) (Int.tdiv m1 g) *
        Int.tmod (u + Int.tdiv m1 g) (Int.tdiv m1 g)) (Int.tdiv m1 g) * m0 +
        m0 * Int.tdiv m1 g :=
      wrap_eq_self _ (by omega) (by omega)
    rw [crtMerge, crtMergeR, i64_rem_eq m0 m1 hm1]
    simp only [if_neg hdvd, hEG, hE, hwsub, i64_rem_eq (r1 - r0) g hg1]
    by_cases hchk : Int.tmod (r1 - r0) g = 0
    · simp only [hchk, ne_eq, not_true_eq_false, if_neg, if_false,
        i64_div_eq m1 g hg1, hwu,
        i64_rem_eq (u + Int.tdiv m1 g) (Int.tdiv m1 g) (by omega),
        i64_div_eq (r1 - r0) g hg1,
        i64_rem_eq (Int.tdiv (r1 - r0) g) (Int.tdiv m1 g) (by omega),
        hwwim,
        i64_rem_eq (Int.tmod (Int.tdiv (r1 - r0) g) (Int.tdiv m1 g) *
          Int.tmod (u + Int.tdiv m1 g) (Int.tdiv m1 g)) (Int.tdiv m1 g)
          (by omega),
        hwsm0, hwx, hwm0n, hwxm,
        i64_rem_eq (r0 + Int.tmod (Int.tmod (Int.tdiv (r1 - r0) g)
          (Int.tdiv m1 g) * Int.tmod (u + Int.tdiv m1 g) (Int.tdiv m1 g))
          (Int.tdiv m1 g) * m0 + m0 * Int.tdiv m1 g) (m0 * Int.tdiv m1 g)
          (by omega)]
    · simp only [if_pos hchk, ne_eq, hchk, if_neg, not_false_eq_true, if_true]


lemma crtStep_eq (r0 m0 r1 m1 : Int) (hm0 : 1 ≤ m0) (hm1 : 1 ≤ m1)
    (hr0 : 0 ≤ r0) (hr0b : r0 < m0) (hr1 : 0 ≤ r1) (hr1b : r1 < m1)
    (hL : (Int.lcm m0 m1 : Int) ≤ 2 ^ 62) :
    crtStep r0 m0 r1 m1 = crtStepR r0 m0 r1 m1 := by
  rw [crtStep, crtStepR]
  by_cases hsw : m0 < m1
  · rw [if_pos hsw, if_pos hsw]
    exact crtMerge_eq r1 m1 r0 m0 hm0 (by omega) hr1 hr1b hr0 hr0b
      (by rw [Int.lcm_comm]; exact hL)
  · rw [if_neg hsw, if_neg hsw]
    exact crtMerge_eq r0 m0 r1 m1 hm1 (by omega) hr0 hr0b hr1 hr1b hL

lemma le_lcmAll : ∀ (l : List (Int × Int)) (m0 : Int), 1 ≤ m0 →
    (∀ p ∈ l, 1 ≤ p.2) → m0 ≤ lcmAll m0 l := by
  intro l
  induction l with
  | nil => intro m0 _ _; exact le_refl m0
  | cons q rest ih =>
    intro m0 hm0 hl
    have hq : 1 ≤ q.2 := hl q (List.mem_cons_self _ _)
    have hlcm1 : (1 : Int) ≤ (Int.lcm m0 q.2 : Int) := lcm_pos m0 q.2 hm0 hq
    have h1 : m0 ≤ (Int.lcm m0 q.2 : Int) :=
      Int.le_of_dvd (by omega) Int.dvd_lcm_left
    have h2 := ih (Int.lcm m0 q.2 : Int) hlcm1
      (fun p hp => hl p (List.mem_cons_of_mem _ hp))
    exact le_trans h1 h2

lemma crtLoop_eq : ∀ (l : List (Int × Int)) (r0 m0 : Int), 1 ≤ m0 →
    0 ≤ r0 → r0 < m0 →
    (∀ p ∈ l, 1 ≤ p.2 ∧ -p.2 ≤ p.1 ∧ p.1 + p.2 ≤ 2 ^ 63 - 1) →
    lcmAll m0 l ≤ 2 ^ 62 →
    crtLoop l r0 m0 = crtLoopR l r0 m0 := by
  intro l
  induction l with
  | nil => intro r0 m0 _ _ _ _ _; rfl
  | cons q rest ih =>
    intro r0 m0 hm0 hr0 hr0b hl hLall
    obtain ⟨r1, m1⟩ := q
    obtain ⟨hm1, hr1lo, hr1hi⟩ := hl (r1, m1) (List.mem_cons_self _ _)
    have hw1 : wrap (r1 + m1) = r1 + m1 :=
      wrap_eq_self _ (by omega) (by omega)
    have hLcons : lcmAll m0 ((r1, m1) :: rest) =
        lcmAll (Int.lcm m0 m1 : Int) rest := rfl
    have hrest : ∀ p ∈ rest, 1 ≤ p.2 ∧ -p.2 ≤ p.1 ∧
        p.1 + p.2 ≤ 2 ^ 63 - 1 :=
      fun p hp => hl p (List.mem_cons_of_mem _ hp)
    have hlcm1 : (1 : Int) ≤ (Int.lcm m0 m1 : Int) := lcm_pos m0 m1 hm0 hm1
    have hLstep : (Int.lcm m0 m1 : Int) ≤ 2 ^ 62 := by
      have h1 := le_lcmAll rest (Int.lcm m0 m1 : Int) hlcm1
        (fun p hp => (hrest p hp).1)
      rw [hLcons] at hLall
      omega
    have hr1n_eq : Int.tmod (r1 + m1) m1 = (r1 + m1) % m1 :=
      Int.tmod_eq_emod (by omega) (by omega)
    have hr1n_nonneg : 0 ≤ Int.tmod (r1 + m1) m1 := by
      rw [hr1n_eq]
      exact Int.emod_nonneg _ (by omega)
    have hr1n_lt : Int.tmod (r1 + m1) m1 < m1 := by
      rw [hr1n_eq]
      exact Int.emod_lt_of_pos _ (by omega)
    simp only [crtLoop, crtLoopR, hw1, i64_rem_eq (r1 + m1) m1 hm1,
      if_neg (show ¬ m1 < 1 by omega),
      crtStep_eq r0 m0 (Int.tmod (r1 + m1) m1) m1 hm0 hm1 hr0 hr0b
        hr1n_nonneg hr1n_lt hLstep]
    rcases crtStepR_spec r0 m0 (Int.tmod (r1 + m1) m1) m1 hm0 hm1 hr0 hr0b
      hr1n_nonneg hr1n_lt with
      ⟨rm, hstep, hrm0, hrmb, _, _⟩ | ⟨hstep, _⟩
    · rw [hstep]
      exact ih rm (Int.lcm m0 m1 : Int) hlcm1 hrm0 hrmb hrest
        (by rw [hLcons] at hLall; exact hLall)
    · rw [hstep]

lemma crt_eq (rm md : List Int) (hmd : ∀ m ∈ md, 1 ≤ m)
    (hrm : ∀ p ∈ rm.zip md, -p.2 ≤ p.1 ∧ p.1 + p.2 ≤ 2 ^ 63 - 1)
    (hL : md.foldl (fun a m => (Int.lcm a m : Int)) 1 ≤ 2 ^ 62) :
    crt rm md = crtR rm md := by
  rw [crt, crtR]
  by_cases hlen : rm.length ≠ md.length
  · rw [if_pos hlen, if_pos hlen]
  · rw [if_neg hlen, if_neg hlen]
    push_neg at hlen
    apply crtLoop_eq (rm.zip md) 0 1 (le_refl 1) (le_refl 0) (by omega)
    · intro p hp
      exact ⟨hmd p.2 (List.of_mem_zip hp).2, (hrm p hp).1, (hrm p hp).2⟩
    · rw [lcmAll_zip md rm 1 hlen]
      exact hL


/-- C3 (amended): over the i64-faithful embedding of `crt` (wrapping
`+`, `-`, `*`; panicking `/`, `%`, modelled as `none`), for equal-length
lists with every modulus at least 1, every remainder at least minus its
modulus with remainder plus modulus within i64 range, and the least
common multiple of the accumulated moduli at most `2 ^ 62` (so that no
intermediate value, in particular `x + m0` which can reach twice the
lcm, overflows): if all pairs of congruences are compatible the function
returns `some (r, L)` with `L` the least common multiple of the moduli,
`0 ≤ r < L` and `r ≡ rm[i] (mod md[i])` for every `i`; if some pair is
incompatible it returns `none`. -/
theorem crt_correct (rm md : List Int) (hlen : rm.length = md.length)
    (hmd : ∀ m ∈ md, 1 ≤ m)
    (hrm : ∀ p ∈ rm.zip md, -p.2 ≤ p.1 ∧ p.1 + p.2 ≤ 2 ^ 63 - 1)
    (hL : md.foldl (fun a m => (Int.lcm a m : Int)) 1 ≤ 2 ^ 62) :
    ((∀ p ∈ rm.zip md, ∀ q ∈ rm.zip md,
        ((Int.gcd p.2 q.2 : Nat) : Int) ∣ p.1 - q.1) →
      ∃ r L, crt rm md = some (r, L) ∧
        L = md.foldl (fun a m => (Int.lcm a m : Int)) 1 ∧
        0 ≤ r ∧ r < L ∧ ∀ p ∈ rm.zip md, Int.ModEq p.2 r p.1) ∧
    ((∃ p ∈ rm.zip md, ∃ q ∈ rm.zip md,
        ¬ ((Int.gcd p.2 q.2 : Nat) : Int) ∣ p.1 - q.1) →
      crt rm md = none) := by
  rw [crt_eq rm md hmd hrm hL]
  exact crtR_correct rm md hlen hmd (fun p hp => (hrm p hp).1)

/-- Witness for C3: the system `x ≡ 3 (mod 5)`, `x ≡ 1 (mod 7)`,
`x ≡ 6 (mod 8)` is pairwise compatible, so `crt` solves it modulo
`lcm = 280`. -/
theorem crt_correct_witness :
    ∃ r L, crt [3, 1, 6] [5, 7, 8] = some (r, L) ∧
      L = ([5, 7, 8] : List Int).foldl (fun a m => (Int.lcm a m : Int)) 1 ∧
      0 ≤ r ∧ r < L ∧
      ∀ p ∈ ([3, 1, 6] : List Int).zip [5, 7, 8], Int.ModEq p.2 r p.1 :=
  (crt_correct [3, 1, 6] [5, 7, 8] (by decide) (by decide) (by decide)
    (by decide)).1 (by decide)

/-- The original claim fails on the i64 embedding of the source: a
single negative congruence yields a negative representative, and a
compatible pair with a remainder below minus the modulus is rejected. -/
theorem crt_claim_counterexample :
    crt [-7] [3] = some (-1, 3) ∧ crt [5, -7] [3, 3] = none := by
  constructor <;> decide

end MathCrt

/-! ## graph/disjoint_set.rs -/

namespace Dsu

/-- Embedding of `DisjointSets`. -/
structure DisjointSets where
  parent : List Nat
  size_nodes : List Nat
  num_sets : Nat
  deriving Repr, DecidableEq

/-- `DisjointSets::new`. -/
def DisjointSets.new (size : Nat) : DisjointSets :=
  ⟨List.range size, List.replicate size 1, size⟩

/-- A node is a root exactly when its stored size is positive (sizes of
non-roots are zeroed by `merge`). -/
def isRoot (s : DisjointSets) (u : Nat) : Prop := 0 < s.size_nodes.getD u 0

instance (s : DisjointSets) (u : Nat) : Decidable (isRoot s u) := by
  unfold isRoot
  infer_instance

/-- Parent pointer. -/
def par (s : DisjointSets) (u : Nat) : Nat := s.parent.getD u 0

/-- `DisjointSets::find` with fuel: path-compressing root search;
`none` models running out of fuel (never happens on valid states). -/
def findF : Nat → DisjointSets → Nat → Option (DisjointSets × Nat)
  | 0, _, _ => none
  | fuel + 1, s, u =>
    if 0 < s.size_nodes.getD u 0 then some (s, u)
    else match findF fuel s (s.parent.getD u 0) with
      | none => none
      | some (s1, r) => some ({ s1 with parent := s1.parent.set u r }, r)

/-- `DisjointSets::find`, with fuel `parent.len()`. -/
def DisjointSets.find (s : DisjointSets) (u : Nat) :
    Option (DisjointSets × Nat) :=
  findF s.parent.length s u

/-- The mutation block of `DisjointSets::merge` once the winner `w` and
loser `l` roots are fixed: `size_nodes[w] += size_nodes[l]`,
`size_nodes[l] = 0`, `num_sets -= 1`, `parent[l] = w`. -/
def unionAt (s2 : DisjointSets) (w l : Nat) : DisjointSets :=
  { parent := s2.parent.set l w,
    size_nodes := (s2.size_nodes.set w
      (s2.size_nodes.getD w 0 + s2.size_nodes.getD l 0)).set l 0,
    num_sets := s2.num_sets - 1 }

/-- `DisjointSets::merge`, returning the new state and the result: the
smaller root is swapped into the loser position before the union. -/
def DisjointSets.merge (s : DisjointSets) (u v : Nat) :
    Option (DisjointSets × Bool) :=
  match s.find u with
  | none => none
  | some (s1, pu) =>
    match s1.find v with
    | none => none
    | some (s2, pv) =>
      if pu = pv then some (s2, false)
      else if s2.size_nodes.getD pu 0 < s2.size_nodes.getD pv 0
        then some (unionAt s2 pv pu, true)
        else some (unionAt s2 pu pv, true)

/-- `DisjointSets::count`. -/
def DisjointSets.count (s : DisjointSets) (v : Nat) :
    Option (DisjointSets × Nat) :=
  match s.find v with
  | none => none
  | some (s1, p) => some (s1, s1.size_nodes.getD p 0)

/-- `DisjointSets::count_sets`. -/
def DisjointSets.count_sets (s : DisjointSets) : Nat := s.num_sets

/-- `DisjointSets::same`. -/
def DisjointSets.same (s : DisjointSets) (u v : Nat) :
    Option (DisjointSets × Bool) :=
  match s.find u with
  | none => none
  | some (s1, pu) =>
    match s1.find v with
    | none => none
    | some (s2, pv) => some (s2, decide (pu = pv))

/-- Pure (non-mutating) root chase, with fuel. -/
def chase : Nat → DisjointSets → Nat → Option Nat
  | 0, _, _ => none
  | fuel + 1, s, u =>
    if 0 < s.size_nodes.getD u 0 then some u
    else chase fuel s (s.parent.getD u 0)

/-- The root of `u`, computed with fuel `parent.len()`. -/
def rootD (s : DisjointSets) (u : Nat) : Option Nat :=
  chase s.parent.length s u

/-- Iterated parent pointer. -/
def iterPar (s : DisjointSets) : Nat → Nat → Nat
  | 0, u => u
  | k + 1, u => iterPar s k (s.parent.getD u 0)

/-- Structural well-formedness with an explicit termination measure `d`
that strictly decreases along parent pointers of non-roots. -/
def Good (n : Nat) (d : Nat → Nat) (s : DisjointSets) : Prop :=
  s.parent.length = n ∧ s.size_nodes.length = n ∧
  (∀ w, w < n → par s w < n) ∧
  (∀ w, w < n → ¬ isRoot s w → d (par s w) < d w)

lemma iterPar_succ_right (s : DisjointSets) :
    ∀ k u, iterPar s (k + 1) u = par s (iterPar s k u) := by
  intro k
  induction k with
  | zero => intro u; rfl
  | succ k ih =>
    intro u
    show iterPar s (k + 1) (par s u) = _
    rw [ih (par s u)]
    rfl

lemma iterPar_lt (n : Nat) (d : Nat → Nat) (s : DisjointSets)
    (hg : Good n d s) : ∀ k u, u < n → iterPar s k u < n := by
  intro k
  induction k with
  | zero => intro u hu; exact hu
  | succ k ih =>
    intro u hu
    rw [iterPar_succ_right]
    exact hg.2.2.1 _ (ih u hu)

lemma iterPar_d_lt (n : Nat) (d : Nat → Nat) (s : DisjointSets)
    (hg : Good n d s) (u : Nat) (hu : u < n) :
    ∀ k, (∀ j, j < k → ¬ isRoot s (iterPar s j u)) →
      ∀ j, j < k → d (iterPar s (j + 1) u) < d (iterPar s j u) := by
  intro k hnr j hj
  rw [iterPar_succ_right]
  exact hg.2.2.2 _ (iterPar_lt n d s hg j u hu) (hnr j hj)

lemma iterPar_d_chain (n : Nat) (d : Nat → Nat) (s : DisjointSets)
    (hg : Good n d s) (u : Nat) (hu : u < n) (k : Nat)
    (hnr : ∀ j, j < k → ¬ isRoot s (iterPar s j u)) :
    ∀ i j, i < j → j ≤ k → d (iterPar s j u) < d (iterPar s i u) := by
  intro i j
  induction j with
  | zero => intro h _; omega
  | succ j ih =>
    intro hij hjk
    have hstep : d (iterPar s (j + 1) u) < d (iterPar s j u) :=
      iterPar_d_lt n d s hg u hu k (fun j2 hj2 => hnr j2 hj2) j (by omega)
    rcases Nat.lt_or_ge i j with h | h
    · exact lt_trans hstep (ih h (by omega))
    · have : i = j := by omega
      subst this
      exact hstep

lemma exists_root_iter (n : Nat) (d : Nat → Nat) (s : DisjointSets)
    (hg : Good n d s) (u : Nat) (hu : u < n) :
    ∃ k, k < n ∧ isRoot s (iterPar s k u) := by
  by_contra hcon
  push_neg at hcon
  have hnr : ∀ j, j < n → ¬ isRoot s (iterPar s j u) := fun j hj =>
    hcon j hj
  have hinj : Function.Injective
      (fun i : Fin (n + 1) => (⟨iterPar s i u, iterPar_lt n d s hg i u hu⟩ :
        Fin n)) := by
    intro i j hij
    simp only [Fin.mk.injEq] at hij
    by_contra hne
    rcases Nat.lt_or_ge i.val j.val with h | h
    · have := iterPar_d_chain n d s hg u hu n hnr i.val j.val h (by omega)
      rw [hij] at this
      omega
    · have hlt : j.val < i.val := by
        rcases Nat.lt_or_ge j.val i.val with h2 | h2
        · exact h2
        · exact absurd (Fin.val_injective (by omega)) hne
      have := iterPar_d_chain n d s hg u hu n hnr j.val i.val hlt (by omega)
      rw [hij] at this
      omega
  have := Fintype.card_le_of_injective _ hinj
  simp at this

lemma exists_minRoot (n : Nat) (d : Nat → Nat) (s : DisjointSets)
    (hg : Good n d s) (u : Nat) (hu : u < n) :
    ∃ k, k < n ∧ isRoot s (iterPar s k u) ∧
      ∀ j, j < k → ¬ isRoot s (iterPar s j u) := by
  obtain ⟨k0, hk0, hr0⟩ := exists_root_iter n d s hg u hu
  have hex : ∃ k, isRoot s (iterPar s k u) := ⟨k0, hr0⟩
  refine ⟨Nat.find hex, ?_, Nat.find_spec hex, fun j hj => Nat.find_min hex hj⟩
  exact lt_of_le_of_lt (Nat.find_min' hex hr0) hk0

lemma chase_spec (s : DisjointSets) : ∀ fuel u k, k < fuel →
    isRoot s (iterPar s k u) → (∀ j, j < k → ¬ isRoot s (iterPar s j u)) →
    chase fuel s u = some (iterPar s k u) := by
  intro fuel
  induction fuel with
  | zero => intro u k hk; omega
  | succ fuel ih =>
    intro u k hk hroot hmin
    by_cases hru : isRoot s u
    · have hk0 : k = 0 := by
        by_contra hne
        exact hmin 0 (by omega) hru
      subst hk0
      rw [chase, if_pos (show 0 < s.size_nodes.getD u 0 from hru)]
      rfl
    · have hk1 : 1 ≤ k := by
        by_contra hne
        push_neg at hne
        have : k = 0 := by omega
        subst this
        exact hru hroot
      rw [chase, if_neg (show ¬ 0 < s.size_nodes.getD u 0 from hru)]
      have hrw : iterPar s k u = iterPar s (k - 1) (par s u) := by
        have : k = (k - 1) + 1 := by omega
        rw [this]
        rfl
      rw [hrw]
      rw [hrw] at hroot
      apply ih (par s u) (k - 1) (by omega) hroot
      intro j hj
      have := hmin (j + 1) (by omega)
      rwa [show iterPar s (j + 1) u = iterPar s j (par s u) from rfl] at this

lemma rootD_spec (n : Nat) (d : Nat → Nat) (s : DisjointSets)
    (hg : Good n d s) (u : Nat) (hu : u < n) :
    ∃ k, k < n ∧ isRoot s (iterPar s k u) ∧
      (∀ j, j < k → ¬ isRoot s (iterPar s j u)) ∧
      rootD s u = some (iterPar s k u) := by
  obtain ⟨k, hk, hroot, hmin⟩ := exists_minRoot n d s hg u hu
  refine ⟨k, hk, hroot, hmin, ?_⟩
  rw [rootD, hg.1]
  exact chase_spec s n u k hk hroot hmin

lemma rootD_isSome (n : Nat) (d : Nat → Nat) (s : DisjointSets)
    (hg : Good n d s) (u : Nat) (hu : u < n) :
    ∃ r, rootD s u = some r ∧ isRoot s r ∧ r < n := by
  obtain ⟨k, hk, hroot, _, heq⟩ := rootD_spec n d s hg u hu
  exact ⟨iterPar s k u, heq, hroot, iterPar_lt n d s hg k u hu⟩

lemma rootD_of_isRoot (n : Nat) (s : DisjointSets)
    (hlen : s.parent.length = n) (u : Nat) (hu : u < n)
    (hr : isRoot s u) : rootD s u = some u := by
  rw [rootD, hlen]
  have hn : n = (n - 1) + 1 := by omega
  rw [hn, chase, if_pos (show 0 < s.size_nodes.getD u 0 from hr)]

lemma rootD_step (n : Nat) (d : Nat → Nat) (s : DisjointSets)
    (hg : Good n d s) (u : Nat) (hu : u < n) (hnr : ¬ isRoot s u) :
    rootD s u = rootD s (par s u) := by
  obtain ⟨k, hk, hroot, hmin, heq⟩ := rootD_spec n d s hg u hu
  have hk1 : 1 ≤ k := by
    by_contra hne
    push_neg at hne
    have : k = 0 := by omega
    subst this
    exact hnr hroot
  obtain ⟨k2, hk2, hroot2, hmin2, heq2⟩ := rootD_spec n d s hg (par s u)
    (hg.2.2.1 u hu)
  rw [heq, heq2]
  have hiter : iterPar s k u = iterPar s (k - 1) (par s u) := by
    conv_lhs => rw [show k = (k - 1) + 1 by omega]
    rfl
  have hge : k ≤ k2 + 1 := by
    by_contra hcon
    push_neg at hcon
    exact hmin (k2 + 1) (by omega)
      (by rwa [show iterPar s (k2 + 1) u = iterPar s k2 (par s u) from rfl])
  have hle : k2 ≤ k - 1 := by
    by_contra hcon
    push_neg at hcon
    apply hmin2 (k - 1) (by omega)
    rw [← hiter]
    exact hroot
  have hkk2 : k2 = k - 1 := by omega
  subst hkk2
  rw [hiter]

lemma rootD_d_lt (n : Nat) (d : Nat → Nat) (s : DisjointSets)
    (hg : Good n d s) (u r : Nat) (hu : u < n) (hnr : ¬ isRoot s u)
    (hr : rootD s u = some r) : d r < d u := by
  obtain ⟨k, hk, hroot, hmin, heq⟩ := rootD_spec n d s hg u hu
  rw [heq] at hr
  rw [Option.some_inj] at hr
  have hk1 : 1 ≤ k := by
    by_contra hne
    push_neg at hne
    have : k = 0 := by omega
    subst this
    exact hnr hroot
  have := iterPar_d_chain n d s hg u hu k hmin 0 k (by omega) (le_refl k)
  rw [hr] at this
  exact this

lemma good_set (n : Nat) (d : Nat → Nat) (s : DisjointSets)
    (hg : Good n d s) (u r : Nat) (hu : u < n) (hnr : ¬ isRoot s u)
    (hr : rootD s u = some r) :
    Good n d { s with parent := s.parent.set u r } := by
  obtain ⟨r2, hr2, hroot2, hrlt2⟩ := rootD_isSome n d s hg u hu
  rw [hr] at hr2
  rw [Option.some_inj] at hr2
  subst hr2
  have hdlt : d r < d u := rootD_d_lt n d s hg u r hu hnr hr
  have hpar : ∀ w, par { s with parent := s.parent.set u r } w =
      if u = w then r else par s w := by
    intro w
    show (s.parent.set u r).getD w 0 = _
    rw [List.getD_eq_getElem?_getD, List.getElem?_set]
    by_cases hw : u = w
    · rw [if_pos hw, if_pos hw, if_pos (by rw [hg.1]; omega)]
      rfl
    · rw [if_neg hw, if_neg hw, ← List.getD_eq_getElem?_getD]
      rfl
  refine ⟨by simp [List.length_set, hg.1], hg.2.1, ?_, ?_⟩
  · intro w hw
    rw [hpar w]
    by_cases hww : u = w
    · rw [if_pos hww]
      exact hrlt2
    · rw [if_neg hww]
      exact hg.2.2.1 w hw
  · intro w hw hnw
    have hnw2 : ¬ isRoot s w := hnw
    rw [hpar w]
    by_cases hww : u = w
    · rw [if_pos hww, ← hww]
      exact hdlt
    · rw [if_neg hww]
      exact hg.2.2.2 w hw hnw2

lemma rootD_set (n : Nat) (d : Nat → Nat) (s : DisjointSets)
    (hg : Good n d s) (u r : Nat) (hu : u < n) (hnr : ¬ isRoot s u)
    (hr : rootD s u = some r) :
    ∀ w, w < n → rootD { s with parent := s.parent.set u r } w =
      rootD s w := by
  have hg2 := good_set n d s hg u r hu hnr hr
  obtain ⟨r2, hr2, hroot2, hrlt2⟩ := rootD_isSome n d s hg u hu
  rw [hr] at hr2
  rw [Option.some_inj] at hr2
  subst hr2
  have hpar : ∀ w, par { s with parent := s.parent.set u r } w =
      if u = w then r else par s w := by
    intro w
    show (s.parent.set u r).getD w 0 = _
    rw [List.getD_eq_getElem?_getD, List.getElem?_set]
    by_cases hw : u = w
    · rw [if_pos hw, if_pos hw, if_pos (by rw [hg.1]; omega)]
      rfl
    · rw [if_neg hw, if_neg hw, ← List.getD_eq_getElem?_getD]
      rfl
  have hroot_same : ∀ w, isRoot { s with parent := s.parent.set u r } w ↔
      isRoot s w := by
    intro w
    exact Iff.rfl
  suffices H : ∀ m w, d w ≤ m → w < n →
      rootD { s with parent := s.parent.set u r } w = rootD s w by
    intro w hw
    exact H (d w) w (le_refl _) hw
  intro m
  induction m with
  | zero =>
    intro w hdw hw
    by_cases hrw : isRoot s w
    · rw [rootD_of_isRoot n _ hg2.1 w hw ((hroot_same w).mpr hrw),
        rootD_of_isRoot n s hg.1 w hw hrw]
    · exfalso
      by_cases hwu : w = u
      · subst hwu
        have := rootD_d_lt n d s hg w r hw hrw hr
        omega
      · have := hg.2.2.2 w hw hrw
        omega
  | succ m ih =>
    intro w hdw hw
    by_cases hrw : isRoot s w
    · rw [rootD_of_isRoot n _ hg2.1 w hw ((hroot_same w).mpr hrw),
        rootD_of_isRoot n s hg.1 w hw hrw]
    · rw [rootD_step n d _ hg2 w hw ((hroot_same w).not.mpr hrw),
        rootD_step n d s hg w hw hrw, hpar w]
      by_cases hwu : u = w
      · rw [if_pos hwu]
        subst hwu
        have hrd2 : rootD { s with parent := s.parent.set u r } r = some r :=
          rootD_of_isRoot n _ hg2.1 r hrlt2 hroot2
        rw [hrd2, ← rootD_step n d s hg u hw hrw, hr]
      · rw [if_neg hwu]
        have hplt : d (par s w) < d w := hg.2.2.2 w hw hrw
        exact ih (par s w) (by omega) (hg.2.2.1 w hw)

lemma findF_spec (n : Nat) (d : Nat → Nat) :
    ∀ fuel (s : DisjointSets) u k, Good n d s → u < n → k < fuel → k < n →
    isRoot s (iterPar s k u) → (∀ j, j < k → ¬ isRoot s (iterPar s j u)) →
    ∃ s2, findF fuel s u = some (s2, iterPar s k u) ∧ Good n d s2 ∧
      s2.size_nodes = s.size_nodes ∧ s2.num_sets = s.num_sets ∧
      (∀ w, w < n → rootD s2 w = rootD s w) := by
  intro fuel
  induction fuel with
  | zero => intro s u k _ _ h; omega
  | succ fuel ih =>
    intro s u k hg hu hk hkn hroot hmin
    by_cases hru : isRoot s u
    · have hk0 : k = 0 := by
        by_contra hne
        exact hmin 0 (by omega) hru
      subst hk0
      refine ⟨s, ?_, hg, rfl, rfl, fun w _ => rfl⟩
      rw [findF, if_pos (show 0 < s.size_nodes.getD u 0 from hru)]
      rfl
    · have hk1 : 1 ≤ k := by
        by_contra hne
        push_neg at hne
        have : k = 0 := by omega
        subst this
        exact hru hroot
      have hpu : par s u < n := hg.2.2.1 u hu
      have hiter : iterPar s k u = iterPar s (k - 1) (par s u) := by
        conv_lhs => rw [show k = (k - 1) + 1 by omega]
        rfl
      have hroot2 : isRoot s (iterPar s (k - 1) (par s u)) := by
        rw [← hiter]
        exact hroot
      have hmin2 : ∀ j, j < k - 1 → ¬ isRoot s (iterPar s j (par s u)) := by
        intro j hj
        have := hmin (j + 1) (by omega)
        rwa [show iterPar s (j + 1) u = iterPar s j (par s u) from rfl] at this
      obtain ⟨s1, heq1, hg1, hsz1, hns1, hrd1⟩ :=
        ih s (par s u) (k - 1) hg hpu (by omega) (by omega) hroot2 hmin2
      have hnr1 : ¬ isRoot s1 u := by
        show ¬ 0 < s1.size_nodes.getD u 0
        rw [hsz1]
        exact hru
      have hrdu : rootD s u = some (iterPar s k u) := by
        rw [rootD, hg.1]
        exact chase_spec s n u k hkn hroot hmin
      have hrd1u : rootD s1 u = some (iterPar s k u) := by
        rw [hrd1 u hu]
        exact hrdu
      refine ⟨{ s1 with parent := s1.parent.set u (iterPar s k u) }, ?_, ?_,
        hsz1, hns1, ?_⟩
      · rw [findF, if_neg (show ¬ 0 < s.size_nodes.getD u 0 from hru),
          show s.parent.getD u 0 = par s u from rfl, heq1, hiter]
      · exact good_set n d s1 hg1 u (iterPar s k u) hu hnr1 hrd1u
      · intro w hw
        rw [rootD_set n d s1 hg1 u (iterPar s k u) hu hnr1 hrd1u w hw]
        exact hrd1 w hw

lemma find_spec (n : Nat) (d : Nat → Nat) (s : DisjointSets)
    (hg : Good n d s) (u : Nat) (hu : u < n) :
    ∃ s2 r, s.find u = some (s2, r) ∧ rootD s u = some r ∧
      isRoot s r ∧ r < n ∧ Good n d s2 ∧
      s2.size_nodes = s.size_nodes ∧ s2.num_sets = s.num_sets ∧
      (∀ w, w < n → rootD s2 w = rootD s w) := by
  obtain ⟨k, hk, hroot, hmin⟩ := exists_minRoot n d s hg u hu
  obtain ⟨s2, heq, hg2, hsz, hns, hrd⟩ := findF_spec n d s.parent.length s u k
    hg hu (by rw [hg.1]; omega) hk hroot hmin
  refine ⟨s2, iterPar s k u, heq, ?_, hroot, iterPar_lt n d s hg k u hu,
    hg2, hsz, hns, hrd⟩
  rw [rootD, hg.1]
  exact chase_spec s n u k hk hroot hmin

/-- One recorded `merge(u, v)` call relates `u` and `v` (in either order). -/
def pairRel (ps : List (Nat × Nat)) (a b : Nat) : Prop :=
  (a, b) ∈ ps ∨ (b, a) ∈ ps

/-- `a` and `b` are connected by the merges performed so far. -/
def linked (ps : List (Nat × Nat)) (a b : Nat) : Prop :=
  Relation.EqvGen (pairRel ps) a b

lemma linked_refl (ps : List (Nat × Nat)) (a : Nat) : linked ps a a :=
  Relation.EqvGen.refl a

lemma linked_symm (ps : List (Nat × Nat)) {a b : Nat} (h : linked ps a b) :
    linked ps b a :=
  Relation.EqvGen.symm a b h

lemma linked_trans (ps : List (Nat × Nat)) {a b c : Nat}
    (h1 : linked ps a b) (h2 : linked ps b c) : linked ps a c :=
  Relation.EqvGen.trans a b c h1 h2

lemma linked_nil (a b : Nat) : linked [] a b ↔ a = b := by
  constructor
  · intro h
    induction h with
    | rel x y hxy => rcases hxy with h | h <;> cases h
    | refl x => rfl
    | symm x y _ ih => omega
    | trans x y z _ _ ih1 ih2 => omega
  · intro h
    subst h
    exact linked_refl [] a

lemma linked_mono (ps ps2 : List (Nat × Nat))
    (hsub : ∀ p ∈ ps, p ∈ ps2) {a b : Nat} (h : linked ps a b) :
    linked ps2 a b := by
  apply Relation.EqvGen.mono _ h
  intro x y hxy
  rcases hxy with h2 | h2
  · exact Or.inl (hsub _ h2)
  · exact Or.inr (hsub _ h2)

lemma linked_append (ps : List (Nat × Nat)) (u v a b : Nat) :
    linked (ps ++ [(u, v)]) a b ↔
      linked ps a b ∨ (linked ps a u ∧ linked ps v b) ∨
        (linked ps a v ∧ linked ps u b) := by
  constructor
  · intro h
    induction h with
    | rel x y hxy =>
      rcases hxy with h2 | h2 <;> rw [List.mem_append] at h2
      · rcases h2 with h3 | h3
        · exact Or.inl (Relation.EqvGen.rel x y (Or.inl h3))
        · simp only [List.mem_singleton, Prod.mk.injEq] at h3
          exact Or.inr (Or.inl ⟨h3.1 ▸ linked_refl ps x,
            h3.2 ▸ linked_refl ps y⟩)
      · rcases h2 with h3 | h3
        · exact Or.inl (Relation.EqvGen.rel x y (Or.inr h3))
        · simp only [List.mem_singleton, Prod.mk.injEq] at h3
          exact Or.inr (Or.inr ⟨h3.2 ▸ linked_refl ps x,
            h3.1 ▸ linked_refl ps y⟩)
    | refl x => exact Or.inl (linked_refl ps x)
    | symm x y _ ih =>
      rcases ih with h2 | ⟨h2, h3⟩ | ⟨h2, h3⟩
      · exact Or.inl (linked_symm ps h2)
      · exact Or.inr (Or.inr ⟨linked_symm ps h3, linked_symm ps h2⟩)
      · exact Or.inr (Or.inl ⟨linked_symm ps h3, linked_symm ps h2⟩)
    | trans x y z _ _ ih1 ih2 =>
      rcases ih1 with h1 | ⟨h1, h2⟩ | ⟨h1, h2⟩ <;>
        rcases ih2 with h3 | ⟨h3, h4⟩ | ⟨h3, h4⟩
      · exact Or.inl (linked_trans ps h1 h3)
      · exact Or.inr (Or.inl ⟨linked_trans ps h1 h3, h4⟩)
      · exact Or.inr (Or.inr ⟨linked_trans ps h1 h3, h4⟩)
      · exact Or.inr (Or.inl ⟨h1, linked_trans ps h2 h3⟩)
      · exact Or.inl (linked_trans ps h1 (linked_trans ps
          (linked_symm ps (linked_trans ps h2 h3)) h4))
      · exact Or.inl (linked_trans ps h1 h4)
      · exact Or.inr (Or.inr ⟨h1, linked_trans ps h2 h3⟩)
      · exact Or.inl (linked_trans ps h1 h4)
      · exact Or.inl (linked_trans ps h1 (linked_trans ps
          (linked_symm ps (linked_trans ps h2 h3)) h4))
  · intro h
    have hedge : linked (ps ++ [(u, v)]) u v :=
      Relation.EqvGen.rel u v (Or.inl (by simp))
    have hmono : ∀ {x y : Nat}, linked ps x y → linked (ps ++ [(u, v)]) x y :=
      fun h2 => linked_mono ps _ (fun p hp => List.mem_append_left _ hp) h2
    rcases h with h1 | ⟨h1, h2⟩ | ⟨h1, h2⟩
    · exact hmono h1
    · exact linked_trans _ (hmono h1) (linked_trans _ hedge (hmono h2))
    · exact linked_trans _ (hmono h1)
        (linked_trans _ (linked_symm _ hedge) (hmono h2))

/-- Coupling invariant between a `DisjointSets` state and the merge
history `ps` on the universe `{0, ..., n-1}`. -/
def Models (n : Nat) (ps : List (Nat × Nat)) (s : DisjointSets) : Prop :=
  (∃ d, Good n d s) ∧
  (∀ u v, u < n → v < n → (rootD s u = rootD s v ↔ linked ps u v)) ∧
  (∀ r, r < n → isRoot s r → s.size_nodes.getD r 0 =
    ((Finset.range n).filter (fun w => rootD s w = some r)).card) ∧
  s.num_sets = ((Finset.range n).filter (fun r => isRoot s r)).card

lemma range_getD (n w : Nat) (hw : w < n) : (List.range n).getD w 0 = w := by
  rw [List.getD_eq_getElem?_getD, List.getElem?_range hw]
  rfl

lemma isRoot_new (n u : Nat) (hu : u < n) : isRoot (DisjointSets.new n) u := by
  show 0 < (List.replicate n 1).getD u 0
  rw [RangeQuery.replicate_getD n u 1 0 hu]
  omega

lemma good_new (n : Nat) : Good n (fun _ => 0) (DisjointSets.new n) := by
  refine ⟨by simp [DisjointSets.new], by simp [DisjointSets.new], ?_, ?_⟩
  · intro w hw
    show (List.range n).getD w 0 < n
    rw [range_getD n w hw]
    exact hw
  · intro w hw hnr
    exact absurd (isRoot_new n w hw) hnr

lemma rootD_new (n u : Nat) (hu : u < n) :
    rootD (DisjointSets.new n) u = some u :=
  rootD_of_isRoot n _ (by simp [DisjointSets.new]) u hu (isRoot_new n u hu)

lemma models_new (n : Nat) : Models n [] (DisjointSets.new n) := by
  refine ⟨⟨fun _ => 0, good_new n⟩, ?_, ?_, ?_⟩
  · intro u v hu hv
    rw [rootD_new n u hu, rootD_new n v hv, linked_nil]
    simp
  · intro r hr _
    have h1 : (Finset.range n).filter
        (fun w => rootD (DisjointSets.new n) w = some r) =
        (Finset.range n).filter (fun w => w = r) := by
      apply Finset.filter_congr
      intro w hw
      rw [Finset.mem_range] at hw
      rw [rootD_new n w hw]
      simp
    rw [h1, Finset.filter_eq', if_pos (Finset.mem_range.mpr hr)]
    show (List.replicate n 1).getD r 0 = _
    rw [RangeQuery.replicate_getD n r 1 0 hr]
    simp
  · show n = _
    have h1 : (Finset.range n).filter
        (fun r => isRoot (DisjointSets.new n) r) = Finset.range n := by
      apply Finset.filter_true_of_mem
      intro r hr
      exact isRoot_new n r (Finset.mem_range.mp hr)
    rw [h1, Finset.card_range]

lemma models_transfer (n : Nat) (ps : List (Nat × Nat)) (s s2 : DisjointSets)
    (hm : Models n ps s) (hgd2 : ∃ d, Good n d s2)
    (hsz : s2.size_nodes = s.size_nodes) (hns : s2.num_sets = s.num_sets)
    (hrd : ∀ w, w < n → rootD s2 w = rootD s w) : Models n ps s2 := by
  have hroot_same : ∀ w, isRoot s2 w ↔ isRoot s w := by
    intro w
    show 0 < s2.size_nodes.getD w 0 ↔ _
    rw [hsz]
    exact Iff.rfl
  refine ⟨hgd2, ?_, ?_, ?_⟩
  · intro u v hu hv
    rw [hrd u hu, hrd v hv]
    exact hm.2.1 u v hu hv
  · intro r hr hrt
    have h1 : (Finset.range n).filter (fun w => rootD s2 w = some r) =
        (Finset.range n).filter (fun w => rootD s w = some r) := by
      apply Finset.filter_congr
      intro w hw
      rw [hrd w (Finset.mem_range.mp hw)]
    rw [h1]
    show s2.size_nodes.getD r 0 = _
    rw [hsz]
    exact hm.2.2.1 r hr ((hroot_same r).mp hrt)
  · have h1 : (Finset.range n).filter (fun r => isRoot s2 r) =
        (Finset.range n).filter (fun r => isRoot s r) := by
      apply Finset.filter_congr
      intro r _
      rw [hroot_same r]
    rw [h1, hns]
    exact hm.2.2.2

lemma same_spec (n : Nat) (ps : List (Nat × Nat)) (s : DisjointSets)
    (hm : Models n ps s) (u v : Nat) (hu : u < n) (hv : v < n) :
    ∃ s2 b, s.same u v = some (s2, b) ∧ (b = true ↔ linked ps u v) ∧
      Models n ps s2 := by
  obtain ⟨d, hg⟩ := hm.1
  obtain ⟨s1, pu, heq1, hru, _, _, hg1, hsz1, hns1, hrd1⟩ :=
    find_spec n d s hg u hu
  obtain ⟨s2, pv, heq2, hrv1, _, _, hg2, hsz2, hns2, hrd2⟩ :=
    find_spec n d s1 hg1 v hv
  have hrv : rootD s v = some pv := by
    rw [← hrd1 v hv]
    exact hrv1
  refine ⟨s2, decide (pu = pv), ?_, ?_, ?_⟩
  · rw [DisjointSets.same, heq1]
    simp only
    rw [heq2]
  · rw [decide_eq_true_eq]
    rw [← hm.2.1 u v hu hv, hru, hrv]
    simp
  · exact models_transfer n ps s s2 hm ⟨d, hg2⟩ (by rw [hsz2, hsz1])
      (by rw [hns2, hns1]) (fun w hw => by rw [hrd2 w hw, hrd1 w hw])

lemma count_spec (n : Nat) (ps : List (Nat × Nat)) (s : DisjointSets)
    (hm : Models n ps s) (v : Nat) (hv : v < n) :
    ∃ s1 c, s.count v = some (s1, c) ∧
      c = Set.ncard {w | w < n ∧ linked ps w v} ∧ Models n ps s1 := by
  obtain ⟨d, hg⟩ := hm.1
  obtain ⟨s1, p, heq1, hrv, hrt, hpn, hg1, hsz1, hns1, hrd1⟩ :=
    find_spec n d s hg v hv
  have hm1 : Models n ps s1 :=
    models_transfer n ps s s1 hm ⟨d, hg1⟩ hsz1 hns1 hrd1
  refine ⟨s1, s1.size_nodes.getD p 0, ?_, ?_, hm1⟩
  · rw [DisjointSets.count, heq1]
  · have hroot1 : isRoot s1 p := by
      show 0 < s1.size_nodes.getD p 0
      rw [hsz1]
      exact hrt
    rw [hm1.2.2.1 p hpn hroot1]
    have hset : {w | w < n ∧ linked ps w v} =
        ↑((Finset.range n).filter (fun w => rootD s1 w = some p)) := by
      ext w
      simp only [Set.mem_setOf_eq, Finset.coe_filter, Finset.mem_range]
      constructor
      · rintro ⟨hw, hl⟩
        refine ⟨hw, ?_⟩
        rw [hrd1 w hw]
        have := (hm.2.1 w v hw hv).mpr hl
        rw [this, hrv]
      · rintro ⟨hw, hl⟩
        refine ⟨hw, ?_⟩
        apply (hm.2.1 w v hw hv).mp
        rw [hrd1 w hw] at hl
        rw [hl, hrv]
    rw [hset, Set.ncard_coe_Finset]

lemma linked_absorb (ps : List (Nat × Nat)) (u v : Nat)
    (h : linked ps u v) (a b : Nat) :
    linked (ps ++ [(u, v)]) a b ↔ linked ps a b := by
  rw [linked_append]
  constructor
  · rintro (h1 | ⟨h1, h2⟩ | ⟨h1, h2⟩)
    · exact h1
    · exact linked_trans ps (linked_trans ps h1 h) h2
    · exact linked_trans ps (linked_trans ps h1 (linked_symm ps h)) h2
  · exact Or.inl

lemma linked_swap (ps : List (Nat × Nat)) (u v a b : Nat) :
    linked (ps ++ [(v, u)]) a b ↔ linked (ps ++ [(u, v)]) a b := by
  rw [linked_append, linked_append]
  tauto

lemma models_congr_ps (n : Nat) (ps ps2 : List (Nat × Nat))
    (s : DisjointSets) (hm : Models n ps s)
    (h : ∀ a b, a < n → b < n → (linked ps a b ↔ linked ps2 a b)) :
    Models n ps2 s := by
  refine ⟨hm.1, ?_, hm.2.2.1, hm.2.2.2⟩
  intro a b ha hb
  rw [hm.2.1 a b ha hb, h a b ha hb]

lemma union_models (n : Nat) (ps : List (Nat × Nat)) (s2 : DisjointSets)
    (hm2 : Models n ps s2) (u v W L : Nat) (hu : u < n) (hv : v < n)
    (hRu : rootD s2 u = some W) (hRv : rootD s2 v = some L)
    (hWL : W ≠ L) :
    Models n (ps ++ [(u, v)]) (unionAt s2 W L) := by
  obtain ⟨d, hg2⟩ := hm2.1
  obtain ⟨rW, hrW1, hWroot, hWn⟩ := rootD_isSome n d s2 hg2 u hu
  rw [hRu] at hrW1
  rw [Option.some_inj] at hrW1
  subst hrW1
  obtain ⟨rL, hrL1, hLroot, hLn⟩ := rootD_isSome n d s2 hg2 v hv
  rw [hRv] at hrL1
  rw [Option.some_inj] at hrL1
  subst hrL1
  have hW0 : 0 < s2.size_nodes.getD W 0 := hWroot
  have hRW : rootD s2 W = some W := rootD_of_isRoot n s2 hg2.1 W hWn hWroot
  have hRL : rootD s2 L = some L := rootD_of_isRoot n s2 hg2.1 L hLn hLroot
  have hsz3 : ∀ x, x < n → (unionAt s2 W L).size_nodes.getD x 0 =
      if x = L then 0
      else if x = W then
        s2.size_nodes.getD W 0 + s2.size_nodes.getD L 0
      else s2.size_nodes.getD x 0 := by
    intro x hx
    show (((s2.size_nodes.set W _).set L 0)).getD x 0 = _
    rw [List.getD_eq_getElem?_getD, List.getElem?_set]
    by_cases hxL : L = x
    · rw [if_pos hxL, if_pos
        (by rw [List.length_set, hg2.2.1]; omega), if_pos hxL.symm]
      rfl
    · rw [if_neg hxL, if_neg (fun h2 => hxL h2.symm), List.getElem?_set]
      by_cases hxW : W = x
      · rw [if_pos hxW, if_pos (by rw [hg2.2.1]; omega), if_pos hxW.symm]
        rfl
      · rw [if_neg hxW, if_neg (fun h2 => hxW h2.symm),
          ← List.getD_eq_getElem?_getD]
  have hpar3 : ∀ x, x < n → par (unionAt s2 W L) x =
      if x = L then W else par s2 x := by
    intro x hx
    show (s2.parent.set L W).getD x 0 = _
    rw [List.getD_eq_getElem?_getD, List.getElem?_set]
    by_cases hxL : L = x
    · rw [if_pos hxL, if_pos (by rw [hg2.1]; omega), if_pos hxL.symm]
      rfl
    · rw [if_neg hxL, if_neg (fun h2 => hxL h2.symm),
        ← List.getD_eq_getElem?_getD]
      rfl
  have hroot3 : ∀ x, x < n →
      (isRoot (unionAt s2 W L) x ↔ (isRoot s2 x ∧ x ≠ L)) := by
    intro x hx
    show 0 < (unionAt s2 W L).size_nodes.getD x 0 ↔ _
    rw [hsz3 x hx]
    by_cases hxL : x = L
    · simp [hxL]
    · rw [if_neg hxL]
      by_cases hxW : x = W
      · rw [if_pos hxW]
        subst hxW
        constructor
        · intro _
          exact ⟨hWroot, hxL⟩
        · intro _
          omega
      · rw [if_neg hxW]
        constructor
        · intro h2
          exact ⟨h2, hxL⟩
        · intro h2
          exact h2.1
  have hlen3 : (unionAt s2 W L).parent.length = n := by
    show (s2.parent.set L W).length = n
    rw [List.length_set, hg2.1]
  have hg3 : Good n
      (fun x => d x + (if rootD s2 x = some L then d W + 1 else 0))
      (unionAt s2 W L) := by
    refine ⟨hlen3, ?_, ?_, ?_⟩
    · show ((s2.size_nodes.set W _).set L 0).length = n
      rw [List.length_set, List.length_set, hg2.2.1]
    · intro w hw
      rw [hpar3 w hw]
      by_cases hwL : w = L
      · rw [if_pos hwL]
        exact hWn
      · rw [if_neg hwL]
        exact hg2.2.2.1 w hw
    · intro w hw hnr
      show d (par (unionAt s2 W L) w) +
          (if rootD s2 (par (unionAt s2 W L) w) = some L then d W + 1 else 0) <
        d w + (if rootD s2 w = some L then d W + 1 else 0)
      rw [hpar3 w hw]
      by_cases hwL : w = L
      · subst hwL
        rw [if_pos rfl, hRW, hRL, if_pos rfl,
          if_neg (fun h2 => hWL (Option.some_inj.mp h2))]
        omega
      · rw [if_neg hwL]
        have hnr2 : ¬ isRoot s2 w := by
          intro h2
          exact hnr ((hroot3 w hw).mpr ⟨h2, hwL⟩)
        have hstep := rootD_step n d s2 hg2 w hw hnr2
        rw [← hstep]
        have hd := hg2.2.2.2 w hw hnr2
        by_cases hc : rootD s2 w = some L
        · rw [if_pos hc]
          omega
        · rw [if_neg hc]
          omega
  have hrd3 : ∀ w, w < n → rootD (unionAt s2 W L) w =
      if rootD s2 w = some L then some W else rootD s2 w := by
    suffices H : ∀ m w, d w ≤ m → w < n → rootD (unionAt s2 W L) w =
        if rootD s2 w = some L then some W else rootD s2 w by
      intro w hw
      exact H (d w) w (le_refl _) hw
    have hWroot3 : isRoot (unionAt s2 W L) W :=
      (hroot3 W hWn).mpr ⟨hWroot, hWL⟩
    have hRW3 : rootD (unionAt s2 W L) W = some W :=
      rootD_of_isRoot n _ hlen3 W hWn hWroot3
    have hrootcase : ∀ w, w < n → isRoot s2 w →
        rootD (unionAt s2 W L) w =
          if rootD s2 w = some L then some W else rootD s2 w := by
      intro w hw hrw
      have hRw : rootD s2 w = some w := rootD_of_isRoot n s2 hg2.1 w hw hrw
      rw [hRw]
      by_cases hwL : w = L
      · rw [if_pos (show some w = some L by rw [hwL])]
        have hnr3 : ¬ isRoot (unionAt s2 W L) w := by
          intro h2
          exact ((hroot3 w hw).mp h2).2 hwL
        rw [rootD_step n _ _ hg3 w hw hnr3, hpar3 w hw, if_pos hwL, hRW3]
      · rw [if_neg (fun h2 => hwL (Option.some_inj.mp h2))]
        exact rootD_of_isRoot n _ hlen3 w hw ((hroot3 w hw).mpr ⟨hrw, hwL⟩)
    intro m
    induction m with
    | zero =>
      intro w hdw hw
      by_cases hrw : isRoot s2 w
      · exact hrootcase w hw hrw
      · have := hg2.2.2.2 w hw hrw
        omega
    | succ m ih =>
      intro w hdw hw
      by_cases hrw : isRoot s2 w
      · exact hrootcase w hw hrw
      · have hwL : w ≠ L := fun h2 => hrw (h2 ▸ hLroot)
        have hnr3 : ¬ isRoot (unionAt s2 W L) w := by
          intro h2
          exact hrw ((hroot3 w hw).mp h2).1
        have hpw : par s2 w < n := hg2.2.2.1 w hw
        have hd := hg2.2.2.2 w hw hrw
        rw [rootD_step n _ _ hg3 w hw hnr3, hpar3 w hw, if_neg hwL,
          ih (par s2 w) (by omega) hpw, rootD_step n d s2 hg2 w hw hrw]
  have hcpl : ∀ a b, a < n → b < n →
      (rootD (unionAt s2 W L) a = rootD (unionAt s2 W L) b ↔
        linked (ps ++ [(u, v)]) a b) := by
    intro a b ha hb
    rw [hrd3 a ha, hrd3 b hb, linked_append,
      ← hm2.2.1 a b ha hb, ← hm2.2.1 a u ha hu, ← hm2.2.1 v b hv hb,
      ← hm2.2.1 a v ha hv, ← hm2.2.1 u b hu hb, hRu, hRv]
    by_cases haL : rootD s2 a = some L <;>
      by_cases hbL : rootD s2 b = some L
    · rw [if_pos haL, if_pos hbL]
      constructor
      · intro _
        exact Or.inl (by rw [haL, hbL])
      · intro _
        rfl
    · rw [if_pos haL, if_neg hbL]
      constructor
      · intro h2
        exact Or.inr (Or.inr ⟨haL, h2⟩)
      · rintro (h2 | ⟨h1, h2⟩ | ⟨h1, h2⟩)
        · exact absurd (by rw [← h2]; exact haL) hbL
        · exact absurd h2.symm hbL
        · exact h2
    · rw [if_neg haL, if_pos hbL]
      constructor
      · intro h2
        exact Or.inr (Or.inl ⟨h2, hbL.symm⟩)
      · rintro (h2 | ⟨h1, h2⟩ | ⟨h1, h2⟩)
        · exact absurd (by rw [h2]; exact hbL) haL
        · exact h1
        · exact absurd h1 haL
    · rw [if_neg haL, if_neg hbL]
      constructor
      · intro h2
        exact Or.inl h2
      · rintro (h2 | ⟨h1, h2⟩ | ⟨h1, h2⟩)
        · exact h2
        · exact absurd h2.symm hbL
        · exact absurd h1 haL
  have hsizes : ∀ r, r < n → isRoot (unionAt s2 W L) r →
      (unionAt s2 W L).size_nodes.getD r 0 =
        ((Finset.range n).filter
          (fun w => rootD (unionAt s2 W L) w = some r)).card := by
    intro r hr hrt
    obtain ⟨hrt2, hrL⟩ := (hroot3 r hr).mp hrt
    rw [hsz3 r hr, if_neg hrL]
    by_cases hrW : r = W
    · rw [hrW, if_pos rfl]
      have hfilter : (Finset.range n).filter
          (fun w => rootD (unionAt s2 W L) w = some W) =
          ((Finset.range n).filter (fun w => rootD s2 w = some W)) ∪
          ((Finset.range n).filter (fun w => rootD s2 w = some L)) := by
        rw [← Finset.filter_or]
        apply Finset.filter_congr
        intro w hw
        rw [Finset.mem_range] at hw
        rw [hrd3 w hw]
        by_cases hc : rootD s2 w = some L
        · rw [if_pos hc]
          constructor
          · intro _
            exact Or.inr hc
          · intro _
            rfl
        · rw [if_neg hc]
          constructor
          · intro h2
            exact Or.inl h2
          · rintro (h2 | h2)
            · exact h2
            · exact absurd h2 hc
      have hdisj : Disjoint
          ((Finset.range n).filter (fun w => rootD s2 w = some W))
          ((Finset.range n).filter (fun w => rootD s2 w = some L)) := by
        apply Finset.disjoint_left.mpr
        intro w hw1 hw2
        rw [Finset.mem_filter] at hw1 hw2
        rw [hw1.2] at hw2
        exact hWL (Option.some_inj.mp hw2.2)
      rw [hfilter, Finset.card_union_of_disjoint hdisj,
        ← hm2.2.2.1 W hWn hWroot, ← hm2.2.2.1 L hLn hLroot]
    · rw [if_neg hrW]
      have hfilter : (Finset.range n).filter
          (fun w => rootD (unionAt s2 W L) w = some r) =
          (Finset.range n).filter (fun w => rootD s2 w = some r) := by
        apply Finset.filter_congr
        intro w hw
        rw [Finset.mem_range] at hw
        rw [hrd3 w hw]
        by_cases hc : rootD s2 w = some L
        · rw [if_pos hc]
          constructor
          · intro h2
            exact absurd (Option.some_inj.mp h2).symm hrW
          · intro h2
            rw [hc] at h2
            exact absurd (Option.some_inj.mp h2) (fun h3 => hrL h3.symm)
        · rw [if_neg hc]
      rw [hfilter]
      exact hm2.2.2.1 r hr hrt2
  have hnum : (unionAt s2 W L).num_sets =
      ((Finset.range n).filter (fun r => isRoot (unionAt s2 W L) r)).card := by
    have hfeq : (Finset.range n).filter (fun r => isRoot (unionAt s2 W L) r) =
        ((Finset.range n).filter (fun r => isRoot s2 r)).erase L := by
      rw [← Finset.filter_ne', Finset.filter_filter]
      apply Finset.filter_congr
      intro r hr
      rw [Finset.mem_range] at hr
      exact (hroot3 r hr).trans (by tauto)
    have hLmem : L ∈ (Finset.range n).filter (fun r => isRoot s2 r) :=
      Finset.mem_filter.mpr ⟨Finset.mem_range.mpr hLn, hLroot⟩
    rw [hfeq, Finset.card_erase_of_mem hLmem]
    show s2.num_sets - 1 = _
    rw [hm2.2.2.2]
  exact ⟨⟨_, hg3⟩, hcpl, hsizes, hnum⟩

lemma merge_spec (n : Nat) (ps : List (Nat × Nat)) (s : DisjointSets)
    (hm : Models n ps s) (u v : Nat) (hu : u < n) (hv : v < n) :
    ∃ s3 b, s.merge u v = some (s3, b) ∧ (b = true ↔ ¬ linked ps u v) ∧
      Models n (ps ++ [(u, v)]) s3 := by
  obtain ⟨d, hg⟩ := hm.1
  obtain ⟨s1, pu, heq1, hru, hrtu, hpun, hg1, hsz1, hns1, hrd1⟩ :=
    find_spec n d s hg u hu
  obtain ⟨s2, pv, heq2, hrv1, hrtv1, hpvn, hg2, hsz2, hns2, hrd2⟩ :=
    find_spec n d s1 hg1 v hv
  have hm2 : Models n ps s2 := models_transfer n ps s s2 hm ⟨d, hg2⟩
    (by rw [hsz2, hsz1]) (by rw [hns2, hns1])
    (fun w hw => by rw [hrd2 w hw, hrd1 w hw])
  have hRu : rootD s2 u = some pu := by
    rw [hrd2 u hu, hrd1 u hu]
    exact hru
  have hRv : rootD s2 v = some pv := by
    rw [hrd2 v hv]
    exact hrv1
  by_cases hpp : pu = pv
  · have hl : linked ps u v := (hm2.2.1 u v hu hv).mp (by rw [hRu, hRv, hpp])
    refine ⟨s2, false, ?_, ?_, ?_⟩
    · rw [DisjointSets.merge, heq1]
      simp only
      rw [heq2]
      simp only
      rw [if_pos hpp]
    · simp [hl]
    · exact models_congr_ps n ps _ s2 hm2
        (fun a b _ _ => (linked_absorb ps u v hl a b).symm)
  · have hnl : ¬ linked ps u v := by
      intro hl
      apply hpp
      have h2 := (hm2.2.1 u v hu hv).mpr hl
      rw [hRu, hRv] at h2
      exact Option.some_inj.mp h2
    have hme : s.merge u v =
        (if s2.size_nodes.getD pu 0 < s2.size_nodes.getD pv 0
          then some (unionAt s2 pv pu, true)
          else some (unionAt s2 pu pv, true)) := by
      rw [DisjointSets.merge, heq1]
      simp only
      rw [heq2]
      simp only
      rw [if_neg hpp]
    by_cases hc : s2.size_nodes.getD pu 0 < s2.size_nodes.getD pv 0
    · refine ⟨unionAt s2 pv pu, true, ?_, ?_, ?_⟩
      · rw [hme, if_pos hc]
      · simp [hnl]
      · have h1 := union_models n ps s2 hm2 v u pv pu hv hu hRv hRu
          (Ne.symm hpp)
        exact models_congr_ps n (ps ++ [(v, u)]) (ps ++ [(u, v)]) _ h1
          (fun a b _ _ => linked_swap ps u v a b)
    · refine ⟨unionAt s2 pu pv, true, ?_, ?_, ?_⟩
      · rw [hme, if_neg hc]
      · simp [hnl]
      · exact union_models n ps s2 hm2 u v pu pv hu hv hRu hRv hpp

/-- Runs a sequence of `merge` calls in order, threading the state. -/
def runMerges (s : DisjointSets) : List (Nat × Nat) → Option DisjointSets
  | [] => some s
  | p :: rest =>
    match s.merge p.1 p.2 with
    | none => none
    | some (s2, _) => runMerges s2 rest

lemma runMerges_models (n : Nat) :
    ∀ (merges ps0 : List (Nat × Nat)) (s : DisjointSets),
    Models n ps0 s → (∀ p ∈ merges, p.1 < n ∧ p.2 < n) →
    ∃ s2, runMerges s merges = some s2 ∧ Models n (ps0 ++ merges) s2 := by
  intro merges
  induction merges with
  | nil =>
    intro ps0 s hm _
    exact ⟨s, rfl, by rwa [List.append_nil]⟩
  | cons p rest ih =>
    intro ps0 s hm hmem
    obtain ⟨hp1, hp2⟩ := hmem p (List.mem_cons_self p rest)
    obtain ⟨s3, b, heq, _, hm3⟩ := merge_spec n ps0 s hm p.1 p.2 hp1 hp2
    obtain ⟨s4, heq4, hm4⟩ := ih (ps0 ++ [p]) s3 hm3
      (fun q hq => hmem q (List.mem_cons_of_mem p hq))
    refine ⟨s4, ?_, ?_⟩
    · rw [runMerges, heq]
      exact heq4
    · rwa [List.append_assoc, List.singleton_append] at hm4

/-- C8: for every `DisjointSets` created with `new n` and every sequence
of merges of elements below `n`, `same u v` is `true` exactly when the
merges so far connect `u` and `v` (with `same u u` always `true`),
`merge u v` returns `true` exactly when `u` and `v` were in different
sets beforehand, `count v` returns the number of elements in the set of
`v`, and `count_sets` returns the current number of sets (one canonical
representative per element). -/
theorem disjoint_sets_correct (n : Nat) (merges : List (Nat × Nat))
    (hmem : ∀ p ∈ merges, p.1 < n ∧ p.2 < n) :
    ∃ s, runMerges (DisjointSets.new n) merges = some s ∧
      (∀ u v, u < n → v < n → ∃ s2 b, s.same u v = some (s2, b) ∧
        (b = true ↔ linked merges u v)) ∧
      (∀ u, u < n → ∃ s2 b, s.same u u = some (s2, b) ∧ b = true) ∧
      (∀ u v, u < n → v < n → ∃ s3 b, s.merge u v = some (s3, b) ∧
        (b = true ↔ ¬ linked merges u v)) ∧
      (∀ v, v < n → ∃ s1 c, s.count v = some (s1, c) ∧
        c = Set.ncard {w | w < n ∧ linked merges w v}) ∧
      (∃ reps : Finset Nat, reps.card = s.count_sets ∧
        (∀ r ∈ reps, r < n) ∧
        (∀ w, w < n → ∃! r, r ∈ reps ∧ linked merges w r)) := by
  obtain ⟨s, heq, hm⟩ := runMerges_models n merges [] (DisjointSets.new n)
    (models_new n) hmem
  rw [List.nil_append] at hm
  refine ⟨s, heq, ?_, ?_, ?_, ?_, ?_⟩
  · intro u v hu hv
    obtain ⟨s2, b, heq2, hb, _⟩ := same_spec n merges s hm u v hu hv
    exact ⟨s2, b, heq2, hb⟩
  · intro u hu
    obtain ⟨s2, b, heq2, hb, _⟩ := same_spec n merges s hm u u hu hu
    exact ⟨s2, b, heq2, hb.mpr (linked_refl merges u)⟩
  · intro u v hu hv
    obtain ⟨s3, b, heq3, hb, _⟩ := merge_spec n merges s hm u v hu hv
    exact ⟨s3, b, heq3, hb⟩
  · intro v hv
    obtain ⟨s1, c, heq1, hc, _⟩ := count_spec n merges s hm v hv
    exact ⟨s1, c, heq1, hc⟩
  · refine ⟨(Finset.range n).filter (fun r => isRoot s r), hm.2.2.2.symm,
      ?_, ?_⟩
    · intro r hr
      exact Finset.mem_range.mp (Finset.mem_filter.mp hr).1
    · intro w hw
      obtain ⟨d, hg⟩ := hm.1
      obtain ⟨r, hr, hroot, hrn⟩ := rootD_isSome n d s hg w hw
      have hRr : rootD s r = some r := rootD_of_isRoot n s hg.1 r hrn hroot
      refine ⟨r, ⟨Finset.mem_filter.mpr ⟨Finset.mem_range.mpr hrn, hroot⟩,
        ?_⟩, ?_⟩
      · exact (hm.2.1 w r hw hrn).mp (by rw [hr, hRr])
      · rintro r2 ⟨hr2mem, hl2⟩
        rw [Finset.mem_filter, Finset.mem_range] at hr2mem
        have h3 := (hm.2.1 w r2 hw hr2mem.1).mpr hl2
        rw [hr, rootD_of_isRoot n s hg.1 r2 hr2mem.1 hr2mem.2] at h3
        exact (Option.some_inj.mp h3).symm

/-- A concrete instance of the DSU theorem: five elements and the merge
sequence of the repository test. -/
theorem disjoint_sets_correct_witness :
    ∃ s, runMerges (DisjointSets.new 5) [(1, 3), (3, 2), (0, 4), (3, 4)] =
        some s ∧
      (∀ u v, u < 5 → v < 5 → ∃ s2 b, s.same u v = some (s2, b) ∧
        (b = true ↔ linked [(1, 3), (3, 2), (0, 4), (3, 4)] u v)) := by
  obtain ⟨s, h1, h2, _⟩ :=
    disjoint_sets_correct 5 [(1, 3), (3, 2), (0, 4), (3, 4)] (by decide)
  exact ⟨s, h1, h2⟩

end Dsu

namespace Kmp

variable {C : Type*} [DecidableEq C]

/-- Combined body of the failure-link `while` loop followed by the
conditional increment, shared by `Kmp::new` and `Kmp::kmp_match`:
starting from match length `len`, repeatedly follow `fail[len - 1]`
while `pattern[len] != ch`, then add one on a match. Out-of-bounds
indexing and running out of fuel are modelled as `none`. -/
def kmpAdvance (p : List C) (fail : List Nat) (c : C) :
    Nat → Nat → Option Nat
  | 0, _ => none
  | fuel + 1, len =>
    match p[len]? with
    | none => none
    | some c0 =>
      if c0 = c then some (len + 1)
      else if len = 0 then some 0
      else match fail[len - 1]? with
        | none => none
        | some l2 => kmpAdvance p fail c fuel l2

/-- The `for ch in &pattern[1..]` loop of `Kmp::new`, pushing one
failure value per remaining character. -/
def kmpNewLoop (p : List C) : List C → List Nat → Nat → Option (List Nat)
  | [], fail, _ => some fail
  | ch :: rest, fail, len =>
    match kmpAdvance p fail ch (len + 1) len with
    | none => none
    | some len2 => kmpNewLoop p rest (fail ++ [len2]) len2

/-- `Kmp::new`: the failure table, `none` on the empty pattern (the
slice `pattern[1..]` panics). -/
def kmpNew (p : List C) : Option (List Nat) :=
  match p with
  | [] => none
  | _ :: rest => kmpNewLoop p rest [0] 0

/-- The `map` closure loop of `Kmp::kmp_match` over the text. -/
def kmpMatchLoop (p : List C) (fail : List Nat) :
    List C → Nat → Option (List Nat)
  | [], _ => some []
  | ch :: rest, len =>
    match (if len = p.length
      then (if len = 0 then none else fail[len - 1]?)
      else some len) with
    | none => none
    | some len0 =>
      match kmpAdvance p fail ch (len0 + 1) len0 with
      | none => none
      | some len2 =>
        match kmpMatchLoop p fail rest len2 with
        | none => none
        | some out => some (len2 :: out)

/-- `Kmp::new` followed by `Kmp::kmp_match`. -/
def kmp_match (p text : List C) : Option (List Nat) :=
  match kmpNew p with
  | none => none
  | some fail => kmpMatchLoop p fail text 0

/-- `Sub p q k`: the length-`k` prefix of `p` equals the length-`k`
suffix of `q`. `fail[i]` is the largest `k ≤ i` with
`Sub p (p.take (i+1)) k`, and the match table entry at `i` is the
largest `k` with `Sub p (t.take (i+1)) k`. -/
def Sub (p q : List C) (k : Nat) : Prop :=
  k ≤ p.length ∧ k ≤ q.length ∧ p.take k = q.drop (q.length - k)

/-- Specification of one failure-table entry. -/
def FailAt (p : List C) (fail : List Nat) (i : Nat) : Prop :=
  ∃ f, fail[i]? = some f ∧ Sub p (p.take (i + 1)) f ∧ f ≤ i ∧
    ∀ k, Sub p (p.take (i + 1)) k → k ≤ i → k ≤ f

omit [DecidableEq C] in
lemma sub_zero (p q : List C) : Sub p q 0 := by
  refine ⟨Nat.zero_le _, Nat.zero_le _, ?_⟩
  rw [Nat.sub_zero, List.take_zero, List.drop_length]

omit [DecidableEq C] in
lemma sub_trans_take (p q : List C) (k m : Nat) (h1 : Sub p (p.take m) k)
    (h2 : Sub p q m) : Sub p q k := by
  obtain ⟨hk1, hk2, hk3⟩ := h1
  obtain ⟨hm1, hm2, hm3⟩ := h2
  rw [List.length_take] at hk2 hk3
  have hkm : k ≤ m := by omega
  refine ⟨hk1, by omega, ?_⟩
  rw [hk3, hm3, List.drop_drop]
  congr 1
  omega

omit [DecidableEq C] in
lemma sub_chain (p q : List C) (k1 k2 : Nat) (h1 : Sub p q k1)
    (h2 : Sub p q k2) (hk : k1 ≤ k2) : Sub p (p.take k2) k1 := by
  obtain ⟨ha1, ha2, ha3⟩ := h1
  obtain ⟨hb1, hb2, hb3⟩ := h2
  refine ⟨ha1, by rw [List.length_take]; omega, ?_⟩
  rw [List.length_take, ha3, hb3, List.drop_drop]
  congr 1
  omega

omit [DecidableEq C] in
lemma sub_snoc (p q : List C) (c : C) (k : Nat) :
    Sub p (q ++ [c]) (k + 1) ↔ Sub p q k ∧ p[k]? = some c := by
  constructor
  · rintro ⟨h1, h2, h3⟩
    rw [List.length_append, List.length_singleton] at h2 h3
    have hkp : k < p.length := by omega
    have hkq : k ≤ q.length := by omega
    rw [show q.length + 1 - (k + 1) = q.length - k by omega,
      List.drop_append_of_le_length (by omega), List.take_succ,
      List.getElem?_eq_getElem hkp] at h3
    have hlen : (p.take k).length = (q.drop (q.length - k)).length := by
      rw [List.length_take, List.length_drop]
      omega
    obtain ⟨h4, h5⟩ := List.append_inj h3 hlen
    refine ⟨⟨by omega, hkq, h4⟩, ?_⟩
    rw [List.getElem?_eq_getElem hkp]
    simp only [Option.toList] at h5
    rw [List.singleton_inj] at h5
    rw [h5]
  · rintro ⟨⟨h1, h2, h3⟩, hc⟩
    have hkp : k < p.length := by
      by_contra hcon
      rw [List.getElem?_eq_none (by omega)] at hc
      cases hc
    refine ⟨by omega, ?_, ?_⟩
    · rw [List.length_append, List.length_singleton]
      omega
    rw [List.length_append, List.length_singleton,
      show q.length + 1 - (k + 1) = q.length - k by omega,
      List.drop_append_of_le_length (by omega), List.take_succ, hc, ← h3]
    rfl

lemma kmpAdvance_spec (p : List C) (fail : List Nat) (c : C) :
    ∀ len, (∀ j, j < len → FailAt p fail j) → len < p.length →
    ∀ fuel, len < fuel → ∀ q : List C, Sub p q len →
    ∃ len2, kmpAdvance p fail c fuel len = some len2 ∧
      Sub p (q ++ [c]) len2 ∧ len2 ≤ len + 1 ∧
      (∀ j, Sub p (q ++ [c]) j → j ≤ len + 1 → j ≤ len2) := by
  intro len
  induction len using Nat.strong_induction_on with
  | _ len ih =>
    intro hfail hlt fuel hfuel q hq
    obtain ⟨fuel, rfl⟩ : ∃ f2, fuel = f2 + 1 := ⟨fuel - 1, by omega⟩
    obtain ⟨c0, hsome⟩ : ∃ c0, p[len]? = some c0 :=
      ⟨_, List.getElem?_eq_getElem hlt⟩
    by_cases hcc : c0 = c
    · refine ⟨len + 1, ?_, ?_, le_refl _, fun j _ hj => hj⟩
      · rw [kmpAdvance, hsome]
        simp only
        rw [if_pos hcc]
      · exact (sub_snoc p q c len).mpr ⟨hq, by rw [hsome, hcc]⟩
    · by_cases hl0 : len = 0
      · subst hl0
        refine ⟨0, ?_, sub_zero p _, by omega, ?_⟩
        · rw [kmpAdvance, hsome]
          simp only
          rw [if_neg hcc]
          simp
        · intro j hj hjle
          match j, hjle with
          | 0, _ => exact le_refl 0
          | 1, _ =>
            exfalso
            obtain ⟨_, hc1⟩ := (sub_snoc p q c 0).mp hj
            rw [hsome] at hc1
            exact hcc (Option.some_inj.mp hc1)
      · obtain ⟨f, hf1, hf2, hf3, hf4⟩ := hfail (len - 1) (by omega)
        rw [show len - 1 + 1 = len by omega] at hf2 hf4
        have hsubf : Sub p q f := sub_trans_take p q f len hf2 hq
        obtain ⟨len2, heq2, hsub2, hle2, hmax2⟩ := ih f (by omega)
          (fun j hj => hfail j (by omega)) (by omega) fuel (by omega) q hsubf
        refine ⟨len2, ?_, hsub2, by omega, ?_⟩
        · rw [kmpAdvance, hsome]
          simp only
          rw [if_neg hcc, if_neg hl0, hf1]
          simp only
          exact heq2
        · intro j hj hjle
          match j, hj with
          | 0, _ => exact Nat.zero_le _
          | j + 1, hj =>
            obtain ⟨hsubj, hcj⟩ := (sub_snoc p q c j).mp hj
            have hjlen : j ≠ len := by
              intro hje
              rw [hje, hsome] at hcj
              exact hcc (Option.some_inj.mp hcj)
            have hjlt : j < len := by omega
            have hchain := sub_chain p q j len hsubj hq (by omega)
            have hjf : j ≤ f := hf4 j hchain (by omega)
            exact hmax2 (j + 1) hj (by omega)

lemma kmpNewLoop_spec (p : List C) :
    ∀ (rest : List C) (i : Nat) (fail : List Nat) (len : Nat),
    1 ≤ i → i + rest.length = p.length → rest = p.drop i →
    fail.length = i → (∀ j, j < i → FailAt p fail j) →
    Sub p (p.take i) len → len ≤ i - 1 →
    (∀ k, Sub p (p.take i) k → k ≤ i - 1 → k ≤ len) →
    ∃ fail2, kmpNewLoop p rest fail len = some fail2 ∧
      fail2.length = p.length ∧ (∀ j, j < p.length → FailAt p fail2 j) := by
  intro rest
  induction rest with
  | nil =>
    intro i fail len _ h2 _ h4 h5 _ _ _
    rw [List.length_nil] at h2
    refine ⟨fail, rfl, by omega, ?_⟩
    intro j hj
    exact h5 j (by omega)
  | cons ch rest ih =>
    intro i fail len h1 h2 hdrop hflen hfat hsub hlen hmax
    rw [List.length_cons] at h2
    have hiplen : i < p.length := by omega
    rw [List.drop_eq_getElem_cons hiplen] at hdrop
    injection hdrop with hch hrest
    obtain ⟨len2, heq2, hsub2, hle2, hmax2⟩ := kmpAdvance_spec p fail ch len
      (fun j hj => hfat j (by omega)) (by omega) (len + 1) (by omega)
      (p.take i) hsub
    have htake : p.take (i + 1) = p.take i ++ [ch] := by
      rw [List.take_succ, List.getElem?_eq_getElem hiplen, ← hch]
      rfl
    rw [← htake] at hsub2
    have hgetc : (fail ++ [len2])[i]? = some len2 := by
      rw [← hflen]
      exact List.getElem?_concat_length fail len2
    have hmaxi : ∀ k, Sub p (p.take (i + 1)) k → k ≤ i → k ≤ len2 := by
      intro k hk hki
      match k, hk with
      | 0, _ => exact Nat.zero_le _
      | k + 1, hk =>
        rw [htake] at hk
        obtain ⟨hsk, _⟩ := (sub_snoc p (p.take i) ch k).mp hk
        have hk2 : k ≤ len := hmax k hsk (by omega)
        exact hmax2 (k + 1) hk (by omega)
    have hfat2 : ∀ j, j < i + 1 → FailAt p (fail ++ [len2]) j := by
      intro j hj
      by_cases hji : j < i
      · obtain ⟨f, ha, hb, hc2, hd⟩ := hfat j hji
        refine ⟨f, ?_, hb, hc2, hd⟩
        rw [List.getElem?_append, if_pos (show j < fail.length by omega)]
        exact ha
      · have hje : j = i := by omega
        subst hje
        exact ⟨len2, hgetc, hsub2, by omega, hmaxi⟩
    obtain ⟨fail2, heqf, hl2, hfa⟩ := ih (i + 1) (fail ++ [len2]) len2
      (by omega) (by omega) hrest
      (by rw [List.length_append, List.length_singleton, hflen]) hfat2
      hsub2 (by omega) (fun k hk hki => hmaxi k hk (by omega))
    refine ⟨fail2, ?_, hl2, hfa⟩
    rw [kmpNewLoop, heq2]
    simp only
    exact heqf

lemma kmpNew_spec (p : List C) (hp : p ≠ []) :
    ∃ fail, kmpNew p = some fail ∧ fail.length = p.length ∧
      (∀ j, j < p.length → FailAt p fail j) := by
  match p, hp with
  | c0 :: rest, _ =>
    have hfat1 : ∀ j, j < 1 → FailAt (c0 :: rest) [0] j := by
      intro j hj
      have hje : j = 0 := by omega
      subst hje
      exact ⟨0, rfl, sub_zero _ _, le_refl 0, fun k _ hk => hk⟩
    obtain ⟨fail, heq, hl, hfa⟩ := kmpNewLoop_spec (c0 :: rest) rest 1 [0] 0
      (le_refl 1) (by rw [List.length_cons]; omega) rfl rfl hfat1
      (sub_zero _ _) (le_refl 0) (fun k _ hk => hk)
    exact ⟨fail, heq, hl, hfa⟩

lemma kmpMatchLoop_spec (p : List C) (fail : List Nat) (hp : p ≠ [])
    (hflen : fail.length = p.length)
    (hfat : ∀ j, j < p.length → FailAt p fail j) :
    ∀ (text t0 : List C) (len : Nat),
    Sub p t0 len → (∀ j, Sub p t0 j → j ≤ len) →
    ∃ out, kmpMatchLoop p fail text len = some out ∧
      out.length = text.length ∧
      (∀ idx m, out[idx]? = some m →
        Sub p (t0 ++ text.take (idx + 1)) m ∧
        ∀ j, Sub p (t0 ++ text.take (idx + 1)) j → j ≤ m) := by
  intro text
  induction text with
  | nil =>
    intro t0 len _ _
    refine ⟨[], rfl, rfl, ?_⟩
    intro idx m hm
    rw [List.getElem?_nil] at hm
    cases hm
  | cons ch rest ih =>
    intro t0 len hsub hmax
    have hplen : 1 ≤ p.length := by
      cases p
      · exact absurd rfl hp
      · rw [List.length_cons]
        omega
    obtain ⟨len0, hres, hsub0, hlt0, hmax0⟩ :
        ∃ len0, (if len = p.length then
            (if len = 0 then none else fail[len - 1]?) else some len) =
          some len0 ∧ Sub p t0 len0 ∧ len0 < p.length ∧
          (∀ j, Sub p (t0 ++ [ch]) j → j ≤ len0 + 1) := by
      by_cases hl : len = p.length
      · have hl0 : ¬ len = 0 := by omega
        obtain ⟨f, ha, hb, hc2, hd⟩ := hfat (len - 1) (by omega)
        rw [show len - 1 + 1 = len by omega] at hb hd
        refine ⟨f, ?_, ?_, by omega, ?_⟩
        · rw [if_pos hl, if_neg hl0]
          exact ha
        · exact sub_trans_take p t0 f len hb hsub
        · intro j hj
          match j, hj with
          | 0, _ => omega
          | j + 1, hj =>
            obtain ⟨hsj, hcj⟩ := (sub_snoc p t0 ch j).mp hj
            have hjlen : j ≤ len := hmax j hsj
            have hjlt : j < p.length := by
              by_contra hcon
              rw [List.getElem?_eq_none (by omega)] at hcj
              cases hcj
            have hchain := sub_chain p t0 j len hsj hsub (by omega)
            have hjf : j ≤ f := hd j hchain (by omega)
            omega
      · refine ⟨len, by rw [if_neg hl], hsub, ?_, ?_⟩
        · have := hsub.1
          omega
        · intro j hj
          match j, hj with
          | 0, _ => omega
          | j + 1, hj =>
            obtain ⟨hsj, _⟩ := (sub_snoc p t0 ch j).mp hj
            have := hmax j hsj
            omega
    obtain ⟨len2, heq2, hsub2, hle2, hmax2⟩ := kmpAdvance_spec p fail ch len0
      (fun j hj => hfat j (by omega)) hlt0 (len0 + 1) (by omega) t0 hsub0
    have hmax2b : ∀ j, Sub p (t0 ++ [ch]) j → j ≤ len2 :=
      fun j hj => hmax2 j hj (hmax0 j hj)
    obtain ⟨out, heqo, hleno, hspec⟩ := ih (t0 ++ [ch]) len2 hsub2 hmax2b
    refine ⟨len2 :: out, ?_, by rw [List.length_cons, List.length_cons,
      hleno], ?_⟩
    · rw [kmpMatchLoop, hres]
      simp only
      rw [heq2]
      simp only
      rw [heqo]
    · intro idx m hm
      match idx, hm with
      | 0, hm =>
        rw [List.getElem?_cons_zero] at hm
        rw [Option.some_inj] at hm
        subst hm
        constructor
        · show Sub p (t0 ++ [ch]) len2
          exact hsub2
        · show ∀ j, Sub p (t0 ++ [ch]) j → j ≤ len2
          exact hmax2b
      | idx + 1, hm =>
        rw [List.getElem?_cons_succ] at hm
        obtain ⟨hA, hB⟩ := hspec idx m hm
        rw [← List.append_cons] at hA hB
        constructor
        · show Sub p (t0 ++ (ch :: rest.take (idx + 1))) m
          exact hA
        · show ∀ j, Sub p (t0 ++ (ch :: rest.take (idx + 1))) j → j ≤ m
          exact hB

/-- C5: for every nonempty pattern, `Kmp::new` computes `fail[i]` as the
length of the longest proper prefix of `pattern[0..=i]` that is also a
suffix of it (`Sub pattern (pattern.take (i+1)) f` with `f ≤ i`,
maximal), and `kmp_match text` returns one entry per text position, the
`i`-th being the length of the longest prefix of the pattern matching a
suffix of `text[0..=i]` (`Sub pattern (text.take (i+1)) m`, maximal). -/
theorem kmp_correct {C : Type*} [DecidableEq C] (pattern : List C)
    (hp : pattern ≠ []) :
    (∃ fail, kmpNew pattern = some fail ∧ fail.length = pattern.length ∧
      ∀ i, i < pattern.length → ∃ f, fail[i]? = some f ∧
        Sub pattern (pattern.take (i + 1)) f ∧ f ≤ i ∧
        (∀ k, Sub pattern (pattern.take (i + 1)) k → k ≤ i → k ≤ f)) ∧
    (∀ text : List C, ∃ out, kmp_match pattern text = some out ∧
      out.length = text.length ∧
      ∀ i m, out[i]? = some m → Sub pattern (text.take (i + 1)) m ∧
        ∀ j, Sub pattern (text.take (i + 1)) j → j ≤ m) := by
  obtain ⟨fail, hnew, hflen, hfat⟩ := kmpNew_spec pattern hp
  constructor
  · exact ⟨fail, hnew, hflen, fun i hi => hfat i hi⟩
  · intro text
    obtain ⟨out, heq, hlen, hspec⟩ := kmpMatchLoop_spec pattern fail hp hflen
      hfat text [] 0 (sub_zero pattern []) (fun j hj => by
        have h2 := hj.2.1
        simpa using h2)
    refine ⟨out, ?_, hlen, ?_⟩
    · rw [kmp_match, hnew]
      simp only
      exact heq
    · intro i m hm
      obtain ⟨hA, hB⟩ := hspec i m hm
      rw [List.nil_append] at hA hB
      exact ⟨hA, hB⟩

/-- A concrete instance of the KMP theorem: the repository test, the
pattern "ana" and the text "banana" over a numeric alphabet. -/
theorem kmp_correct_witness :
    ∃ out, kmp_match ([0, 1, 0] : List Nat) [2, 0, 1, 0, 1, 0] = some out ∧
      out.length = ([2, 0, 1, 0, 1, 0] : List Nat).length ∧
      ∀ i m, out[i]? = some m →
        Sub [0, 1, 0] (([2, 0, 1, 0, 1, 0] : List Nat).take (i + 1)) m ∧
        ∀ j, Sub [0, 1, 0] (([2, 0, 1, 0, 1, 0] : List Nat).take (i + 1)) j →
          j ≤ m :=
  (kmp_correct [0, 1, 0] (by decide)).2 [2, 0, 1, 0, 1, 0]

end Kmp

namespace ZAlgo

variable {C : Type*} [DecidableEq C]

/-- The `while r < i || (r < n && text[r - i] == text[r])` loop of
`z_algorithm`, incrementing `r`; the element test is only reached with
`r < n` (and `i ≤ r`), so option-valued indexing agrees with the
panicking slice accesses. -/
def zWhile (t : List C) (n i : Nat) : Nat → Nat → Nat
  | 0, r => r
  | fuel + 1, r =>
    if r < i ∨ (r < n ∧ t[r - i]? = t[r]?) then zWhile t n i fuel (r + 1)
    else r

/-- The `for i in 1..n` loop of `z_algorithm`, with `fuel = n - i`. -/
def zLoop (t : List C) (n : Nat) :
    Nat → Nat → Nat → Nat → List Nat → Option (List Nat)
  | 0, _, _, _, z => some z
  | fuel + 1, i, l, r, z =>
    match z[i - l]? with
    | none => none
    | some zil =>
      if r > i + zil then zLoop t n fuel (i + 1) l r (z ++ [zil])
      else
        match zWhile t n i (n - r) r with
        | r2 => zLoop t n fuel (i + 1) i r2 (z ++ [r2 - i])

/-- `z_algorithm`: pushes `n`, then runs the loop from `i = 1` with
`l = r = 1`. -/
def z_algorithm (t : List C) : Option (List Nat) :=
  zLoop t t.length (t.length - 1) 1 1 1 [t.length]

/-- Length of the longest common prefix of two lists. -/
def lcp : List C → List C → Nat
  | a :: as2, b :: bs => if a = b then lcp as2 bs + 1 else 0
  | _, _ => 0

lemma lcp_nil_left (b : List C) : lcp [] b = 0 := by
  cases b <;> rfl

lemma lcp_le_left : ∀ a b : List C, lcp a b ≤ a.length := by
  intro a
  induction a with
  | nil => intro b; rw [lcp_nil_left]; exact Nat.zero_le _
  | cons x as2 ih =>
    intro b
    cases b with
    | nil => exact Nat.zero_le _
    | cons y bs =>
      rw [lcp, List.length_cons]
      by_cases h : x = y
      · rw [if_pos h]
        exact Nat.succ_le_succ (ih bs)
      · rw [if_neg h]
        exact Nat.zero_le _

lemma lcp_le_right : ∀ a b : List C, lcp a b ≤ b.length := by
  intro a
  induction a with
  | nil => intro b; rw [lcp_nil_left]; exact Nat.zero_le _
  | cons x as2 ih =>
    intro b
    cases b with
    | nil => exact Nat.zero_le _
    | cons y bs =>
      rw [lcp, List.length_cons]
      by_cases h : x = y
      · rw [if_pos h]
        exact Nat.succ_le_succ (ih bs)
      · rw [if_neg h]
        exact Nat.zero_le _

lemma lcp_refl : ∀ a : List C, lcp a a = a.length := by
  intro a
  induction a with
  | nil => rfl
  | cons x as2 ih =>
    rw [lcp, if_pos rfl, ih, List.length_cons]

lemma lcp_take_eq : ∀ a b : List C, a.take (lcp a b) = b.take (lcp a b) := by
  intro a
  induction a with
  | nil => intro b; rw [lcp_nil_left, List.take_zero, List.take_zero]
  | cons x as2 ih =>
    intro b
    cases b with
    | nil => rfl
    | cons y bs =>
      rw [lcp]
      by_cases h : x = y
      · rw [if_pos h, List.take_succ_cons, List.take_succ_cons, ih bs, h]
      · rw [if_neg h, List.take_zero, List.take_zero]

lemma lcp_max : ∀ (a b : List C) (k : Nat), k ≤ a.length → k ≤ b.length →
    a.take k = b.take k → k ≤ lcp a b := by
  intro a
  induction a with
  | nil =>
    intro b k hk _ _
    rw [List.length_nil] at hk
    omega
  | cons x as2 ih =>
    intro b k hk1 hk2 htk
    match k, b with
    | 0, _ => exact Nat.zero_le _
    | k + 1, [] => rw [List.length_nil] at hk2; omega
    | k + 1, y :: bs =>
      rw [List.take_succ_cons, List.take_succ_cons] at htk
      injection htk with hxy htl
      rw [lcp, if_pos hxy]
      rw [List.length_cons] at hk1 hk2
      exact Nat.succ_le_succ (ih bs k (by omega) (by omega) htl)

lemma lcp_getElem_eq (a b : List C) (j : Nat) (hj : j < lcp a b) :
    a[j]? = b[j]? := by
  have h1 : (a.take (lcp a b))[j]? = a[j]? := by
    rw [List.getElem?_take, if_pos hj]
  have h2 : (b.take (lcp a b))[j]? = b[j]? := by
    rw [List.getElem?_take, if_pos hj]
  rw [← h1, ← h2, lcp_take_eq a b]

lemma lcp_congr : ∀ (a b c : List C) (m : Nat), b.take m = c.take m →
    lcp a b < m → lcp a c = lcp a b := by
  intro a
  induction a with
  | nil => intro b c m _ _; rw [lcp_nil_left, lcp_nil_left]
  | cons x as2 ih =>
    intro b c m htk hlt
    match m, hlt with
    | m + 1, hlt =>
      match b, c with
      | [], c =>
        rw [List.take_nil] at htk
        have hc : c = [] := by
          have := congrArg List.length htk
          rw [List.length_take, List.length_nil] at this
          cases c with
          | nil => rfl
          | cons z cs => rw [List.length_cons] at this; omega
        rw [hc]
      | y :: bs, [] =>
        rw [List.take_nil, List.take_succ_cons] at htk
        cases htk
      | y :: bs, z :: cs =>
        rw [List.take_succ_cons, List.take_succ_cons] at htk
        injection htk with hyz htl
        subst hyz
        rw [lcp, lcp]
        by_cases h : x = y
        · rw [if_pos h, if_pos h]
          rw [lcp, if_pos h] at hlt
          rw [ih bs cs m htl (by omega)]
        · rw [if_neg h, if_neg h]

omit [DecidableEq C] in
lemma take_eq_iff_getElem (a b : List C) (m : Nat) :
    a.take m = b.take m ↔ ∀ j, j < m → a[j]? = b[j]? := by
  constructor
  · intro h j hj
    have h1 : (a.take m)[j]? = a[j]? := by
      rw [List.getElem?_take, if_pos hj]
    have h2 : (b.take m)[j]? = b[j]? := by
      rw [List.getElem?_take, if_pos hj]
    rw [← h1, ← h2, h]
  · intro h
    apply List.ext_getElem?
    intro j
    by_cases hj : j < m
    · rw [List.getElem?_take, List.getElem?_take, if_pos hj, if_pos hj]
      exact h j hj
    · rw [List.getElem?_eq_none, List.getElem?_eq_none]
      · rw [List.length_take]
        omega
      · rw [List.length_take]
        omega

lemma zWhile_exit (t : List C) (i r : Nat) (hir : i ≤ r)
    (hr : r ≤ t.length)
    (hmatch : t.take (r - i) = (t.drop i).take (r - i))
    (hstop : r = t.length ∨ ¬ t[r - i]? = t[r]?) :
    r = i + lcp t (t.drop i) := by
  have hlen_drop : (t.drop i).length = t.length - i := List.length_drop i t
  have hge : r - i ≤ lcp t (t.drop i) :=
    lcp_max t (t.drop i) (r - i) (by omega) (by rw [hlen_drop]; omega) hmatch
  have hle : lcp t (t.drop i) ≤ r - i := by
    rcases hstop with hn | hne
    · have h2 := lcp_le_right t (t.drop i)
      rw [hlen_drop] at h2
      omega
    · by_contra hcon
      push_neg at hcon
      apply hne
      have h2 := lcp_getElem_eq t (t.drop i) (r - i) (by omega)
      rw [List.getElem?_drop, show i + (r - i) = r by omega] at h2
      exact h2
  omega

lemma zWhile_spec (t : List C) (i : Nat) (hi : i < t.length) :
    ∀ fuel r, t.length ≤ r + fuel → r ≤ t.length →
    (i ≤ r → t.take (r - i) = (t.drop i).take (r - i)) →
    zWhile t t.length i fuel r = i + lcp t (t.drop i) := by
  intro fuel
  induction fuel with
  | zero =>
    intro r hfuel hr hmatch
    have hrn : r = t.length := by omega
    rw [zWhile]
    exact zWhile_exit t i r (by omega) hr (hmatch (by omega)) (Or.inl hrn)
  | succ fuel ih =>
    intro r hfuel hr hmatch
    rw [zWhile]
    by_cases hri : r < i
    · rw [if_pos (Or.inl hri)]
      apply ih (r + 1) (by omega) (by omega)
      intro hir1
      have hr1 : r + 1 = i := by omega
      rw [hr1]
      simp
    · have hm := hmatch (by omega)
      by_cases hc2 : r < t.length ∧ t[r - i]? = t[r]?
      · rw [if_pos (Or.inr hc2)]
        apply ih (r + 1) (by omega) (by omega)
        intro _
        rw [take_eq_iff_getElem]
        intro j hj
        rw [List.getElem?_drop]
        by_cases hjr : j < r - i
        · have h2 := (take_eq_iff_getElem t (t.drop i) (r - i)).mp hm j hjr
          rw [List.getElem?_drop] at h2
          exact h2
        · have hje : j = r - i := by omega
          subst hje
          rw [show i + (r - i) = r by omega]
          exact hc2.2
      · rw [if_neg (by tauto)]
        apply zWhile_exit t i r (by omega) hr hm
        by_cases hrn : r = t.length
        · exact Or.inl hrn
        · refine Or.inr ?_
          intro hcon
          exact hc2 ⟨by omega, hcon⟩

omit [DecidableEq C] in
lemma window_shift (t : List C) (l i r : Nat) (hl : l ≤ i)
    (hwin : t.take (r - l) = (t.drop l).take (r - l)) :
    ∀ j, i + j < r → t[i - l + j]? = t[i + j]? := by
  intro j hj
  have h1 := (take_eq_iff_getElem t (t.drop l) (r - l)).mp hwin (i - l + j)
    (by omega)
  rw [List.getElem?_drop, show l + (i - l + j) = i + j by omega] at h1
  exact h1

lemma z_copy (t : List C) (l i r : Nat) (hl : l ≤ i) (hr : r ≤ t.length)
    (hwin : t.take (r - l) = (t.drop l).take (r - l))
    (hcond : i + lcp t (t.drop (i - l)) < r) :
    lcp t (t.drop i) = lcp t (t.drop (i - l)) := by
  have hshift : (t.drop (i - l)).take (r - i) = (t.drop i).take (r - i) := by
    rw [take_eq_iff_getElem]
    intro j hj
    rw [List.getElem?_drop, List.getElem?_drop]
    exact window_shift t l i r hl hwin j (by omega)
  exact lcp_congr t (t.drop (i - l)) (t.drop i) (r - i) hshift (by omega)

lemma z_window_entry (t : List C) (l i r : Nat) (hl : l ≤ i)
    (hwin : t.take (r - l) = (t.drop l).take (r - l))
    (hle : r ≤ i + lcp t (t.drop (i - l))) :
    i ≤ r → t.take (r - i) = (t.drop i).take (r - i) := by
  intro hir
  rw [take_eq_iff_getElem]
  intro j hj
  rw [List.getElem?_drop]
  have h1 : t[j]? = t[i - l + j]? := by
    have h2 := lcp_getElem_eq t (t.drop (i - l)) j (by omega)
    rw [List.getElem?_drop] at h2
    exact h2
  rw [h1]
  exact window_shift t l i r hl hwin j (by omega)

lemma zLoop_spec (t : List C) :
    ∀ fuel i l r z, i + fuel = t.length → 1 ≤ l → l ≤ i → l ≤ r →
    r ≤ t.length → t.take (r - l) = (t.drop l).take (r - l) →
    z.length = i → (∀ j, j < i → z[j]? = some (lcp t (t.drop j))) →
    ∃ zout, zLoop t t.length fuel i l r z = some zout ∧
      zout.length = t.length ∧
      (∀ j, j < t.length → zout[j]? = some (lcp t (t.drop j))) := by
  intro fuel
  induction fuel with
  | zero =>
    intro i l r z hfi _ _ _ _ _ hzl hz
    refine ⟨z, rfl, by omega, ?_⟩
    intro j hj
    exact hz j (by omega)
  | succ fuel ih =>
    intro i l r z hfi hl1 hli hlr hr hwin hzl hz
    have hin : i < t.length := by omega
    have hzil := hz (i - l) (by omega)
    rw [zLoop, hzil]
    simp only
    by_cases hcond : r > i + lcp t (t.drop (i - l))
    · rw [if_pos hcond]
      have hcopy : lcp t (t.drop i) = lcp t (t.drop (i - l)) :=
        z_copy t l i r hli hr hwin hcond
      apply ih (i + 1) l r (z ++ [lcp t (t.drop (i - l))]) (by omega) hl1
        (by omega) hlr hr hwin
        (by rw [List.length_append, List.length_singleton]; omega)
      intro j hj
      by_cases hji : j < i
      · rw [List.getElem?_append, if_pos (show j < z.length by omega)]
        exact hz j hji
      · have hjeq : j = i := by omega
        rw [hjeq]
        have h2 : (z ++ [lcp t (t.drop (i - l))])[i]? =
            some (lcp t (t.drop (i - l))) := by
          rw [← hzl]
          exact List.getElem?_concat_length _ _
        rw [h2, hcopy]
    · rw [if_neg hcond]
      have hwr : zWhile t t.length i (t.length - r) r =
          i + lcp t (t.drop i) :=
        zWhile_spec t i hin (t.length - r) r (by omega) hr
          (z_window_entry t l i r hli hwin (by omega))
      have hlcp : lcp t (t.drop i) ≤ t.length - i := by
        have h2 := lcp_le_right t (t.drop i)
        rw [List.length_drop] at h2
        omega
      have hwin2 : t.take (i + lcp t (t.drop i) - i) =
          (t.drop i).take (i + lcp t (t.drop i) - i) := by
        rw [show i + lcp t (t.drop i) - i = lcp t (t.drop i) by omega]
        exact lcp_take_eq t (t.drop i)
      have hz2 : ∀ j, j < i + 1 →
          (z ++ [i + lcp t (t.drop i) - i])[j]? =
            some (lcp t (t.drop j)) := by
        intro j hj
        by_cases hji : j < i
        · rw [List.getElem?_append, if_pos (show j < z.length by omega)]
          exact hz j hji
        · have hjeq : j = i := by omega
          rw [hjeq]
          have h2 : (z ++ [i + lcp t (t.drop i) - i])[i]? =
              some (i + lcp t (t.drop i) - i) := by
            rw [← hzl]
            exact List.getElem?_concat_length _ _
          rw [h2, show i + lcp t (t.drop i) - i = lcp t (t.drop i) by omega]
      obtain ⟨zout, heqo, hlo, hso⟩ := ih (i + 1) i
        (i + lcp t (t.drop i)) (z ++ [i + lcp t (t.drop i) - i])
        (by omega) (by omega) (by omega) (by omega) (by omega) hwin2
        (by rw [List.length_append, List.length_singleton]; omega) hz2
      refine ⟨zout, ?_, hlo, hso⟩
      rw [hwr]
      exact heqo

/-- C6 (amended to nonempty text): `z_algorithm` returns one entry per
text position, the entry at `i` being the length of the longest common
prefix of `text.drop i` and `text`; the entry at index 0 is the length
of the text. -/
theorem z_algorithm_correct {C : Type*} [DecidableEq C] (text : List C)
    (ht : text ≠ []) :
    ∃ z, z_algorithm text = some z ∧ z.length = text.length ∧
      z[0]? = some text.length ∧
      (∀ i, i < text.length → z[i]? = some (lcp text (text.drop i))) := by
  have hlen : 1 ≤ text.length := by
    cases text
    · exact absurd rfl ht
    · rw [List.length_cons]
      omega
  have hz0 : ∀ j, j < 1 → ([text.length] : List Nat)[j]? =
      some (lcp text (text.drop j)) := by
    intro j hj
    have hj0 : j = 0 := by omega
    subst hj0
    rw [show ([text.length] : List Nat)[0]? = some text.length from rfl,
      List.drop_zero, lcp_refl]
  obtain ⟨z, heq, hl, hs⟩ := zLoop_spec text (text.length - 1) 1 1 1
    [text.length] (by omega) (le_refl 1) (le_refl 1) (le_refl 1) hlen
    (by simp) rfl hz0
  refine ⟨z, heq, hl, ?_, hs⟩
  have h2 := hs 0 (by omega)
  rw [List.drop_zero, lcp_refl] at h2
  exact h2

/-- C6 counterexample: on the empty text the initial `z.push(n)` still
runs, so the result is `[0]`, of length 1 rather than 0. -/
theorem z_algorithm_claim_counterexample :
    z_algorithm ([] : List Nat) = some [0] ∧
      ∀ z : List Nat, z_algorithm ([] : List Nat) = some z →
        z.length ≠ ([] : List Nat).length := by
  constructor
  · rfl
  · intro z hz
    rw [show z_algorithm ([] : List Nat) = some [0] from rfl] at hz
    rw [Option.some_inj] at hz
    rw [← hz]
    decide

/-- A concrete instance of the Z-algorithm theorem on the text "abab". -/
theorem z_algorithm_correct_witness :
    ∃ z, z_algorithm ([0, 1, 0, 1] : List Nat) = some z ∧
      z.length = ([0, 1, 0, 1] : List Nat).length ∧
      z[0]? = some ([0, 1, 0, 1] : List Nat).length ∧
      (∀ i, i < ([0, 1, 0, 1] : List Nat).length →
        z[i]? = some (lcp [0, 1, 0, 1] (([0, 1, 0, 1] : List Nat).drop i))) :=
  z_algorithm_correct [0, 1, 0, 1] (by decide)

end ZAlgo

namespace Flow

/-- `FlowEdge` of `dinic.rs`. -/
structure FlowEdge where
  u : Nat
  v : Nat
  cap : Int
  flow : Int
  deriving Repr, DecidableEq

/-- `AdjTo` of `dinic.rs`; its `Ord` compares only `edge_id`. -/
structure AdjTo where
  edge_id : Nat
  v : Nat
  deriving Repr, DecidableEq

/-- `i64::MAX`, the flow bound `Dinic::INF`. -/
def INF : Int := 2 ^ 63 - 1

/-- `BTreeSet<AdjTo>` insertion, ordered by `edge_id` (an equal key is
not replaced). -/
def adjInsert (x : AdjTo) : List AdjTo → List AdjTo
  | [] => [x]
  | y :: l =>
    if x.edge_id < y.edge_id then x :: y :: l
    else if x.edge_id = y.edge_id then y :: l
    else y :: adjInsert x l

/-- `HashMap::entry(u).or_default().insert(x)` over an association-list
model of the map. -/
def entryInsert (u : Nat) (x : AdjTo) :
    List (Nat × List AdjTo) → List (Nat × List AdjTo)
  | [] => [(u, adjInsert x [])]
  | (k, s) :: rest =>
    if k = u then (k, adjInsert x s) :: rest
    else (k, s) :: entryInsert u x rest

/-- The `Dinic` flow network state. -/
structure Dinic where
  adj : List (Nat × List AdjTo)
  num_vert : Nat
  edges : List FlowEdge
  distance : List Int
  deriving Repr, DecidableEq

/-- `Dinic::new`. -/
def Dinic.new (vmax : Nat) (_emax_hint : Nat) : Dinic := ⟨[], vmax, [], []⟩

/-- `Dinic::adj_list`: a point lookup, empty set when absent. -/
def adjOf (g : Dinic) (u : Nat) : List AdjTo :=
  (Collection.mapGet u g.adj).getD []

/-- `Dinic::add_flow_edge`. -/
def Dinic.add_flow_edge (g : Dinic) (u v : Nat) (cap rcap : Int) : Dinic :=
  { g with
    adj := entryInsert v ⟨g.edges.length + 1, u⟩
      (entryInsert u ⟨g.edges.length, v⟩ g.adj),
    edges := g.edges ++ [⟨u, v, cap, 0⟩, ⟨v, u, rcap, 0⟩] }

/-- `Dinic::add_edge`. -/
def Dinic.add_edge (g : Dinic) (u v : Nat) (cap : Int) : Dinic :=
  g.add_flow_edge u v cap 0

/-- The body of the BFS `for` loop of `dinic_search` over `adj_list u`,
threading the distance vector and the queue. -/
def bfsInner (edges : List FlowEdge) (u : Nat) :
    List AdjTo → List Int → List Nat → Option (List Int × List Nat)
  | [], dist, q => some (dist, q)
  | a :: rest, dist, q =>
    match dist[a.v]? with
    | none => none
    | some dv =>
      if dv = INF then
        match edges[a.edge_id]? with
        | none => none
        | some e =>
          if e.flow < e.cap then
            match dist[u]? with
            | none => none
            | some du =>
              bfsInner edges u rest (dist.set a.v (du + 1)) (q ++ [a.v])
          else bfsInner edges u rest dist q
      else bfsInner edges u rest dist q

/-- The BFS `while let Some(u) = q.pop_front()` loop of `dinic_search`. -/
def bfsLoop (edges : List FlowEdge) (adjf : Nat → List AdjTo) :
    Nat → List Nat → List Int → Option (List Int)
  | _, [], dist => some dist
  | 0, _ :: _, _ => none
  | fuel + 1, u :: q, dist =>
    match bfsInner edges u (adjf u) dist q with
    | none => none
    | some (dist2, q2) => bfsLoop edges adjf fuel q2 dist2

/-- `Dinic::dinic_search`: fresh `INF` distances, `distance[s] = 0`,
then BFS. -/
def dinic_search (edges : List FlowEdge) (adjf : Nat → List AdjTo)
    (n s : Nat) : Option (List Int) :=
  if s < n then
    bfsLoop edges adjf (n + 1) [s] ((List.replicate n INF).set s 0)
  else none

/-- `Dinic::augment_path`: `edges[e].flow += f; edges[e ^ 1].flow -= f`. -/
def augmentUpdate (edges : List FlowEdge) (e : Nat) (f : Int) :
    Option (List FlowEdge) :=
  match edges[e]? with
  | none => none
  | some ed =>
    match (edges.set e { ed with flow := ed.flow + f })[e ^^^ 1]? with
    | none => none
    | some ed2 =>
      some ((edges.set e { ed with flow := ed.flow + f }).set (e ^^^ 1)
        { ed2 with flow := ed2.flow - f })

mutual

/-- `Dinic::dinic_augment` (entry): returns the whole input flow at the
sink, otherwise runs the blocking-flow `while` loop. -/
def augRec (dist : List Int) (t : Nat) (fuel : Nat) (u : Nat)
    (flow_input : Int) (edges : List FlowEdge)
    (iters : List (List AdjTo)) :
    Option (Int × List FlowEdge × List (List AdjTo)) :=
  match fuel with
  | 0 => none
  | fuel + 1 =>
    if u = t then some (flow_input, edges, iters)
    else augWhile dist t fuel u flow_input 0 edges iters

/-- The `while let Some(..) = adj[u].peek()` loop of `dinic_augment`,
with `flow_used` accumulated; `adj[u].next()` is the tail of the current
iterator. -/
def augWhile (dist : List Int) (t : Nat) (fuel : Nat) (u : Nat)
    (flow_input flow_used : Int) (edges : List FlowEdge)
    (iters : List (List AdjTo)) :
    Option (Int × List FlowEdge × List (List AdjTo)) :=
  match fuel with
  | 0 => none
  | fuel + 1 =>
    match iters[u]? with
    | none => none
    | some [] => some (flow_used, edges, iters)
    | some (a :: lrest) =>
      match edges[a.edge_id]? with
      | none => none
      | some ed =>
        if 0 < min (ed.cap - ed.flow) (flow_input - flow_used) then
          match dist[a.v]? with
          | none => none
          | some dv =>
            match dist[u]? with
            | none => none
            | some du =>
              if dv = du + 1 then
                match augRec dist t fuel a.v
                    (min (ed.cap - ed.flow) (flow_input - flow_used))
                    edges iters with
                | none => none
                | some (mf, edges2, iters2) =>
                  match augmentUpdate edges2 a.edge_id mf with
                  | none => none
                  | some edges3 =>
                    if flow_used + mf = flow_input then
                      some (flow_input, edges3, iters2)
                    else
                      match iters2[u]? with
                      | none => none
                      | some l2 =>
                        augWhile dist t fuel u flow_input (flow_used + mf)
                          edges3 (iters2.set u l2.tail)
              else augWhile dist t fuel u flow_input flow_used edges
                (iters.set u lrest)
        else augWhile dist t fuel u flow_input flow_used edges
          (iters.set u lrest)

end

/-- The fresh per-vertex adjacency iterators of `Dinic::dinic`. -/
def buildIters (adjf : Nat → List AdjTo) (n : Nat) : List (List AdjTo) :=
  (List.range n).map adjf

/-- The outer `loop` of `Dinic::dinic`. -/
def dinicLoop (adjf : Nat → List AdjTo) (n s t : Nat) :
    Nat → Int → List FlowEdge → Option (Int × List FlowEdge × List Int)
  | 0, _, _ => none
  | fuel + 1, max_flow, edges =>
    match dinic_search edges adjf n s with
    | none => none
    | some dist =>
      match dist[t]? with
      | none => none
      | some dt =>
        if dt = INF then some (max_flow, edges, dist)
        else
          match augRec dist t (2 * edges.length + 2 * n + 4) s INF edges
              (buildIters adjf n) with
          | none => none
          | some (mf, edges2, _) =>
            dinicLoop adjf n s t fuel (max_flow + mf) edges2

/-- `Dinic::dinic`: the returned flow value together with the final
state (mutated `edges` and `distance`). -/
def Dinic.dinic (g : Dinic) (s t : Nat) : Option (Int × Dinic) :=
  match dinicLoop (adjOf g) g.num_vert s t (g.num_vert + 2) 0 g.edges with
  | none => none
  | some (mf, edges2, dist2) =>
    some (mf, { g with edges := edges2, distance := dist2 })

/-- Builds a network by a sequence of `add_edge` calls. -/
def buildDinic (vmax emax : Nat) (calls : List (Nat × Nat × Int)) : Dinic :=
  calls.foldl (fun g c => g.add_edge c.1 c.2.1 c.2.2) (Dinic.new vmax emax)

/-- Two association-list maps with the same point lookups: the
extensional content of a `HashMap`, which fixes everything the code can
observe of it. -/
def mapEquiv (m1 m2 : List (Nat × List AdjTo)) : Prop :=
  ∀ u, Collection.mapGet u m1 = Collection.mapGet u m2

lemma mapGet_append2 {α β : Type*} [DecidableEq α] (k : α) :
    ∀ (m m2 : List (α × β)), Collection.mapGet k (m ++ m2) =
      (match Collection.mapGet k m with
        | some v => some v
        | none => Collection.mapGet k m2) := by
  intro m m2
  induction m with
  | nil => rfl
  | cons p ps ih =>
    rw [List.cons_append, Collection.mapGet, Collection.mapGet]
    by_cases hk : p.1 = k
    · rw [if_pos hk, if_pos hk]
    · rw [if_neg hk, if_neg hk, ih]

lemma mapGet_eq_none_of_not_mem {α β : Type*} [DecidableEq α] (k : α) :
    ∀ (l : List (α × β)), k ∉ l.map Prod.fst →
    Collection.mapGet k l = none := by
  intro l
  induction l with
  | nil => intro _; rfl
  | cons p ps ih =>
    intro h
    rw [List.map_cons] at h
    have h1 : ¬ p.1 = k := by
      intro hpk
      rw [← hpk] at h
      exact h (List.mem_cons_self _ _)
    rw [Collection.mapGet, if_neg h1]
    exact ih (fun h2 => h (List.mem_cons_of_mem _ h2))

lemma mapGet_reverse {α β : Type*} [DecidableEq α] :
    ∀ (l : List (α × β)), (l.map Prod.fst).Nodup →
    ∀ k, Collection.mapGet k l.reverse = Collection.mapGet k l := by
  intro l
  induction l with
  | nil => intro _ k; rfl
  | cons p ps ih =>
    intro hnd k
    rw [List.map_cons, List.nodup_cons] at hnd
    rw [List.reverse_cons, mapGet_append2, ih hnd.2 k]
    by_cases hk : p.1 = k
    · have hnone : Collection.mapGet k ps = none := by
        apply mapGet_eq_none_of_not_mem
        intro hmem
        rw [← hk] at hmem
        exact hnd.1 hmem
      rw [hnone]
      show Collection.mapGet k [p] = Collection.mapGet k (p :: ps)
      rw [Collection.mapGet, Collection.mapGet, if_pos hk]
      rw [Collection.mapGet, if_pos hk]
    · cases hmg : Collection.mapGet k ps with
      | none =>
        show Collection.mapGet k [p] = Collection.mapGet k (p :: ps)
        rw [Collection.mapGet, Collection.mapGet, if_neg hk]
        rw [Collection.mapGet, if_neg hk, hmg]
      | some v =>
        show some v = Collection.mapGet k (p :: ps)
        rw [Collection.mapGet, if_neg hk, hmg]

/-- C9: the outcome of `dinic` does not depend on the internal
arrangement of the `HashMap` adjacency: for a network built by a
sequence of `add_edge` calls and any state whose adjacency map has the
same point lookups (and equal vertex count and edge vector), the
returned flow value, the final per-edge flow assignments, and the final
distances coincide; hence two runs on equal inputs give equal results. -/
theorem dinic_deterministic (vmax emax : Nat)
    (calls : List (Nat × Nat × Int)) (s t : Nat) (g2 : Dinic)
    (hadj : mapEquiv (buildDinic vmax emax calls).adj g2.adj)
    (hnum : g2.num_vert = (buildDinic vmax emax calls).num_vert)
    (hedges : g2.edges = (buildDinic vmax emax calls).edges) :
    (Dinic.dinic (buildDinic vmax emax calls) s t).map
        (fun r => (r.1, r.2.edges, r.2.distance)) =
      (Dinic.dinic g2 s t).map
        (fun r => (r.1, r.2.edges, r.2.distance)) := by
  have hf : adjOf (buildDinic vmax emax calls) = adjOf g2 := by
    funext u
    rw [adjOf, adjOf, hadj u]
  rw [Dinic.dinic, Dinic.dinic, hf, hnum, hedges]
  cases dinicLoop (adjOf g2) (buildDinic vmax emax calls).num_vert s t
      ((buildDinic vmax emax calls).num_vert + 2) 0
      (buildDinic vmax emax calls).edges with
  | none => rfl
  | some r => rfl

/-- A concrete instance: the repository test network with its adjacency
association list reversed (a different, equivalent map layout). -/
theorem dinic_deterministic_witness :
    (Dinic.dinic (buildDinic 5 5 [(0, 1, 3), (1, 2, 2), (1, 3, 2),
        (2, 4, 2), (3, 4, 2)]) 0 4).map
        (fun r => (r.1, r.2.edges, r.2.distance)) =
      (Dinic.dinic ⟨(buildDinic 5 5 [(0, 1, 3), (1, 2, 2), (1, 3, 2),
          (2, 4, 2), (3, 4, 2)]).adj.reverse,
        (buildDinic 5 5 [(0, 1, 3), (1, 2, 2), (1, 3, 2), (2, 4, 2),
          (3, 4, 2)]).num_vert,
        (buildDinic 5 5 [(0, 1, 3), (1, 2, 2), (1, 3, 2), (2, 4, 2),
          (3, 4, 2)]).edges, []⟩ 0 4).map
        (fun r => (r.1, r.2.edges, r.2.distance)) :=
  dinic_deterministic 5 5 [(0, 1, 3), (1, 2, 2), (1, 3, 2), (2, 4, 2),
    (3, 4, 2)] 0 4 _
    (fun u => (mapGet_reverse _ (by decide) u).symm) rfl rfl

end Flow

end Rustrithm
